import Mathlib

/-!
# NPC bartering: trade state, autobalance and the negotiation session

A shallow embedding of `src/npctrade.cpp`, of the input loop of
`src/trade_win.cpp` (`trading_window::perform_trade`), and of the paging of
responses in `src/dialogue_win.cpp` (`split_to_pages`, `display_responses`).

Modelling conventions.

* C++ `int`, `size_t` and the `units::volume` / `units::mass` quantities are
  unbounded `Int` / `Nat` values: arithmetic overflow is outside the model.
* `float` / `double` values are exact rationals (`ℚ`).  `static_cast<int>` of
  such a value is truncation toward zero, `std::floor` / `std::ceil` are
  `Int.floor` / `Int.ceil`.
* A `std::vector` is a `List`; a reference into a vector is an index, the
  update is written back with `List.set`.
* A `std::unordered_map` is an association list in insertion order; the order
  in which the C++ container is traversed is a parameter (`ui_env.iter`).
* Everything the loop obtains from the user or from the terminal (the action,
  the raw key, answers of the modal dialogs, the terminal height) is a field
  of `trade_input`.
* The functions of other translation units that `init_buying` and
  `split_to_pages` call (item tests and properties, the sort of the offers,
  `foldstring`) are parameters; an expression with undefined behaviour in the
  source (`front()` of an empty vector, an index past the end) is `none`.
-/

set_option autoImplicit false
set_option maxRecDepth 100000

namespace BN

/-! ## Data model -/

/-- Values of `item_location_type`; the trade window only tests for `character`. -/
inductive item_location_type where
  | invalid
  | character
  | map
  | vehicle
  deriving DecidableEq, Repr, Inhabited

/-- The part of an `item` that the trade code reads: its type id, the id of its
category, where it is stored, its charges and its owner. -/
structure item where
  typeId : Nat
  category : Nat
  where_type : item_location_type
  charges : Int
  owner : Nat
  deriving DecidableEq, Repr, Inhabited

/-- The class `item_pricing` of `npctrade.h`. -/
structure item_pricing where
  locs : List item
  price : ℚ
  selected : Bool
  is_container : Bool
  count : Int
  charges : Int
  u_has : Int
  npc_has : Int
  u_charges : Int
  npc_charges : Int
  weight : Int
  vol : Int
  deriving DecidableEq, Repr, Inhabited

/-- The struct `npc_trading::trade_state`. -/
structure trade_state where
  theirs : List item_pricing
  yours : List item_pricing
  your_balance : Int
  volume_left : Int
  weight_left : Int
  deriving DecidableEq, Repr, Inhabited

/-- The member `op_of_u` of an `npc`: only `owed` is used by the trade code. -/
structure npc_opinion where
  owed : Int
  deriving DecidableEq, Repr, Inhabited

/-- The capabilities of an `npc` that the trade code calls. -/
structure npc where
  will_exchange_items_freely : Bool
  max_credit_extended : Int
  max_willing_to_owe : Int
  op_of_u : npc_opinion
  is_shopkeeper : Bool
  volume_capacity : Int
  volume_carried : Int
  weight_capacity : Int
  weight_carried : Int
  deriving DecidableEq, Repr, Inhabited

/-- The expression `locs.front()`; the source never builds an offer with an empty `locs`. -/
def front (locs : List item) : item := locs.headD default

/-- The conversion `static_cast<int>( x )` of a floating point value: truncation toward zero. -/
def static_cast_int (x : ℚ) : Int := if 0 ≤ x then ⌊x⌋ else ⌈x⌉

/-- The function `std::clamp( v, lo, hi )`. -/
def clamp (v lo hi : Int) : Int := if v < lo then lo else if hi < v then hi else v

/-- The range `std::views::iota( a, b )` over `int`. -/
def iota_int (a b : Int) : List Int :=
  (List.range (b - a).toNat).map (fun (k : Nat) => a + (k : Int))

/-- The range `std::views::iota( a, b )` over `size_t`. -/
def iota (a b : Nat) : List Nat := List.range' a (b - a)

/-! ## `npctrade.cpp` -/

namespace npc_trading

/-- The function `npc_trading::npc_will_accept_trade`. -/
def npc_will_accept_trade (state : trade_state) (np : npc) : Bool :=
  np.will_exchange_items_freely || decide (state.your_balance + np.max_credit_extended > 0)

/-- The function `npc_trading::calc_npc_owes_you`. -/
def calc_npc_owes_you (state : trade_state) (np : npc) : Int :=
  if np.will_exchange_items_freely then
    0
  else if state.your_balance > np.op_of_u.owed ∧ state.your_balance > np.max_willing_to_owe then
    max np.op_of_u.owed np.max_willing_to_owe
  else
    state.your_balance

/-- The function `npc_trading::update_npc_owed`. -/
def update_npc_owed (state : trade_state) (np : npc) : npc :=
  { np with op_of_u := { np.op_of_u with owed := calc_npc_owes_you state np } }

/-- What `transfer_items` does to the items of the offers: the items handed to the receiver
through `i_add`, in order, and the items that stay with the giver. -/
structure transfer_result where
  received : List item
  kept : List item
  deriving DecidableEq, Repr, Inhabited

/-- Modelled from the spec: the method `item::split( qty )`, whose code is not among the
sources; it "splits exactly the agreed charge count off the stack".  Returns the item split
off, with `qty` charges, and the rest of the stack. -/
def item_split (it : item) (qty : Int) : item × item :=
  ({ it with charges := qty }, { it with charges := it.charges - qty })

/-- The method `item::set_owner( receiver )`. -/
def item_set_owner (it : item) (receiver : Nat) : item := { it with owner := receiver }

/-- The function `npc_trading::transfer_items`; `receiver` is the id of the receiving
character. -/
def transfer_items (stuff : List item_pricing) (receiver : Nat) (npc_gives : Bool) :
    transfer_result :=
  stuff.foldl (fun (acc : transfer_result) ip =>
    if !ip.selected then
      { acc with kept := acc.kept ++ ip.locs }
    else
      let gift := front ip.locs
      let charges := if npc_gives then ip.u_charges else ip.npc_charges
      if ip.charges ≠ 0 then
        let sp := item_split gift charges
        let to_give := item_set_owner sp.1 receiver
        { received := acc.received ++ [to_give], kept := acc.kept ++ sp.2 :: ip.locs.tail }
      else
        { received := acc.received ++ item_set_owner gift receiver :: ip.locs.tail,
          kept := acc.kept }) { received := [], kept := [] }

/-- The part of a `Character` read by `net_price_adjustment`: the current intelligence and
the level of the barter skill. -/
structure Character where
  int_cur : Int
  barter_skill_level : Int
  deriving DecidableEq, Repr, Inhabited

/-- The function `npc_trading::net_price_adjustment`; `price_adjustment` is the external
function of the skill difference. -/
def net_price_adjustment (price_adjustment : Int → ℚ) (buyer seller : Character) : ℚ :=
  let adjust : ℚ := (5 / 100 : ℚ) * ((seller.int_cur - buyer.int_cur : Int) : ℚ) +
    price_adjustment (seller.barter_skill_level - buyer.barter_skill_level)
  max adjust 1

/-- The part of a `faction` read by `adjust_values`: the item type that is its currency. -/
structure faction where
  currency : Nat
  deriving DecidableEq, Repr, Inhabited

/-- The method `item_pricing::adjust_values`; a null `fac` is `none`. -/
def adjust_values (ip : item_pricing) (adjust : ℚ) (fac : Option faction) : item_pricing :=
  match fac with
  | none => { ip with price := ip.price * adjust }
  | some f =>
    if f.currency ≠ (front ip.locs).typeId then { ip with price := ip.price * adjust }
    else ip

/-- The function `npc_trading::setup_trade_state`; `theirs` and `yours` are the two results of
`init_buying`, and the fresh `trade_state` has no capacity yet. -/
def setup_trade_state (cost : Int) (np : npc) (theirs yours : List item_pricing) : trade_state :=
  { theirs := theirs
    yours := yours
    your_balance := if np.will_exchange_items_freely then 0 else np.op_of_u.owed - cost
    volume_left := 0
    weight_left := 0 }

end npc_trading

/-! ## `trade_win.cpp`: helpers of the input loop -/

/-- The struct `category_range`: the half-open interval `[start, end_)` of positions of the
filtered list that share the category `id`. -/
structure category_range where
  id : Nat
  start : Nat
  end_ : Nat
  deriving DecidableEq, Repr, Inhabited

/-- The function `build_category_ranges`. -/
def build_category_ranges (list : List item_pricing) (filtered : List Nat) :
    List category_range :=
  (iota 0 filtered.length).foldl (fun ranges idx =>
    let list_index := filtered.getD idx 0
    let ip := list.getD list_index default
    let category_id := (front ip.locs).category
    match ranges.getLast? with
    | none => [{ id := category_id, start := idx, end_ := idx + 1 }]
    | some back =>
      if back.id ≠ category_id then
        (ranges.dropLast ++ [{ back with end_ := idx }]) ++
          [{ id := category_id, start := idx, end_ := idx + 1 }]
      else
        ranges.dropLast ++ [{ back with end_ := idx + 1 }]) []

/-- The method `trading_window::build_filtered_indices`; `item_filter_from_string` is the
external filter compiler. -/
def build_filtered_indices (item_filter_from_string : String → item → Bool)
    (list : List item_pricing) (filter : String) : List Nat :=
  if filter.isEmpty then
    iota 0 list.length
  else
    (iota 0 list.length).filter (fun idx =>
      item_filter_from_string filter (front (list.getD idx default).locs))

/-- The method `trading_window::get_var_trade`: `canceled` and `how_many` are what the
quantity prompt returns; the hint only changes the text shown. -/
def get_var_trade (total_count : Int) (_amount_hint : Int) (canceled : Bool) (how_many : Int) :
    Int :=
  if canceled ∨ how_many ≤ 0 then -1 else min total_count how_many

/-- The lambda `clamp_cursor_to_list`: returns the new `(cursor, offset)`. -/
def clamp_cursor_to_list (entries_per_page list_size cursor offset : Nat) : Nat × Nat :=
  if entries_per_page = 0 then
    (if list_size = 0 then 0 else min cursor (list_size - 1), 0)
  else if list_size = 0 then
    (0, 0)
  else
    let cursor := min cursor (list_size - 1)
    if list_size ≤ entries_per_page then
      (cursor, 0)
    else
      let offset :=
        if cursor < offset then cursor
        else if cursor ≥ offset + entries_per_page then cursor - entries_per_page + 1
        else offset
      let offset :=
        if offset + entries_per_page > list_size then list_size - entries_per_page else offset
      (cursor, offset)

/-- The lambda `get_current_amount`. -/
def get_current_amount (focus_them : Bool) (ip : item_pricing) : Int :=
  if ip.charges > 0 then
    (if focus_them then ip.u_charges else ip.npc_charges)
  else
    (if focus_them then ip.u_has else ip.npc_has)

/-- The lambda `get_max_amount`. -/
def get_max_amount (ip : item_pricing) : Int :=
  if ip.charges > 0 then ip.charges else max ip.count 1

/-- The reference `owner_sells = focus_them ? ip.u_has : ip.npc_has`, read. -/
def owner_sells (focus_them : Bool) (ip : item_pricing) : Int :=
  if focus_them then ip.u_has else ip.npc_has

/-- The reference `owner_sells_charge = focus_them ? ip.u_charges : ip.npc_charges`, read. -/
def owner_sells_charge (focus_them : Bool) (ip : item_pricing) : Int :=
  if focus_them then ip.u_charges else ip.npc_charges

/-- An assignment through the reference `owner_sells`. -/
def set_owner_sells (focus_them : Bool) (ip : item_pricing) (v : Int) : item_pricing :=
  if focus_them then { ip with u_has := v } else { ip with npc_has := v }

/-- An assignment through the reference `owner_sells_charge`. -/
def set_owner_sells_charge (focus_them : Bool) (ip : item_pricing) (v : Int) : item_pricing :=
  if focus_them then { ip with u_charges := v } else { ip with npc_charges := v }

/-- The assignment `ip.selected = v`. -/
def set_selected (ip : item_pricing) (v : Bool) : item_pricing := { ip with selected := v }

/-- The ledger update shared by `apply_trade_change` and the hotkey branch: the price of
`signed_amount` units leaves the balance unless the NPC exchanges freely, and the capacity left
changes when the item is carried by a character. -/
def settle_amount (np : npc) (ip : item_pricing) (signed_amount : Int) (state : trade_state) :
    trade_state :=
  let delta_price := static_cast_int (ip.price * (signed_amount : ℚ))
  let on_character := (front ip.locs).where_type = item_location_type.character
  { theirs := state.theirs
    yours := state.yours
    your_balance :=
      if !np.will_exchange_items_freely then state.your_balance - delta_price
      else state.your_balance
    volume_left :=
      if on_character then state.volume_left + ip.vol * signed_amount else state.volume_left
    weight_left :=
      if on_character then state.weight_left + ip.weight * signed_amount
      else state.weight_left }

/-- The lambda `apply_trade_change`: `ip` is the referenced offer, the result is the updated
offer and the updated ledger. -/
def apply_trade_change (np : npc) (focus_them : Bool) (ip : item_pricing) (new_amount : Int)
    (state : trade_state) : item_pricing × trade_state :=
  let has_charges := decide (ip.charges > 0)
  let current_amount :=
    if has_charges then owner_sells_charge focus_them ip else owner_sells focus_them ip
  let max_amount := if has_charges then ip.charges else max ip.count 1
  let clamped_amount := clamp new_amount 0 max_amount
  if clamped_amount = current_amount then
    (ip, state)
  else
    let delta_amount := clamped_amount - current_amount
    let ip1 : item_pricing :=
      if has_charges then set_owner_sells_charge focus_them ip clamped_amount
      else set_owner_sells focus_them ip clamped_amount
    let ip2 : item_pricing := set_selected ip1 (decide (clamped_amount > 0))
    let signed_amount := if focus_them then delta_amount else -delta_amount
    (ip2, settle_amount np ip signed_amount state)

/-- The algorithm `std::ranges::min_element` with a comparator: the first smallest element. -/
def min_element (comp : Int → Int → Bool) : List Int → Option Int
  | [] => none
  | x :: xs => some (xs.foldl (fun smallest y => if comp y smallest then y else smallest) x)

/-- The algorithm `std::ranges::max_element` with a comparator: the first largest element. -/
def max_element (comp : Int → Int → Bool) : List Int → Option Int
  | [] => none
  | x :: xs => some (xs.foldl (fun largest y => if comp largest y then y else largest) x)

/-- The value `unit_balance_delta` computed by both autobalance lambdas. -/
def unit_balance_delta (focus_them : Bool) (ip : item_pricing) : Int :=
  (if focus_them then -1 else 1) * static_cast_int ip.price

/-- The lambda `calc_autobalance_amount`. -/
def calc_autobalance_amount (focus_them : Bool) (your_balance : Int) (ip : item_pricing) : Int :=
  let unit := unit_balance_delta focus_them ip
  if unit = 0 then
    get_current_amount focus_them ip
  else
    let current_amount := get_current_amount focus_them ip
    let max_amount := get_max_amount ip
    let ideal : ℚ := (current_amount : ℚ) - (your_balance : ℚ) / (unit : ℚ)
    let clamp_amount := fun (amount : Int) => clamp amount 0 max_amount
    let candidates : List Int :=
      [clamp_amount 0, clamp_amount max_amount, clamp_amount ⌊ideal⌋, clamp_amount ⌈ideal⌉]
    let result_balance := fun (amount : Int) => your_balance + unit * (amount - current_amount)
    let non_debt_candidates := candidates.filter (fun amount => decide (result_balance amount ≥ 0))
    if non_debt_candidates ≠ [] then
      (min_element (fun lhs rhs =>
        let lhs_balance := result_balance lhs
        let rhs_balance := result_balance rhs
        let lhs_abs := |lhs_balance|
        let rhs_abs := |rhs_balance|
        if lhs_abs ≠ rhs_abs then decide (lhs_abs < rhs_abs)
        else decide (|lhs - current_amount| < |rhs - current_amount|))
        non_debt_candidates).getD 0
    else
      (max_element (fun lhs rhs =>
        let lhs_balance := result_balance lhs
        let rhs_balance := result_balance rhs
        if lhs_balance ≠ rhs_balance then decide (lhs_balance < rhs_balance)
        else decide (|lhs - current_amount| > |rhs - current_amount|))
        candidates).getD 0

/-! ## `trade_win.cpp`: the category autobalance plan -/

/-- The struct `balance_item_entry`. -/
structure balance_item_entry where
  list_index : Nat
  current_amount : Int
  max_amount : Int
  unit_balance_delta : Int
  deriving DecidableEq, Repr, Inhabited

/-- The struct `balance_choice`. -/
structure balance_choice where
  prev_balance : Int
  amount : Int
  deriving DecidableEq, Repr, Inhabited

/-- The type `balance_map = std::unordered_map<int, balance_choice>`: the entries in insertion
order, keys distinct. -/
abbrev balance_map := List (Int × balance_choice)

/-- The type `std::unordered_map<size_t, int>` of the returned plan. -/
abbrev plan_map := List (Nat × Int)

/-- The member `find` of a `balance_map`. -/
def balance_map_find (m : balance_map) (key : Int) : Option balance_choice :=
  (m.find? (fun e => e.1 == key)).map (fun e => e.2)

/-- The member `emplace` of a `balance_map`: inserts unless the key is present, and tells
whether it inserted. -/
def balance_map_emplace (m : balance_map) (key : Int) (value : balance_choice) :
    balance_map × Bool :=
  match balance_map_find m key with
  | some _ => (m, false)
  | none => (m ++ [(key, value)], true)

/-- The member `find` of the plan. -/
def plan_find (m : plan_map) (key : Nat) : Option Int :=
  (m.find? (fun e => e.1 == key)).map (fun e => e.2)

/-- The member `emplace` of the plan. -/
def plan_emplace (m : plan_map) (key : Nat) (value : Int) : plan_map :=
  match plan_find m key with
  | some _ => m
  | none => m ++ [(key, value)]

/-- The assignment `plan[key] = value`. -/
def plan_assign (m : plan_map) (key : Nat) (value : Int) : plan_map :=
  match plan_find m key with
  | some _ => m.map (fun e => if e.1 == key then (key, value) else e)
  | none => m ++ [(key, value)]

/-- The first loop of `calc_category_autobalance_plan`: every offer of the range enters the
plan with its current amount; the offers with a non-zero unit and maximum become entries. -/
def collect_entries (focus_them : Bool) (list : List item_pricing)
    (filtered_indices : List Nat) (range : category_range) :
    plan_map × List balance_item_entry :=
  (iota range.start range.end_).foldl (fun (acc : plan_map × List balance_item_entry) idx =>
    let list_index := filtered_indices.getD idx 0
    let ip := list.getD list_index default
    let current_amount := get_current_amount focus_them ip
    let plan := plan_emplace acc.1 list_index current_amount
    let unit := unit_balance_delta focus_them ip
    let max_amount := get_max_amount ip
    if unit = 0 ∨ max_amount = 0 then
      (plan, acc.2)
    else
      (plan, acc.2 ++ [{ list_index := list_index, current_amount := current_amount,
                         max_amount := max_amount, unit_balance_delta := unit }])) ([], [])

/-- The second loop: the bounds `(min_balance, max_balance)` of the reachable balances. -/
def balance_bounds (your_balance : Int) (entries : List balance_item_entry) : Int × Int :=
  entries.foldl (fun (acc : Int × Int) entry =>
    let delta_at_min := entry.unit_balance_delta * (0 - entry.current_amount)
    let delta_at_max := entry.unit_balance_delta * (entry.max_amount - entry.current_amount)
    (acc.1 + min delta_at_min delta_at_max, acc.2 + max delta_at_min delta_at_max))
    (your_balance, your_balance)

/-- The innermost loop of the dynamic programme: the amounts `amounts` of one entry tried from
the state `prev_balance`; a balance is recorded the first time it is reached. -/
def dp_try_amounts (entry : balance_item_entry) (prev_balance : Int) (amounts : List Int)
    (acc : balance_map × balance_map) : balance_map × balance_map :=
  amounts.foldl (fun (acc : balance_map × balance_map) amount =>
    let new_balance := prev_balance + entry.unit_balance_delta * (amount - entry.current_amount)
    let choice : balance_choice := { prev_balance := prev_balance, amount := amount }
    let r := balance_map_emplace acc.1 new_balance choice
    if r.2 then (r.1, (balance_map_emplace acc.2 new_balance choice).1) else (r.1, acc.2)) acc

/-- The body of the loop over `dp` for one entry: the range of amounts that keeps the balance
within the global bounds, then `dp_try_amounts`. -/
def dp_visit (min_balance max_balance : Int) (entry : balance_item_entry)
    (acc : balance_map × balance_map) (entry_pair : Int × balance_choice) :
    balance_map × balance_map :=
  let prev_balance := entry_pair.1
  let unit := entry.unit_balance_delta
  let current_amount := entry.current_amount
  let max_amount := entry.max_amount
  let lower : ℚ := ((min_balance - prev_balance : Int) : ℚ) / (unit : ℚ) + (current_amount : ℚ)
  let upper : ℚ := ((max_balance - prev_balance : Int) : ℚ) / (unit : ℚ) + (current_amount : ℚ)
  let min_amount := clamp ⌈min lower upper⌉ 0 max_amount
  let max_amount_bound := clamp ⌊max lower upper⌋ 0 max_amount
  if min_amount > max_amount_bound then
    acc
  else
    dp_try_amounts entry prev_balance (iota_int min_amount (max_amount_bound + 1)) acc

/-- One step of the loop over the entries: from `dp` to `(next, item_decisions)`; `iter` is the
order in which the `unordered_map` is traversed. -/
def dp_step (iter : balance_map → balance_map) (min_balance max_balance : Int)
    (dp : balance_map) (entry : balance_item_entry) : balance_map × balance_map :=
  (iter dp).foldl (dp_visit min_balance max_balance entry) ([], [])

/-- The loop over the entries: the final `dp` and the vector `decisions`. -/
def dp_pass (iter : balance_map → balance_map) (min_balance max_balance : Int)
    (your_balance : Int) (entries : List balance_item_entry) :
    balance_map × List balance_map :=
  entries.foldl (fun (acc : balance_map × List balance_map) entry =>
    let r := dp_step iter min_balance max_balance acc.1 entry
    (r.1, acc.2 ++ [r.2]))
    ([(your_balance, { prev_balance := your_balance, amount := 0 })], [])

/-- The body of the first loop over `dp` that looks for `best_balance`: a non-negative balance
replaces a missing or greater one. -/
def best_non_debt_step (best_balance : Option Int) (entry_pair : Int × balance_choice) :
    Option Int :=
  let balance := entry_pair.1
  if balance ≥ 0 then
    match best_balance with
    | none => some balance
    | some b => if balance < b then some balance else some b
  else best_balance

/-- The body of the second loop, run when no balance is non-negative: a balance replaces a
missing or smaller one. -/
def best_any_step (best_balance : Option Int) (entry_pair : Int × balance_choice) :
    Option Int :=
  let balance := entry_pair.1
  match best_balance with
  | none => some balance
  | some b => if balance > b then some balance else some b

/-- The choice of `best_balance`: the smallest non-negative key of `dp`, or else the largest
key. -/
def pick_best_balance (iter : balance_map → balance_map) (dp : balance_map) : Option Int :=
  match (iter dp).foldl best_non_debt_step none with
  | some b => some b
  | none => (iter dp).foldl best_any_step none

/-- The backtracking loop, from the last entry to the first: `steps` lists the entries with
their decisions in reverse order. -/
def backtrack : List (balance_item_entry × balance_map) → Int → plan_map → plan_map
  | [], _, plan => plan
  | (entry, item_decisions) :: rest, balance, plan =>
    match balance_map_find item_decisions balance with
    | none => plan
    | some found => backtrack rest found.prev_balance (plan_assign plan entry.list_index found.amount)

/-- The lambda `calc_category_autobalance_plan`. -/
def calc_category_autobalance_plan (iter : balance_map → balance_map) (focus_them : Bool)
    (your_balance : Int) (list : List item_pricing) (filtered_indices : List Nat)
    (range : category_range) : plan_map :=
  let ce := collect_entries focus_them list filtered_indices range
  let plan := ce.1
  let entries := ce.2
  if entries = [] then
    plan
  else
    let bounds := balance_bounds your_balance entries
    let r := dp_pass iter bounds.1 bounds.2 your_balance entries
    let dp := r.1
    let decisions := r.2
    if dp = [] then
      plan
    else
      match pick_best_balance iter dp with
      | none => plan
      | some best_balance => backtrack (entries.zip decisions).reverse best_balance plan

/-! ## `trade_win.cpp`: the negotiation session -/

/-- The enum `trading_window::info_popup_result`. -/
inductive info_popup_result where
  | none
  | move_up
  | move_down
  deriving DecidableEq, Repr, Inhabited

/-- The actions registered by `register_trade_actions`; `OTHER` stands for any other string
returned by `handle_input`. -/
inductive trade_action where
  | SWITCH_LISTS
  | UP
  | DOWN
  | LEFT
  | RIGHT
  | FILTER
  | RESET_FILTER
  | CATEGORY_SELECTION
  | PAGE_UP
  | PAGE_DOWN
  | EXAMINE
  | AUTOBALANCE
  | TOGGLE_ITEM_INFO
  | CONFIRM
  | QUIT
  | HELP_KEYBINDINGS
  | ANY_INPUT
  | OTHER
  deriving DecidableEq, Repr, Inhabited

/-- What one iteration of the input loop reads from the outside: the action, the terminal
height seen by the redraw, and the answers of the dialogs the action may open. -/
structure trade_input where
  action : trade_action
  TERMY : Int
  filter_confirmed : Bool
  filter_text : String
  examine_result : info_popup_result
  query_yn : Bool
  evt_is_keyboard : Bool
  evt_first_input : Char
  popup_canceled : Bool
  popup_how_many : Int
  deriving Repr, Inhabited

/-- The external services of the window: the filter compiler, the hotkeys left free by the
input context, and the traversal order of `std::unordered_map`. -/
structure ui_env where
  item_filter_from_string : String → item → Bool
  item_hotkeys : List Char
  iter : balance_map → balance_map

/-- The members of `trading_window` read by the input loop, with the locals `confirm`, `exit`
and `pending_count` of `perform_trade`. -/
structure trading_window where
  state : trade_state
  entries_per_page : Nat
  focus_them : Bool
  them_off : Nat
  you_off : Nat
  them_cursor : Nat
  you_cursor : Nat
  category_mode : Bool
  them_category_cursor : Nat
  you_category_cursor : Nat
  them_filtered : List Nat
  you_filtered : List Nat
  them_filter : String
  you_filter : String
  show_item_info : Bool
  confirm : Bool
  exit : Bool
  pending_count : Option Int
  deriving Repr, Inhabited

/-- The list `they ? state.theirs : state.yours`. -/
def list_of (they : Bool) (state : trade_state) : List item_pricing :=
  if they then state.theirs else state.yours

/-- Writes the list `they ? state.theirs : state.yours`. -/
def set_list_of (they : Bool) (state : trade_state) (l : List item_pricing) : trade_state :=
  if they then { state with theirs := l } else { state with yours := l }

/-- Runs `f` on the offer `list[list_index]` of the pane `they`, which the source holds by
reference, and stores the updated offer back. -/
def on_offer (they : Bool) (list_index : Nat)
    (f : item_pricing → trade_state → item_pricing × trade_state) (state : trade_state) :
    trade_state :=
  let r := f ((list_of they state).getD list_index default) state
  set_list_of they r.2 ((list_of they r.2).set list_index r.1)

/-- The vector `they ? them_filtered : you_filtered`. -/
def filtered_of (they : Bool) (w : trading_window) : List Nat :=
  if they then w.them_filtered else w.you_filtered

/-- The member `they ? them_cursor : you_cursor`. -/
def cursor_of (they : Bool) (w : trading_window) : Nat :=
  if they then w.them_cursor else w.you_cursor

/-- The member `they ? them_off : you_off`. -/
def offset_of (they : Bool) (w : trading_window) : Nat :=
  if they then w.them_off else w.you_off

/-- The member `they ? them_category_cursor : you_category_cursor`. -/
def category_cursor_of (they : Bool) (w : trading_window) : Nat :=
  if they then w.them_category_cursor else w.you_category_cursor

/-- Writes `they ? them_cursor : you_cursor`. -/
def set_cursor (they : Bool) (w : trading_window) (v : Nat) : trading_window :=
  if they then { w with them_cursor := v } else { w with you_cursor := v }

/-- Writes `they ? them_off : you_off`. -/
def set_offset (they : Bool) (w : trading_window) (v : Nat) : trading_window :=
  if they then { w with them_off := v } else { w with you_off := v }

/-- Writes `they ? them_category_cursor : you_category_cursor`. -/
def set_category_cursor (they : Bool) (w : trading_window) (v : Nat) : trading_window :=
  if they then { w with them_category_cursor := v } else { w with you_category_cursor := v }

/-- Writes `they ? them_filter : you_filter`. -/
def set_filter (they : Bool) (w : trading_window) (v : String) : trading_window :=
  if they then { w with them_filter := v } else { w with you_filter := v }

/-- Writes `they ? them_filtered : you_filtered`. -/
def set_filtered (they : Bool) (w : trading_window) (v : List Nat) : trading_window :=
  if they then { w with them_filtered := v } else { w with you_filtered := v }

/-- The call `clamp_cursor_to_list( list_size, cursor, offset )` on the cursor and offset of
the pane `they`. -/
def clamp_pane (they : Bool) (list_size : Nat) (w : trading_window) : trading_window :=
  let r := clamp_cursor_to_list w.entries_per_page list_size (cursor_of they w) (offset_of they w)
  set_offset they (set_cursor they w r.1) r.2

/-- The method `trading_window::setup_win`, reduced to the value of `entries_per_page`: an
`int` stored in a `size_t`. -/
def setup_win (TERMY : Int) (show_item_info : Bool) : Nat :=
  let info_height : Int := if show_item_info then 4 else 0
  ((min (TERMY - 4 - info_height - 3 - 4) (2 + 25 + 25)) % (2 ^ 64 : Int)).toNat

/-- The call `ui_manager::redraw()` at the head of the loop: `setup_win` fixes the page size
and `update_win` rebuilds both filtered index vectors. -/
def redraw (env : ui_env) (TERMY : Int) (w : trading_window) : trading_window :=
  { w with
    entries_per_page := setup_win TERMY w.show_item_info
    them_filtered := build_filtered_indices env.item_filter_from_string w.state.theirs w.them_filter
    you_filtered := build_filtered_indices env.item_filter_from_string w.state.yours w.you_filter }

/-- The lambda `calc_amount_hint` of the hotkey branch. -/
def calc_amount_hint (focus_them : Bool) (ip : item_pricing) (your_balance : Int) : Int :=
  if ip.price > 0 then
    if focus_them ∧ your_balance > 0 then
      static_cast_int ((your_balance : ℚ) / ip.price)
    else if ¬ focus_them ∧ your_balance < 0 then
      let amt := (your_balance : ℚ) / ip.price
      let rem : ℚ := if ((amt.den : Int) = 1) then 0 else 1
      static_cast_int (amt - rem)
    else 0
  else 0

/-- The hotkey branch of `perform_trade` from `auto change_amount = 1` on: toggles the offer
`ip`.  The result is `none` where the source leaves the iteration by `continue` (the prompt was
cancelled or answered with a number below 1). -/
def hotkey_toggle (np : npc) (focus_them : Bool) (popup_canceled : Bool) (popup_how_many : Int)
    (ip : item_pricing) (state : trade_state) : Option (item_pricing × trade_state) :=
  let chosen : Option (Int × item_pricing) :=
    if ip.selected then
      if owner_sells_charge focus_them ip > 0 then
        some (owner_sells_charge focus_them ip, set_owner_sells_charge focus_them ip 0)
      else if owner_sells focus_them ip > 0 then
        some (owner_sells focus_them ip, set_owner_sells focus_them ip 0)
      else
        some (1, ip)
    else if ip.charges > 0 then
      let hint := calc_amount_hint focus_them ip state.your_balance
      let change_amount := get_var_trade ip.charges hint popup_canceled popup_how_many
      if change_amount < 1 then none
      else some (change_amount, set_owner_sells_charge focus_them ip change_amount)
    else
      if ip.count > 1 then
        let hint := calc_amount_hint focus_them ip state.your_balance
        let change_amount := get_var_trade ip.count hint popup_canceled popup_how_many
        if change_amount < 1 then none
        else some (change_amount, set_owner_sells focus_them ip change_amount)
      else
        some (1, set_owner_sells focus_them ip 1)
  match chosen with
  | none => none
  | some (change_amount0, ip1) =>
    let ip2 : item_pricing := set_selected ip1 (!ip1.selected)
    let change_amount := if ip2.selected ≠ focus_them then change_amount0 * -1 else change_amount0
    some (ip2, settle_amount np ip2 change_amount state)

/-- The search `std::ranges::find_if( category_ranges, entry.id == cursor_category )` followed
by `std::distance`: the position of the first range of that category. -/
def find_category (category_ranges : List category_range) (cursor_category : Nat) : Option Nat :=
  let pos := category_ranges.findIdx (fun entry => entry.id == cursor_category)
  if pos < category_ranges.length then some pos else none

/-- The category id of the offer under the cursor, `target_list[filtered[cursor]]`. -/
def cursor_category_of (they : Bool) (w : trading_window) : Nat :=
  (front ((list_of they w.state).getD
    ((filtered_of they w).getD (cursor_of they w) 0) default).locs).category

/-- The branch `SWITCH_LISTS`. -/
def do_switch_lists (w : trading_window) : trading_window :=
  let w1 := { w with focus_them := !w.focus_them }
  if w1.category_mode then
    let they := w1.focus_them
    let new_filtered := filtered_of they w1
    let new_category_ranges := build_category_ranges (list_of they w1.state) new_filtered
    if new_category_ranges ≠ [] then
      let w2 :=
        if category_cursor_of they w1 ≥ new_category_ranges.length then
          set_category_cursor they w1 (new_category_ranges.length - 1)
        else w1
      let w3 := set_cursor they w2
        (new_category_ranges.getD (category_cursor_of they w2) default).start
      clamp_pane they new_filtered.length w3
    else w1
  else w1

/-- The branches `UP` (`up = true`) and `DOWN`. -/
def do_up_down (up : Bool) (category_ranges : List category_range) (w : trading_window) :
    trading_window :=
  let they := w.focus_them
  let filtered := filtered_of they w
  if w.category_mode then
    if category_ranges ≠ [] then
      let cc := category_cursor_of they w
      let cc1 :=
        if up then (if cc > 0 then cc - 1 else category_ranges.length - 1)
        else (if cc + 1 < category_ranges.length then cc + 1 else 0)
      set_cursor they (set_category_cursor they w cc1) (category_ranges.getD cc1 default).start
    else w
  else if filtered ≠ [] then
    let cursor := cursor_of they w
    set_cursor they w
      (if up then (if cursor > 0 then cursor - 1 else filtered.length - 1)
       else (if cursor + 1 < filtered.length then cursor + 1 else 0))
  else w

/-- The branch `RIGHT` (`right = true`) or `LEFT`. -/
def do_right_left (np : npc) (right : Bool) (category_ranges : List category_range)
    (w : trading_window) : trading_window :=
  let they := w.focus_them
  let filtered := filtered_of they w
  let w1 :=
    if w.category_mode then
      if category_ranges ≠ [] then
        let range := category_ranges.getD (category_cursor_of they w) default
        let apply_amount := fun (ip : item_pricing) (st : trade_state) =>
          if right then
            let max_amount := if ip.charges > 0 then ip.charges else max ip.count 1
            apply_trade_change np they ip max_amount st
          else
            apply_trade_change np they ip 0 st
        { w with state := (iota range.start range.end_).foldl (fun st idx =>
            on_offer they (filtered.getD idx 0) apply_amount st) w.state }
      else w
    else if filtered ≠ [] then
      let list_index := filtered.getD (cursor_of they w) 0
      { w with state := on_offer they list_index (fun ip st =>
          if right then
            let max_amount := if ip.charges > 0 then ip.charges else max ip.count 1
            let requested_amount := w.pending_count.getD max_amount
            apply_trade_change np they ip requested_amount st
          else
            apply_trade_change np they ip 0 st) w.state }
    else w
  { w1 with pending_count := none }

/-- The branch `AUTOBALANCE`. -/
def do_autobalance (np : npc) (env : ui_env) (category_ranges : List category_range)
    (w : trading_window) : trading_window :=
  let they := w.focus_them
  let filtered := filtered_of they w
  if filtered = [] then
    w
  else if w.category_mode then
    if category_ranges = [] then
      w
    else
      let range := category_ranges.getD (category_cursor_of they w) default
      let plan := calc_category_autobalance_plan env.iter they w.state.your_balance
        (list_of they w.state) filtered range
      { w with
        state := (iota range.start range.end_).foldl (fun st idx =>
          let list_index := filtered.getD idx 0
          match plan_find plan list_index with
          | some amount => on_offer they list_index
              (fun ip s => apply_trade_change np they ip amount s) st
          | none => st) w.state
        pending_count := none }
  else
    let list_index := filtered.getD (cursor_of they w) 0
    { w with
      state := on_offer they list_index (fun ip st =>
        apply_trade_change np they ip (calc_autobalance_amount they st.your_balance ip) st)
        w.state
      pending_count := none }

/-- The branch `CATEGORY_SELECTION`. -/
def do_category_selection (category_ranges : List category_range) (w : trading_window) :
    trading_window :=
  let they := w.focus_them
  let filtered := filtered_of they w
  let w1 := { w with category_mode := !w.category_mode }
  if w1.category_mode ∧ category_ranges ≠ [] ∧ filtered ≠ [] then
    let w2 :=
      match find_category category_ranges (cursor_category_of they w1) with
      | some pos => set_category_cursor they w1 pos
      | none => w1
    let w3 := set_cursor they w2 (category_ranges.getD (category_cursor_of they w2) default).start
    clamp_pane they filtered.length w3
  else w1

/-- The branch `FILTER`, with the answer of the modal filter prompt. -/
def do_filter (env : ui_env) (filter_confirmed : Bool) (filter_text : String)
    (w : trading_window) : trading_window :=
  let they := w.focus_them
  if filter_confirmed then
    let w1 := set_filter they w filter_text
    let active_filtered :=
      build_filtered_indices env.item_filter_from_string (list_of they w1.state) filter_text
    clamp_pane they active_filtered.length (set_filtered they w1 active_filtered)
  else w

/-- The branch `RESET_FILTER`. -/
def do_reset_filter (env : ui_env) (w : trading_window) : trading_window :=
  let they := w.focus_them
  let w1 := set_filter they w ""
  let active_filtered :=
    build_filtered_indices env.item_filter_from_string (list_of they w1.state) ""
  clamp_pane they active_filtered.length (set_filtered they w1 active_filtered)

/-- The branches `PAGE_UP` (`up = true`) and `PAGE_DOWN`. -/
def do_page (up : Bool) (w : trading_window) : trading_window :=
  let they := w.focus_them
  let offset := offset_of they w
  if up then
    let w1 := set_offset they w
      (if offset > w.entries_per_page then offset - w.entries_per_page else 0)
    if list_of they w.state ≠ [] then set_cursor they w1 (offset_of they w1) else w1
  else
    let w1 :=
      if offset + w.entries_per_page < (filtered_of they w).length then
        set_offset they w (offset + w.entries_per_page)
      else w
    if filtered_of they w ≠ [] then set_cursor they w1 (offset_of they w1) else w1

/-- The branch `EXAMINE`; `examine_result` is what the item popup returns when it opens. -/
def do_examine (examine_result : info_popup_result) (w : trading_window) : trading_window :=
  let they := w.focus_them
  let filtered := filtered_of they w
  if w.category_mode then
    w
  else
    let index := if filtered = [] then 0 else filtered.getD (cursor_of they w) 0
    let result :=
      if index ≥ (list_of they w.state).length then info_popup_result.none else examine_result
    if filtered ≠ [] then
      let cursor := cursor_of they w
      match result with
      | info_popup_result.move_up =>
        set_cursor they w (if cursor > 0 then cursor - 1 else filtered.length - 1)
      | info_popup_result.move_down =>
        set_cursor they w (if cursor + 1 < filtered.length then cursor + 1 else 0)
      | info_popup_result.none => w
    else w

/-- The branch `CONFIRM`; `query_yn` is the answer to whichever question is asked. -/
def do_confirm (np : npc) (query_yn : Bool) (w : trading_window) : trading_window :=
  if !npc_trading.npc_will_accept_trade w.state np then
    w
  else if w.state.volume_left < 0 ∨ w.state.weight_left < 0 then
    w
  else if npc_trading.calc_npc_owes_you w.state np < w.state.your_balance then
    if query_yn then { w with exit := true, confirm := true } else w
  else
    if query_yn then { w with exit := true, confirm := true } else w

/-- The dialogs that the branch `CONFIRM` can open. -/
inductive confirm_dialog where
  | offer_more
  | credit_limit
  | cannot_carry
  | capped_debt
  | looks_like_a_deal
  deriving DecidableEq, Repr, Inhabited

/-- The dialog that the branch `CONFIRM` opens: one of the three popups, or one of the two
questions asked with `query_yn`. -/
def confirm_dialog_of (np : npc) (w : trading_window) : confirm_dialog :=
  if !npc_trading.npc_will_accept_trade w.state np then
    if np.max_credit_extended = 0 then confirm_dialog.offer_more
    else confirm_dialog.credit_limit
  else if w.state.volume_left < 0 ∨ w.state.weight_left < 0 then
    confirm_dialog.cannot_carry
  else if npc_trading.calc_npc_owes_you w.state np < w.state.your_balance then
    confirm_dialog.capped_debt
  else
    confirm_dialog.looks_like_a_deal

/-- The cursor bookkeeping of the hotkey branch: the cursor moves to the row of the hotkey, and
in category mode the category cursor follows it. -/
def hotkey_cursor (category_ranges : List category_range) (ch_index : Nat) (w : trading_window) :
    trading_window :=
  let they := w.focus_them
  let w1 := clamp_pane they (filtered_of they w).length (set_cursor they w ch_index)
  if w1.category_mode ∧ category_ranges ≠ [] then
    match find_category category_ranges (cursor_category_of they w1) with
    | some pos => set_category_cursor they w1 pos
    | none => w1
  else w1

/-- The branch `ANY_INPUT`: a digit extends `pending_count`, a free hotkey toggles the offer
shown at that row. -/
def do_any_input (np : npc) (env : ui_env) (inp : trade_input)
    (category_ranges : List category_range) (w : trading_window) : trading_window :=
  let they := w.focus_them
  let filtered := filtered_of they w
  if !inp.evt_is_keyboard then
    w
  else
    let ch := inp.evt_first_input
    if '0' ≤ ch ∧ ch ≤ '9' then
      let digit : Int := (ch.toNat : Int) - ('0'.toNat : Int)
      let pending := (w.pending_count.getD 0) * 10 + digit
      { w with pending_count := if pending ≤ 0 then none else some pending }
    else
      let hotkey_pos := env.item_hotkeys.indexOf ch
      if hotkey_pos ≥ env.item_hotkeys.length then
        w
      else
        let ch_index := hotkey_pos + offset_of they w
        if ch_index < filtered.length then
          let w2 := hotkey_cursor category_ranges ch_index w
          let list_index := filtered.getD ch_index 0
          let ip := (list_of they w2.state).getD list_index default
          match hotkey_toggle np they inp.popup_canceled inp.popup_how_many ip w2.state with
          | none => w2
          | some r =>
            { w2 with state := set_list_of they r.2 ((list_of they r.2).set list_index r.1) }
        else w

/-- The head of one iteration of the `while( !exit )` loop, up to `ctxt.handle_input()`: the
redraw, the clamping of cursor and category cursor of the focused pane.  Returns the vector
`category_ranges` and the window. -/
def loop_head (env : ui_env) (w0 : trading_window) (inp : trade_input) :
    List category_range × trading_window :=
  let they := w0.focus_them
  let w1 := redraw env inp.TERMY w0
  let w2 := clamp_pane they (filtered_of they w1).length w1
  let category_ranges := build_category_ranges (list_of they w2.state) (filtered_of they w2)
  if category_cursor_of they w2 ≥ category_ranges.length then
    (category_ranges,
      set_category_cursor they w2 (if category_ranges = [] then 0 else category_ranges.length - 1))
  else (category_ranges, w2)

/-- One iteration of the `while( !exit )` loop of `perform_trade`. -/
def trade_loop_body (np : npc) (env : ui_env) (w0 : trading_window) (inp : trade_input) :
    trading_window :=
  let category_ranges := (loop_head env w0 inp).1
  let w := (loop_head env w0 inp).2
  match inp.action with
  | trade_action.SWITCH_LISTS => do_switch_lists w
  | trade_action.UP => do_up_down true category_ranges w
  | trade_action.DOWN => do_up_down false category_ranges w
  | trade_action.RIGHT => do_right_left np true category_ranges w
  | trade_action.LEFT => do_right_left np false category_ranges w
  | trade_action.AUTOBALANCE => do_autobalance np env category_ranges w
  | trade_action.TOGGLE_ITEM_INFO => { w with show_item_info := !w.show_item_info }
  | trade_action.CATEGORY_SELECTION => do_category_selection category_ranges w
  | trade_action.FILTER => do_filter env inp.filter_confirmed inp.filter_text w
  | trade_action.RESET_FILTER => do_reset_filter env w
  | trade_action.PAGE_UP => do_page true w
  | trade_action.PAGE_DOWN => do_page false w
  | trade_action.EXAMINE => do_examine inp.examine_result w
  | trade_action.CONFIRM => do_confirm np inp.query_yn w
  | trade_action.QUIT => { w with exit := true, confirm := false }
  | trade_action.ANY_INPUT => do_any_input np env inp category_ranges w
  | trade_action.HELP_KEYBINDINGS => w
  | trade_action.OTHER => w

/-- The loop `while( !exit )` run on the inputs `inputs`, as far as they reach. -/
def trade_loop (np : npc) (env : ui_env) : List trade_input → trading_window → trading_window
  | [], w => w
  | inp :: rest, w => if w.exit then w else trade_loop np env rest (trade_loop_body np env w inp)

/-- The state of a freshly constructed `trading_window` after the prologue of `perform_trade`:
the capacity left to the NPC is set, a shopkeeper gets 5000 litres and 5000 kilograms. -/
def perform_trade_init (np : npc) (state : trade_state) : trading_window :=
  let state1 : trade_state :=
    { state with
      volume_left := np.volume_capacity - np.volume_carried
      weight_left := np.weight_capacity - np.weight_carried }
  let state2 : trade_state :=
    if np.is_shopkeeper then
      { state1 with volume_left := 5000 * 1000, weight_left := 5000 * 1000 * 1000 }
    else state1
  { state := state2
    entries_per_page := 0
    focus_them := true
    them_off := 0
    you_off := 0
    them_cursor := 0
    you_cursor := 0
    category_mode := false
    them_category_cursor := 0
    you_category_cursor := 0
    them_filtered := []
    you_filtered := []
    them_filter := ""
    you_filter := ""
    show_item_info := false
    confirm := false
    exit := false
    pending_count := none }

/-- The method `trading_window::perform_trade` on the inputs `inputs`: the window when the loop
stops or the inputs end; the method returns its `confirm`. -/
def perform_trade (np : npc) (env : ui_env) (inputs : List trade_input) (state : trade_state) :
    trading_window :=
  trade_loop np env inputs (perform_trade_init np state)

/-- The function `npc_trading::trade`, from `setup_trade_state` on: the value returned and the
NPC afterwards.  The offers `theirs` and `yours` come from `init_buying`; the items moved by
`transfer_items` live outside the `npc` record. -/
def trade (np : npc) (cost : Int) (env : ui_env) (inputs : List trade_input)
    (theirs yours : List item_pricing) : Bool × npc :=
  let state := npc_trading.setup_trade_state cost np theirs yours
  let w := perform_trade np env inputs state
  let traded := w.confirm
  if traded then
    if !np.will_exchange_items_freely then
      (traded, npc_trading.update_npc_owed w.state np)
    else (traded, np)
  else (traded, np)

/-- The argument that `npc_trading::trade` passes to `g->u.practice( skill_barter, ... )`, or
`none` when `practice` is not called.  The local `practice` is initialised to 0 and no
statement of `trade` assigns to it. -/
def trade_practice (np : npc) (cost : Int) (env : ui_env) (inputs : List trade_input)
    (theirs yours : List item_pricing) : Option Int :=
  let state := npc_trading.setup_trade_state cost np theirs yours
  let w := perform_trade np env inputs state
  let traded := w.confirm
  if traded then
    let practice : Int := 0
    if !np.will_exchange_items_freely then some (Int.tdiv practice 10000) else none
  else none

/-! ## `dialogue_win.cpp`: the pages of responses -/

/-- The part of `talk_data` read by `split_to_pages`. -/
structure talk_data where
  col : Nat
  letter : Char
  text : String
  deriving DecidableEq, Repr, Inhabited

/-- The struct `page_entry`. -/
structure page_entry where
  col : Nat
  lines : List String
  response_index : Nat
  letter : Char
  deriving DecidableEq, Repr, Inhabited

/-- The struct `page`. -/
structure page where
  entries : List page_entry
  deriving DecidableEq, Repr, Inhabited

/-- The locals of `split_to_pages` that its loop updates. -/
structure split_state where
  this_page : page
  ret : List page
  this_h : Int
  response_index : Nat
  deriving Repr, Inhabited

/-- The body of the loop of `split_to_pages` for the response `resp`. -/
def split_step (foldstring : String → Int → List String) (fold_width page_h : Int)
    (s : split_state) (resp : talk_data) : split_state :=
  let folded := foldstring resp.text fold_width
  let this_entry : page_entry :=
    match folded with
    | [] =>
      { col := resp.col, lines := [], response_index := s.response_index,
        letter := Char.ofNat 0 }
    | first :: rest =>
      { col := resp.col, lines := first :: rest.map (fun l => "   " ++ l),
        response_index := s.response_index, letter := resp.letter }
  let response_index := s.response_index + 1
  let s1 : split_state :=
    if s.this_h + (folded.length : Int) > page_h then
      { this_page := { entries := [] }, ret := s.ret ++ [s.this_page], this_h := 0,
        response_index := response_index }
    else
      { this_page := s.this_page, ret := s.ret, this_h := s.this_h,
        response_index := response_index }
  { this_page := { entries := s1.this_page.entries ++ [this_entry] }
    ret := s1.ret
    this_h := s1.this_h + (this_entry.lines.length : Int)
    response_index := s1.response_index }

/-- The function `split_to_pages`; `foldstring` is the external line folder. -/
def split_to_pages (foldstring : String → Int → List String) (responses : List talk_data)
    (page_w page_h : Int) : List page :=
  let fold_width := page_w - 3
  let s := responses.foldl (split_step foldstring fold_width page_h)
    { this_page := { entries := [] }, ret := [], this_h := 0, response_index := 0 }
  if s.this_page.entries ≠ [] then s.ret ++ [s.this_page] else s.ret

/-- What `display_responses` leaves in the members of the window. -/
structure scroll_state where
  curr_page : Nat
  can_scroll_up : Bool
  can_scroll_down : Bool
  prev_page_start : Nat
  next_page_start : Nat
  deriving DecidableEq, Repr, Inhabited

/-- The expression `pages[i].entries.front().response_index`; `none` where the source indexes
past the end of `pages` or calls `front()` on an empty vector, which is undefined. -/
def page_start (pages : List page) (i : Nat) : Option Nat :=
  match pages.get? i with
  | none => none
  | some p =>
    match p.entries with
    | [] => none
    | e :: _ => some e.response_index

/-- The method `dialogue_window::display_responses`, reduced to the paging members; `none`
where the source has undefined behaviour. -/
def display_responses (foldstring : String → Int → List String) (responses : List talk_data)
    (selected_response : Nat) (page_w page_h : Int) (s : scroll_state) : Option scroll_state :=
  let pages := split_to_pages foldstring responses page_w page_h
  let selected_page := pages.findIdx (fun p =>
    p.entries.any (fun entry => entry.response_index == selected_response))
  let curr_page :=
    if pages ≠ [] ∧ selected_page ≠ pages.length then selected_page else s.curr_page
  let curr_page :=
    if pages ≠ [] ∧ curr_page ≥ pages.length then pages.length - 1 else curr_page
  let can_scroll_up := decide (curr_page > 0)
  let can_scroll_down := decide (curr_page + 1 < pages.length)
  let prev : Option Nat :=
    if can_scroll_up then page_start pages (curr_page - 1) else some s.prev_page_start
  let next : Option Nat :=
    if can_scroll_down then page_start pages (curr_page + 1) else some s.next_page_start
  match prev, next with
  | some p, some n =>
    some { curr_page := curr_page, can_scroll_up := can_scroll_up,
           can_scroll_down := can_scroll_down, prev_page_start := p, next_page_start := n }
  | _, _ => none

/-! ## `npctrade.cpp`: the offers of a session -/

namespace npc_trading

/-- The external functions that `init_buying` calls on an item, for the fixed buyer, seller
and NPC of the call: the tests of `check_item`, the item properties read by `set_values`,
and the sort by category and name. -/
structure trade_world where
  is_null : item → Bool
  is_owned_by_seller : item → Bool
  price : item → Int
  value : item → Int → Int
  wants_to_sell : item → Int → Int → Bool
  wants_to_buy : item → Int → Int → Bool
  has_no_unwield : item → Bool
  is_container : item → Bool
  is_ammo_container : item → Bool
  volume : item → Int
  weight : item → Int
  count : item → Int
  sort : List item_pricing → List item_pricing

/-- The places that `init_buying` scans: the stacks of `seller.inv_const_slice()`, the
primary weapon, the items that `map_selector( seller.pos(), PICKUP_RANGE )` visits and the
items that `vehicle_selector( seller.pos(), 1 )` visits. -/
structure seller_items where
  inv_slice : List (List item)
  primary_weapon : item
  map_items : List item
  vehicle_items : List item
  deriving Repr, Inhabited

/-- The method `item_pricing::set_values`; the integer quantities are divided with
truncation. -/
def set_values (world : trade_world) (ip : item_pricing) (ip_count : Int) : item_pricing :=
  let i_p := front ip.locs
  let is_container := world.is_container i_p || world.is_ammo_container i_p
  let vol := world.volume i_p
  let weight := world.weight i_p
  if is_container ∨ world.count i_p = 1 then
    { ip with is_container := is_container, vol := vol, weight := weight, count := ip_count }
  else
    let charges := world.count i_p
    { ip with
      is_container := is_container
      charges := charges
      price := ip.price / (charges : ℚ)
      vol := Int.tdiv vol charges
      weight := Int.tdiv weight charges }

/-- The constructor `item_pricing( l, v, count )`. -/
def item_pricing_new (world : trade_world) (l : List item) (v : ℚ) (count : Int) :
    item_pricing :=
  set_values world
    { locs := l, price := v, selected := false, is_container := false, count := 0,
      charges := 0, u_has := 0, npc_has := 0, u_charges := 0, npc_charges := 0, weight := 0,
      vol := 0 } count

/-- The lambda `check_item` of `init_buying`: appends the offer for `locs` to `result` when
the front item is owned by the seller and the NPC wants the deal. -/
def check_item (world : trade_world) (fac : Option faction) (adjust : ℚ) (is_npc : Bool)
    (result : List item_pricing) (locs : List item) (count : Int) : List item_pricing :=
  let it := front locs
  if world.is_null it then
    result
  else if !world.is_owned_by_seller it then
    result
  else
    let market_price := world.price it
    let val := world.value it market_price
    if (is_npc && world.wants_to_sell it val market_price) ||
        world.wants_to_buy it val market_price then
      result ++ [adjust_values (item_pricing_new world locs (val : ℚ) count) adjust fac]
    else
      result

/-- The function `npc_trading::init_buying`; `np` is the NPC of the trade, `fac` its
faction. -/
def init_buying (world : trade_world) (price_adjustment : Int → ℚ) (np : npc)
    (fac : Option faction) (buyer seller : Character) (stock : seller_items)
    (is_npc : Bool) : List item_pricing :=
  let adjust := net_price_adjustment price_adjustment buyer seller
  let r1 := stock.inv_slice.foldl (fun result i =>
    check_item world fac adjust is_npc result i (i.length : Int)) []
  let r2 :=
    if !world.has_no_unwield stock.primary_weapon then
      check_item world fac adjust is_npc r1 [stock.primary_weapon] 1
    else r1
  let r3 :=
    if np.is_shopkeeper then
      stock.map_items.foldl (fun result node =>
        check_item world fac adjust is_npc result [node] 1) r2
    else r2
  let r4 := stock.vehicle_items.foldl (fun result node =>
    check_item world fac adjust is_npc result [node] 1) r3
  world.sort r4

end npc_trading

/-! ## Definitions used by the statements and the proofs -/

/-- The part of a window that the cursor bookkeeping never writes: the ledger and the two loop flags of a window. -/
def session_core (w : trading_window) : trade_state × Bool × Bool := (w.state, w.confirm, w.exit)

/-- A property of offers that depends on the pane holds for every offer of both lists. -/
def pane_inv (P : Bool → item_pricing → Prop) (state : trade_state) : Prop :=
  (∀ ip ∈ state.theirs, P true ip) ∧ (∀ ip ∈ state.yours, P false ip)

/-- The offered amount of an offer, read for the pane `they`, lies between 0 and the maximum
`charges > 0 ? charges : max( count, 1 )`. -/
def amount_in_bounds (they : Bool) (ip : item_pricing) : Prop :=
  0 ≤ get_current_amount they ip ∧
    get_current_amount they ip ≤ (if ip.charges > 0 then ip.charges else max ip.count 1)

/-- The selected flag of an offer of the pane `they` tells whether a positive amount is
offered, the amount is not negative, and the counter the offer does not use is 0. -/
def selection_inv (they : Bool) (ip : item_pricing) : Prop :=
  (ip.selected = true ↔ get_current_amount they ip > 0) ∧ 0 ≤ get_current_amount they ip ∧
    (if ip.charges > 0 then owner_sells they ip = 0 else owner_sells_charge they ip = 0)

/-- An offer as the constructor of `item_pricing` leaves it: not selected, nothing offered. -/
def fresh_offer (ip : item_pricing) : Prop :=
  ip.selected = false ∧ ip.u_has = 0 ∧ ip.npc_has = 0 ∧ ip.u_charges = 0 ∧ ip.npc_charges = 0

/-- The least change of the balance that one entry can cause. -/
def term_lo (e : balance_item_entry) : Int :=
  min (e.unit_balance_delta * (0 - e.current_amount))
    (e.unit_balance_delta * (e.max_amount - e.current_amount))

/-- The greatest change of the balance that one entry can cause. -/
def term_hi (e : balance_item_entry) : Int :=
  max (e.unit_balance_delta * (0 - e.current_amount))
    (e.unit_balance_delta * (e.max_amount - e.current_amount))

/-- The change of the balance when the entries get the amounts `amounts`, one for each entry:
the sum of `unit * (amount - current)`. -/
def plan_delta : List balance_item_entry → List Int → Int
  | e :: es, a :: amounts =>
    e.unit_balance_delta * (a - e.current_amount) + plan_delta es amounts
  | _, _ => 0

/-- The amounts `amounts` give every entry an amount between 0 and its maximum. -/
def feasible : List balance_item_entry → List Int → Prop
  | [], [] => True
  | e :: es, a :: amounts => 0 ≤ a ∧ a ≤ e.max_amount ∧ feasible es amounts
  | _, _ => False

/-- The backtracking loop finds a choice at every step: from `balance`, the steps record the
amounts `amounts` in turn and end at the balance `start`. -/
def chain : List (balance_item_entry × balance_map) → Int → List Int → Int → Prop
  | [], balance, [], start => balance = start
  | (_, d) :: rest, balance, a :: amounts, start =>
    ∃ ch, balance_map_find d balance = some ch ∧ ch.amount = a ∧
      chain rest ch.prev_balance amounts start
  | _, _, _, _ => False

/-- The entries are searchable: a non-zero unit and a current amount within `[0, max]`. -/
def entries_ok (entries : List balance_item_entry) : Prop :=
  ∀ e ∈ entries, e.unit_balance_delta ≠ 0 ∧ 0 ≤ e.current_amount ∧
    e.current_amount ≤ e.max_amount

/-- The body of the loop over the entries in `dp_pass`. -/
def dp_pass_body (iter : balance_map → balance_map) (min_balance max_balance : Int)
    (acc : balance_map × List balance_map) (entry : balance_item_entry) :
    balance_map × List balance_map :=
  ((dp_step iter min_balance max_balance acc.1 entry).1,
    acc.2 ++ [(dp_step iter min_balance max_balance acc.1 entry).2])
/-- The offer shown at position `idx` of the filtered list, `list[filtered_indices[idx]]`. -/
def offer_at (list : List item_pricing) (filtered_indices : List Nat) (idx : Nat) :
    item_pricing :=
  list.getD (filtered_indices.getD idx 0) default

/-- The entry that `calc_category_autobalance_plan` builds for position `idx`. -/
def entry_at (focus_them : Bool) (list : List item_pricing) (filtered_indices : List Nat)
    (idx : Nat) : balance_item_entry :=
  { list_index := filtered_indices.getD idx 0
    current_amount := get_current_amount focus_them (offer_at list filtered_indices idx)
    max_amount := get_max_amount (offer_at list filtered_indices idx)
    unit_balance_delta := unit_balance_delta focus_them (offer_at list filtered_indices idx) }

/-- The positions of the range whose offers are searched: those with a non-zero unit. -/
def searched_positions (focus_them : Bool) (list : List item_pricing)
    (filtered_indices : List Nat) (range : category_range) : List Nat :=
  (iota range.start range.end_).filter (fun idx =>
    decide (unit_balance_delta focus_them (offer_at list filtered_indices idx) ≠ 0))

/-- The amount that a plan gives to the offer at position `idx`. -/
def planned_amount (plan : plan_map) (filtered_indices : List Nat) (idx : Nat) : Int :=
  (plan_find plan (filtered_indices.getD idx 0)).getD 0

/-- The balance that results from `your_balance` when the searched offers at `positions` get
the amounts `amount`: the sum of `unit * (amount - current)` is added. -/
def planned_balance (focus_them : Bool) (your_balance : Int) (list : List item_pricing)
    (filtered_indices : List Nat) (positions : List Nat) (amount : Nat → Int) : Int :=
  your_balance + (positions.map (fun idx =>
    unit_balance_delta focus_them (offer_at list filtered_indices idx) *
      (amount idx - get_current_amount focus_them (offer_at list filtered_indices idx)))).sum

/-- The category id of the offer shown at position `idx` of the filtered list. -/
def category_at (list : List item_pricing) (filtered : List Nat) (idx : Nat) : Nat :=
  (front (offer_at list filtered idx).locs).category

/-- What the loop of `build_category_ranges` has built after the positions below `n`: runs
that start at 0, follow each other without a gap, end at `n`, hold one category each and
change the category from one run to the next. -/
def ranges_inv (list : List item_pricing) (filtered : List Nat) (n : Nat)
    (ranges : List category_range) : Prop :=
  (n = 0 → ranges = []) ∧
  (0 < n → ranges ≠ []) ∧
  (∀ r, ranges.getLast? = some r → r.end_ = n) ∧
  (∀ r ∈ ranges, r.start < r.end_ ∧
    ∀ i, r.start ≤ i → i < r.end_ → category_at list filtered i = r.id) ∧
  (∀ r, ranges.head? = some r → r.start = 0) ∧
  ranges.Chain' (fun a b => b.start = a.end_ ∧ b.id ≠ a.id)

/-! ## Concrete inputs used by the instances below -/

/-- An item carried by a character. -/
def carried_item : item :=
  { typeId := 7, category := 1, where_type := item_location_type.character, charges := 0,
    owner := 1 }

/-- An offer of ten items at the unit price 30, nothing offered yet. -/
def offer_price_30 : item_pricing :=
  { locs := [carried_item], price := 30, selected := false, is_container := false, count := 10,
    charges := 0, u_has := 0, npc_has := 0, u_charges := 0, npc_charges := 0, weight := 2,
    vol := 3 }

/-- A window environment: every item passes every filter, the hotkeys are `a`, `b`, `c`, and
the hash maps are traversed in insertion order. -/
def plain_env : ui_env :=
  { item_filter_from_string := fun _ _ => true
    item_hotkeys := ['a', 'b', 'c']
    iter := fun m => m }

/-- The input of one loop iteration that carries the action `a` and the key `ch`; the dialogs
answer yes, and the quantity prompt answers 4. -/
def input_of (a : trade_action) (ch : Char) : trade_input :=
  { action := a, TERMY := 40, filter_confirmed := false, filter_text := "",
    examine_result := info_popup_result.none, query_yn := true, evt_is_keyboard := true,
    evt_first_input := ch, popup_canceled := false, popup_how_many := 4 }

/-- A ledger with the single offer `offer_price_30` on the NPC side and balance 100. -/
def ledger_one_offer : trade_state :=
  { theirs := [offer_price_30], yours := [], your_balance := 100, volume_left := 0,
    weight_left := 0 }

/-- An NPC that trades for money: no free exchange, no credit. -/
def trader_npc : npc :=
  { will_exchange_items_freely := false, max_credit_extended := 0, max_willing_to_owe := 500,
    op_of_u := { owed := 100 }, is_shopkeeper := false, volume_capacity := 1000,
    volume_carried := 0, weight_capacity := 1000, weight_carried := 0 }

/-- An offer of twenty items at the unit price 3/2, nothing offered yet. -/
def offer_price_three_halves : item_pricing :=
  { locs := [carried_item], price := 3 / 2, selected := false, is_container := false,
    count := 20, charges := 0, u_has := 0, npc_has := 0, u_charges := 0, npc_charges := 0,
    weight := 2, vol := 3 }

/-- A ledger with the single offer `offer_price_three_halves` on the NPC side and balance 10. -/
def ledger_three_halves : trade_state :=
  { theirs := [offer_price_three_halves], yours := [], your_balance := 10, volume_left := 0,
    weight_left := 0 }

/-- A stack of three carried items offered as one offer, of which the player agreed to take
one (`u_has = 1`). -/
def offer_one_of_three : item_pricing :=
  { locs := [carried_item, carried_item, carried_item], price := 30, selected := true,
    is_container := false, count := 3, charges := 0, u_has := 1, npc_has := 0, u_charges := 0,
    npc_charges := 0, weight := 2, vol := 3 }

/-- An offer of five items at the unit price 10, nothing offered yet. -/
def offer_price_10 : item_pricing :=
  { locs := [carried_item], price := 10, selected := false, is_container := false, count := 5,
    charges := 0, u_has := 0, npc_has := 0, u_charges := 0, npc_charges := 0, weight := 2,
    vol := 3 }

/-- An offer of three items at the unit price 15, nothing offered yet. -/
def offer_price_15 : item_pricing :=
  { locs := [carried_item], price := 15, selected := false, is_container := false, count := 3,
    charges := 0, u_has := 0, npc_has := 0, u_charges := 0, npc_charges := 0, weight := 2,
    vol := 3 }

/-- The range of the two positions 0 and 1 in category 1. -/
def range_two : category_range := { id := 1, start := 0, end_ := 2 }

/-- A companion: an NPC that exchanges items freely. -/
def companion_npc : npc :=
  { will_exchange_items_freely := true, max_credit_extended := 0, max_willing_to_owe := 0,
    op_of_u := { owed := 100 }, is_shopkeeper := false, volume_capacity := 1000,
    volume_carried := 0, weight_capacity := 1000, weight_carried := 0 }

/-- An item with two charges at the unit price 1/2 (value 1 split over its 2 charges), nothing
offered yet. -/
def offer_price_half : item_pricing :=
  { locs := [carried_item], price := 1 / 2, selected := false, is_container := false,
    count := 0, charges := 2, u_has := 0, npc_has := 0, u_charges := 0, npc_charges := 0,
    weight := 2, vol := 3 }

/-- A ledger with the single offer `offer_price_half` on the NPC side and balance 100. -/
def ledger_half : trade_state :=
  { theirs := [offer_price_half], yours := [], your_balance := 100, volume_left := 0,
    weight_left := 0 }

/-- A filter compiler that lets an item pass when its type id is even. -/
def even_type_filter : String → item → Bool := fun _ it => it.typeId % 2 == 0

/-- An offer whose front item has the type id `t`. -/
def offer_of_type (t : Nat) : item_pricing :=
  { offer_price_30 with locs := [{ carried_item with typeId := t }] }

/-- The window in which the session on `ledger_one_offer` handles its first input. -/
def first_window : trading_window :=
  (loop_head plain_env (perform_trade_init trader_npc ledger_one_offer)
    (input_of trade_action.ANY_INPUT 'a')).2

/-- The hotkey `a` with a cancelled quantity prompt. -/
def input_cancelled : trade_input :=
  { input_of trade_action.ANY_INPUT 'a' with popup_canceled := true }

/-- The window `first_window` with the pending count 3 typed. -/
def window_pending_3 : trading_window := { first_window with pending_count := some 3 }

/-- A ledger with the offers at prices 10 and 15 on the NPC side and one offer on the side of
the player. -/
def ledger_two_offers : trade_state :=
  { theirs := [offer_price_10, offer_price_15], yours := [offer_price_30], your_balance := 100,
    volume_left := 0, weight_left := 0 }

/-- The window of a session on `ledger_two_offers` in category mode with both offers of the
NPC side listed. -/
def window_category : trading_window :=
  { (perform_trade_init trader_npc ledger_two_offers) with
    category_mode := true, them_filtered := [0, 1], you_filtered := [0] }

/-- The range of the single position 0 in category 1. -/
def range_one : category_range := { id := 1, start := 0, end_ := 1 }

/-- The window of a session on `ledger_half` in category mode with its offer listed; the unit
contribution `static_cast<int>(0.5)` of the offer is 0. -/
def window_half : trading_window :=
  { (perform_trade_init trader_npc ledger_half) with
    category_mode := true, them_filtered := [0] }

/-- A ledger with the balance 600, above the 500 that `trader_npc` is willing to owe. -/
def ledger_rich : trade_state :=
  { theirs := [offer_price_30], yours := [], your_balance := 600, volume_left := 0,
    weight_left := 0 }

/-- A line folder that cuts a text into pieces of `w` characters, at least one. -/
def fold_by_length (s : String) (w : Int) : List String :=
  (List.range ((s.length + w.toNat - 1) / (max w.toNat 1))).map (fun k =>
    String.mk ((s.data.drop (k * w.toNat)).take w.toNat))

/-- A response whose text takes two lines of four characters. -/
def long_response : talk_data := { col := 1, letter := 'a', text := "abcdefg" }

/-- A response whose text takes one line. -/
def short_response : talk_data := { col := 1, letter := 'b', text := "ok" }

/-- An offer whose front item has the category `c`. -/
def offer_of_category (c : Nat) : item_pricing :=
  { offer_price_30 with locs := [{ carried_item with category := c }] }

/-- An item in the cargo of a vehicle next to the seller. -/
def cart_item : item :=
  { typeId := 9, category := 2, where_type := item_location_type.vehicle, charges := 0,
    owner := 1 }

/-- A world in which every item belongs to the seller and is worth 20 to an NPC that buys
everything; no item is a container or has a count other than 1. -/
def open_world : npc_trading.trade_world :=
  { is_null := fun _ => false
    is_owned_by_seller := fun _ => true
    price := fun _ => 20
    value := fun _ p => p
    wants_to_sell := fun _ _ _ => true
    wants_to_buy := fun _ _ _ => true
    has_no_unwield := fun _ => true
    is_container := fun _ => false
    is_ammo_container := fun _ => false
    volume := fun _ => 3
    weight := fun _ => 2
    count := fun _ => 1
    sort := fun l => l }

/-- A seller with an empty inventory, a weapon that cannot be unwielded, nothing on the
ground, and `cart_item` in a vehicle on the next tile. -/
def seller_with_cart : npc_trading.seller_items :=
  { inv_slice := [], primary_weapon := carried_item, map_items := [],
    vehicle_items := [cart_item] }

/-- The offer that `init_buying` builds for `cart_item` in `open_world`: one item worth 20. -/
def cart_offer : item_pricing :=
  { locs := [cart_item], price := 20, selected := false, is_container := false, count := 1,
    charges := 0, u_has := 0, npc_has := 0, u_charges := 0, npc_charges := 0, weight := 2,
    vol := 3 }

/-- An offer of 400 items at the unit price 2, volume 3 and weight 2 each, nothing offered
yet. -/
def offer_bulk : item_pricing :=
  { locs := [carried_item], price := 2, selected := false, is_container := false,
    count := 400, charges := 0, u_has := 0, npc_has := 0, u_charges := 0, npc_charges := 0,
    weight := 2, vol := 3 }

/-- A ledger with the single offer `offer_bulk` on the side of the player and balance 100. -/
def ledger_bulk : trade_state :=
  { theirs := [], yours := [offer_bulk], your_balance := 100, volume_left := 0,
    weight_left := 0 }

/-! ## Theorems -/

/-- C3: `calc_npc_owes_you` is 0 for an NPC that freely exchanges items; otherwise it is
`max(op_of_u.owed, max_willing_to_owe)` when the balance exceeds both the previous debt and
`max_willing_to_owe`, and the balance itself in every other case. -/
theorem calc_npc_owes_you_cases (state : trade_state) (np : npc) :
    (np.will_exchange_items_freely = true → npc_trading.calc_npc_owes_you state np = 0) ∧
    (np.will_exchange_items_freely = false →
      state.your_balance > np.op_of_u.owed → state.your_balance > np.max_willing_to_owe →
      npc_trading.calc_npc_owes_you state np = max np.op_of_u.owed np.max_willing_to_owe) ∧
    (np.will_exchange_items_freely = false →
      ¬ (state.your_balance > np.op_of_u.owed ∧ state.your_balance > np.max_willing_to_owe) →
      npc_trading.calc_npc_owes_you state np = state.your_balance) := by
  refine ⟨?_, ?_, ?_⟩
  · intro hf
    simp [npc_trading.calc_npc_owes_you, hf]
  · intro hf h1 h2
    simp [npc_trading.calc_npc_owes_you, hf, h1, h2]
  · intro hf h
    simp only [npc_trading.calc_npc_owes_you, hf]
    simp [h]

/-- C4: when the NPC does not freely exchange items and the new balance is above the previous
debt, the remembered debt lies between the previous debt and
`max(op_of_u.owed, max_willing_to_owe)`. -/
theorem calc_npc_owes_you_bounds (state : trade_state) (np : npc)
    (hfree : np.will_exchange_items_freely = false)
    (hhigher : state.your_balance > np.op_of_u.owed) :
    np.op_of_u.owed ≤ npc_trading.calc_npc_owes_you state np ∧
    npc_trading.calc_npc_owes_you state np ≤ max np.op_of_u.owed np.max_willing_to_owe := by
  simp only [npc_trading.calc_npc_owes_you, hfree]
  by_cases h : state.your_balance > np.max_willing_to_owe
  · simp [hhigher, h]
  · simp only [hhigher, h, and_false, if_false]
    constructor
    · simp; omega
    · have : state.your_balance ≤ np.max_willing_to_owe := not_lt.mp h
      exact le_trans this (le_max_right _ _)

/-- The instance of C4 at previous debt 100, willingness 500 and new balance 900: the debt
remembered is 500. -/
theorem calc_npc_owes_you_bounds_witness :
    (100 : Int) ≤ npc_trading.calc_npc_owes_you
        { theirs := [], yours := [], your_balance := 900, volume_left := 0, weight_left := 0 }
        { will_exchange_items_freely := false, max_credit_extended := 0,
          max_willing_to_owe := 500, op_of_u := { owed := 100 }, is_shopkeeper := false,
          volume_capacity := 0, volume_carried := 0, weight_capacity := 0, weight_carried := 0 } ∧
    npc_trading.calc_npc_owes_you
        { theirs := [], yours := [], your_balance := 900, volume_left := 0, weight_left := 0 }
        { will_exchange_items_freely := false, max_credit_extended := 0,
          max_willing_to_owe := 500, op_of_u := { owed := 100 }, is_shopkeeper := false,
          volume_capacity := 0, volume_carried := 0, weight_capacity := 0, weight_carried := 0 }
      ≤ max (100 : Int) 500 :=
  calc_npc_owes_you_bounds
    { theirs := [], yours := [], your_balance := 900, volume_left := 0, weight_left := 0 }
    { will_exchange_items_freely := false, max_credit_extended := 0,
      max_willing_to_owe := 500, op_of_u := { owed := 100 }, is_shopkeeper := false,
      volume_capacity := 0, volume_carried := 0, weight_capacity := 0, weight_carried := 0 }
    rfl (by decide)

/-- C5: `npc_will_accept_trade` holds exactly when the NPC freely exchanges items or
`your_balance + max_credit_extended > 0`; with a sum of exactly 0 a trading NPC refuses. -/
theorem npc_will_accept_trade_iff (state : trade_state) (np : npc) :
    (npc_trading.npc_will_accept_trade state np = true ↔
      (np.will_exchange_items_freely = true ∨
        state.your_balance + np.max_credit_extended > 0)) ∧
    (np.will_exchange_items_freely = false →
      state.your_balance + np.max_credit_extended = 0 →
      npc_trading.npc_will_accept_trade state np = false) := by
  constructor
  · simp [npc_trading.npc_will_accept_trade]
  · intro hf h0
    simp [npc_trading.npc_will_accept_trade, hf, h0]

/-! ### Single-offer autobalance -/

theorem clamp_bounds (v lo hi : Int) (h : lo ≤ hi) : lo ≤ clamp v lo hi ∧ clamp v lo hi ≤ hi := by
  unfold clamp
  split_ifs <;> constructor <;> omega

theorem clamp_of_mem (v lo hi : Int) (h1 : lo ≤ v) (h2 : v ≤ hi) : clamp v lo hi = v := by
  unfold clamp
  split_ifs <;> omega

theorem get_max_amount_pos (ip : item_pricing) : 1 ≤ get_max_amount ip := by
  unfold get_max_amount
  split_ifs with h
  · omega
  · exact le_max_right _ _

theorem foldl_min_spec (comp : Int → Int → Bool) (key : Int → Int)
    (h1 : ∀ x y, comp x y = true → key x ≤ key y)
    (h2 : ∀ x y, comp x y = false → key y ≤ key x) (xs : List Int) (x : Int) :
    let r := xs.foldl (fun smallest y => if comp y smallest then y else smallest) x
    r ∈ x :: xs ∧ ∀ y ∈ x :: xs, key r ≤ key y := by
  induction xs generalizing x with
  | nil => simp
  | cons z zs ih =>
    simp only [List.foldl_cons]
    by_cases hc : comp z x = true
    · simp only [hc, if_true]
      obtain ⟨hm, hall⟩ := ih z
      refine ⟨?_, ?_⟩
      · simp only [List.mem_cons] at hm ⊢
        tauto
      · intro y hy
        simp only [List.mem_cons] at hy
        rcases hy with rfl | rfl | hy
        · exact le_trans (hall z (by simp)) (h1 _ _ hc)
        · exact hall _ (by simp)
        · exact hall _ (by simp [hy])
    · simp only [hc]
      obtain ⟨hm, hall⟩ := ih x
      refine ⟨?_, ?_⟩
      · simp only [List.mem_cons] at hm ⊢
        tauto
      · intro y hy
        simp only [List.mem_cons] at hy
        rcases hy with rfl | rfl | hy
        · exact hall _ (by simp)
        · exact le_trans (hall x (by simp)) (h2 _ _ (by simpa using hc))
        · exact hall _ (by simp [hy])

theorem min_element_spec (comp : Int → Int → Bool) (key : Int → Int)
    (h1 : ∀ x y, comp x y = true → key x ≤ key y)
    (h2 : ∀ x y, comp x y = false → key y ≤ key x) (l : List Int) (hl : l ≠ []) :
    ∃ r, min_element comp l = some r ∧ r ∈ l ∧ ∀ y ∈ l, key r ≤ key y := by
  cases l with
  | nil => exact absurd rfl hl
  | cons x xs =>
    exact ⟨_, rfl, (foldl_min_spec comp key h1 h2 xs x).1, (foldl_min_spec comp key h1 h2 xs x).2⟩

theorem foldl_max_spec (comp : Int → Int → Bool) (key : Int → Int)
    (h1 : ∀ x y, comp x y = true → key x ≤ key y)
    (h2 : ∀ x y, comp x y = false → key y ≤ key x) (xs : List Int) (x : Int) :
    let r := xs.foldl (fun largest y => if comp largest y then y else largest) x
    r ∈ x :: xs ∧ ∀ y ∈ x :: xs, key y ≤ key r := by
  induction xs generalizing x with
  | nil => simp
  | cons z zs ih =>
    simp only [List.foldl_cons]
    by_cases hc : comp x z = true
    · simp only [hc, if_true]
      obtain ⟨hm, hall⟩ := ih z
      refine ⟨?_, ?_⟩
      · simp only [List.mem_cons] at hm ⊢
        tauto
      · intro y hy
        simp only [List.mem_cons] at hy
        rcases hy with rfl | rfl | hy
        · exact le_trans (h1 _ _ hc) (hall z (by simp))
        · exact hall _ (by simp)
        · exact hall _ (by simp [hy])
    · simp only [hc]
      obtain ⟨hm, hall⟩ := ih x
      refine ⟨?_, ?_⟩
      · simp only [List.mem_cons] at hm ⊢
        tauto
      · intro y hy
        simp only [List.mem_cons] at hy
        rcases hy with rfl | rfl | hy
        · exact hall _ (by simp)
        · exact le_trans (h2 _ _ (by simpa using hc)) (hall x (by simp))
        · exact hall _ (by simp [hy])

theorem max_element_spec (comp : Int → Int → Bool) (key : Int → Int)
    (h1 : ∀ x y, comp x y = true → key x ≤ key y)
    (h2 : ∀ x y, comp x y = false → key y ≤ key x) (l : List Int) (hl : l ≠ []) :
    ∃ r, max_element comp l = some r ∧ r ∈ l ∧ ∀ y ∈ l, key y ≤ key r := by
  cases l with
  | nil => exact absurd rfl hl
  | cons x xs =>
    exact ⟨_, rfl, (foldl_max_spec comp key h1 h2 xs x).1, (foldl_max_spec comp key h1 h2 xs x).2⟩

theorem balance_as_product (B u c a : Int) (hu : u ≠ 0) :
    ((B + u * (a - c) : Int) : ℚ) = (u : ℚ) * ((a : ℚ) - ((c : ℚ) - (B : ℚ) / (u : ℚ))) := by
  have hq : (u : ℚ) ≠ 0 := by exact_mod_cast hu
  push_cast
  field_simp
  ring

/-- With a positive unit the balance `B + u * (a - c)` is non-negative exactly from the ceiling
of the ideal amount on. -/
theorem balance_nonneg_iff_of_pos (B u c a : Int) (hu : 0 < u) :
    0 ≤ B + u * (a - c) ↔ ⌈(c : ℚ) - (B : ℚ) / (u : ℚ)⌉ ≤ a := by
  have hq : (0 : ℚ) < (u : ℚ) := by exact_mod_cast hu
  have key := balance_as_product B u c a (ne_of_gt hu)
  rw [Int.ceil_le]
  constructor
  · intro h
    have h' : (0 : ℚ) ≤ ((B + u * (a - c) : Int) : ℚ) := by exact_mod_cast h
    rw [key] at h'
    have := nonneg_of_mul_nonneg_right h' hq
    linarith
  · intro h
    have h' : (0 : ℚ) ≤ (u : ℚ) * ((a : ℚ) - ((c : ℚ) - (B : ℚ) / (u : ℚ))) :=
      mul_nonneg hq.le (by linarith)
    rw [← key] at h'
    exact_mod_cast h'

/-- With a negative unit the balance `B + u * (a - c)` is non-negative exactly up to the floor
of the ideal amount. -/
theorem balance_nonneg_iff_of_neg (B u c a : Int) (hu : u < 0) :
    0 ≤ B + u * (a - c) ↔ a ≤ ⌊(c : ℚ) - (B : ℚ) / (u : ℚ)⌋ := by
  have hq : (u : ℚ) < 0 := by exact_mod_cast hu
  have key := balance_as_product B u c a (ne_of_lt hu)
  rw [Int.le_floor]
  constructor
  · intro h
    have h' : (0 : ℚ) ≤ ((B + u * (a - c) : Int) : ℚ) := by exact_mod_cast h
    rw [key] at h'
    by_contra hcon
    have hpos : (0 : ℚ) < (a : ℚ) - ((c : ℚ) - (B : ℚ) / (u : ℚ)) := by linarith [not_le.mp hcon]
    have := mul_neg_of_neg_of_pos hq hpos
    linarith
  · intro h
    have h' : (0 : ℚ) ≤ (u : ℚ) * ((a : ℚ) - ((c : ℚ) - (B : ℚ) / (u : ℚ))) :=
      mul_nonneg_of_nonpos_of_nonpos hq.le (by linarith)
    rw [← key] at h'
    exact_mod_cast h'

/-- C1: single-offer autobalance is optimal over the whole range of amounts.  For an offer
with a non-zero unit `u`, the returned amount `r` lies in `[0, max]`; if some amount of the
range gives a non-negative balance `B + u * (a - c)` then `r` gives the smallest non-negative
one, otherwise `r` gives the largest balance of the range. -/
theorem calc_autobalance_amount_optimal (focus_them : Bool) (B : Int) (ip : item_pricing)
    (hu : unit_balance_delta focus_them ip ≠ 0) :
    0 ≤ calc_autobalance_amount focus_them B ip ∧
    calc_autobalance_amount focus_them B ip ≤ get_max_amount ip ∧
    ((∃ a, 0 ≤ a ∧ a ≤ get_max_amount ip ∧
        0 ≤ B + unit_balance_delta focus_them ip * (a - get_current_amount focus_them ip)) →
      0 ≤ B + unit_balance_delta focus_them ip *
          (calc_autobalance_amount focus_them B ip - get_current_amount focus_them ip) ∧
      ∀ a, 0 ≤ a → a ≤ get_max_amount ip →
        0 ≤ B + unit_balance_delta focus_them ip * (a - get_current_amount focus_them ip) →
        B + unit_balance_delta focus_them ip *
            (calc_autobalance_amount focus_them B ip - get_current_amount focus_them ip) ≤
          B + unit_balance_delta focus_them ip * (a - get_current_amount focus_them ip)) ∧
    ((¬ ∃ a, 0 ≤ a ∧ a ≤ get_max_amount ip ∧
        0 ≤ B + unit_balance_delta focus_them ip * (a - get_current_amount focus_them ip)) →
      ∀ a, 0 ≤ a → a ≤ get_max_amount ip →
        B + unit_balance_delta focus_them ip * (a - get_current_amount focus_them ip) ≤
          B + unit_balance_delta focus_them ip *
            (calc_autobalance_amount focus_them B ip - get_current_amount focus_them ip)) := by
  have hm := get_max_amount_pos ip
  have hm0 : (0 : Int) ≤ get_max_amount ip := by omega
  unfold calc_autobalance_amount
  simp only [hu, if_false]
  generalize hU : unit_balance_delta focus_them ip = u at *
  generalize hC : get_current_amount focus_them ip = c at *
  generalize hM : get_max_amount ip = m at *
  generalize hfl : clamp ⌊(c : ℚ) - (B : ℚ) / (u : ℚ)⌋ 0 m = fl
  generalize hce : clamp ⌈(c : ℚ) - (B : ℚ) / (u : ℚ)⌉ 0 m = ce
  have hfl_b := clamp_bounds ⌊(c : ℚ) - (B : ℚ) / (u : ℚ)⌋ 0 m hm0
  have hce_b := clamp_bounds ⌈(c : ℚ) - (B : ℚ) / (u : ℚ)⌉ 0 m hm0
  rw [hfl] at hfl_b
  rw [hce] at hce_b
  have hk0 : clamp 0 0 m = 0 := clamp_of_mem 0 0 m le_rfl hm0
  have hkm : clamp m 0 m = m := clamp_of_mem m 0 m hm0 le_rfl
  rw [hk0, hkm]
  have hcand : ∀ x ∈ [0, m, fl, ce], 0 ≤ x ∧ x ≤ m := by
    intro x hx
    simp only [List.mem_cons, List.mem_singleton, List.not_mem_nil, or_false] at hx
    rcases hx with rfl | rfl | rfl | rfl
    · exact ⟨le_rfl, hm0⟩
    · exact ⟨hm0, le_rfl⟩
    · exact hfl_b
    · exact hce_b
  -- the best candidate, when some amount of the range avoids a debt
  have hbest : (∃ a, 0 ≤ a ∧ a ≤ m ∧ 0 ≤ B + u * (a - c)) →
      ∃ k ∈ [0, m, fl, ce], 0 ≤ B + u * (k - c) ∧
        ∀ a, 0 ≤ a → a ≤ m → 0 ≤ B + u * (a - c) → B + u * (k - c) ≤ B + u * (a - c) := by
    rintro ⟨a0, ha0, ha0m, ha0b⟩
    rcases lt_or_gt_of_ne hu with hneg | hpos
    · have hJ := fun a => balance_nonneg_iff_of_neg B u c a hneg
      generalize ⌊(c : ℚ) - (B : ℚ) / (u : ℚ)⌋ = J at hJ hfl
      have hJ0 : a0 ≤ J := (hJ a0).1 ha0b
      have hflJ : fl ≤ J := by
        rw [← hfl]; unfold clamp; split_ifs <;> omega
      refine ⟨fl, by simp, (hJ fl).2 hflJ, ?_⟩
      intro a ha _ hab
      have haJ : a ≤ J := (hJ a).1 hab
      have hafl : a ≤ fl := by
        rw [← hfl]; unfold clamp; split_ifs <;> omega
      nlinarith
    · have hJ := fun a => balance_nonneg_iff_of_pos B u c a hpos
      generalize ⌈(c : ℚ) - (B : ℚ) / (u : ℚ)⌉ = J at hJ hce
      have hJ0 : J ≤ a0 := (hJ a0).1 ha0b
      have hceJ : J ≤ ce := by
        rw [← hce]; unfold clamp; split_ifs <;> omega
      refine ⟨ce, by simp, (hJ ce).2 hceJ, ?_⟩
      intro a _ ham hab
      have haJ : J ≤ a := (hJ a).1 hab
      have hace : ce ≤ a := by
        rw [← hce]; unfold clamp; split_ifs <;> omega
      nlinarith
  by_cases hnd : List.filter (fun amount => decide (B + u * (amount - c) ≥ 0)) [0, m, fl, ce] ≠ []
  · rw [if_pos hnd]
    obtain ⟨r, hr, hrmem, hrmin⟩ := min_element_spec
      (fun lhs rhs =>
        if |B + u * (lhs - c)| ≠ |B + u * (rhs - c)| then
          decide (|B + u * (lhs - c)| < |B + u * (rhs - c)|)
        else decide (|lhs - c| < |rhs - c|))
      (fun a => |B + u * (a - c)|)
      (by
        intro x y h
        by_cases hne : |B + u * (x - c)| ≠ |B + u * (y - c)|
        · beta_reduce at h
          rw [if_pos hne] at h
          exact le_of_lt (of_decide_eq_true h)
        · exact le_of_eq (not_not.mp hne))
      (by
        intro x y h
        by_cases hne : |B + u * (x - c)| ≠ |B + u * (y - c)|
        · beta_reduce at h
          rw [if_pos hne] at h
          exact not_lt.mp (of_decide_eq_false h)
        · exact le_of_eq (not_not.mp hne).symm)
      _ hnd
    rw [hr]
    simp only [Option.getD_some]
    rw [List.mem_filter] at hrmem
    obtain ⟨hrc, hrb⟩ := hrmem
    have hrb' : 0 ≤ B + u * (r - c) := by simpa using hrb
    refine ⟨(hcand r hrc).1, (hcand r hrc).2, ?_, ?_⟩
    · intro hex
      refine ⟨hrb', ?_⟩
      obtain ⟨k, hk, hkb, hkmin⟩ := hbest hex
      have hknd : k ∈ List.filter (fun amount => decide (B + u * (amount - c) ≥ 0))
          [0, m, fl, ce] := by
        rw [List.mem_filter]
        exact ⟨hk, by simpa using hkb⟩
      have hle := hrmin k hknd
      simp only [abs_of_nonneg hrb', abs_of_nonneg hkb] at hle
      intro a ha ham hab
      exact le_trans hle (hkmin a ha ham hab)
    · intro hno
      exact absurd ⟨r, (hcand r hrc).1, (hcand r hrc).2, hrb'⟩ hno
  · rw [if_neg hnd]
    have hnd' := not_not.mp hnd
    obtain ⟨r, hr, hrmem, hrmax⟩ := max_element_spec
      (fun lhs rhs =>
        if B + u * (lhs - c) ≠ B + u * (rhs - c) then
          decide (B + u * (lhs - c) < B + u * (rhs - c))
        else decide (|lhs - c| > |rhs - c|))
      (fun a => B + u * (a - c))
      (by
        intro x y h
        by_cases hne : B + u * (x - c) ≠ B + u * (y - c)
        · beta_reduce at h
          rw [if_pos hne] at h
          exact le_of_lt (of_decide_eq_true h)
        · exact le_of_eq (not_not.mp hne))
      (by
        intro x y h
        by_cases hne : B + u * (x - c) ≠ B + u * (y - c)
        · beta_reduce at h
          rw [if_pos hne] at h
          exact not_lt.mp (of_decide_eq_false h)
        · exact le_of_eq (not_not.mp hne).symm)
      [0, m, fl, ce] (by simp)
    rw [hr]
    simp only [Option.getD_some]
    refine ⟨(hcand r hrmem).1, (hcand r hrmem).2, ?_, ?_⟩
    · intro hex
      obtain ⟨k, hk, hkb, _⟩ := hbest hex
      have hknd : k ∈ List.filter (fun amount => decide (B + u * (amount - c) ≥ 0))
          [0, m, fl, ce] := by
        rw [List.mem_filter]
        exact ⟨hk, by simpa using hkb⟩
      rw [hnd'] at hknd
      exact absurd hknd (List.not_mem_nil _)
    · intro _ a ha ham
      rcases lt_or_gt_of_ne hu with hneg | hpos
      · have h0 := hrmax 0 (by simp)
        simp only at h0
        have : B + u * (a - c) ≤ B + u * (0 - c) := by nlinarith
        exact le_trans this h0
      · have h1 := hrmax m (by simp)
        simp only at h1
        have : B + u * (a - c) ≤ B + u * (m - c) := by nlinarith
        exact le_trans this h1

/-- The instance of C1 given with the claim: balance 100, an offer of the `theirs` pane at
price 30 (unit -30), current amount 0, maximum 10.  The amount chosen is 3 (balance 10), and it
is the least non-negative balance of the range. -/
theorem calc_autobalance_amount_optimal_witness :
    unit_balance_delta true offer_price_30 = -30 ∧
    calc_autobalance_amount true 100 offer_price_30 = 3 ∧
    (∀ a : Int, 0 ≤ a → a ≤ 10 → 0 ≤ 100 + (-30) * (a - 0) →
      100 + (-30) * ((3 : Int) - 0) ≤ 100 + (-30) * (a - 0)) := by
  have hu : unit_balance_delta true offer_price_30 = -30 := by with_unfolding_all decide
  have hr : calc_autobalance_amount true 100 offer_price_30 = 3 := by with_unfolding_all decide
  have hm : get_max_amount offer_price_30 = 10 := by decide
  have hc : get_current_amount true offer_price_30 = 0 := by decide
  have h := calc_autobalance_amount_optimal true 100 offer_price_30
    (by rw [hu]; decide)
  rw [hr, hu, hm, hc] at h
  exact ⟨hu, hr, (h.2.2.1 ⟨0, le_rfl, by decide, by decide⟩).2⟩

/-! ### Frame lemmas of the session: what the cursor bookkeeping leaves alone -/

@[simp] theorem set_cursor_core (they : Bool) (w : trading_window) (v : Nat) :
    session_core (set_cursor they w v) = session_core w := by
  unfold set_cursor; split <;> rfl

@[simp] theorem set_offset_core (they : Bool) (w : trading_window) (v : Nat) :
    session_core (set_offset they w v) = session_core w := by
  unfold set_offset; split <;> rfl

@[simp] theorem set_category_cursor_core (they : Bool) (w : trading_window) (v : Nat) :
    session_core (set_category_cursor they w v) = session_core w := by
  unfold set_category_cursor; split <;> rfl

@[simp] theorem set_filter_core (they : Bool) (w : trading_window) (v : String) :
    session_core (set_filter they w v) = session_core w := by
  unfold set_filter; split <;> rfl

@[simp] theorem set_filtered_core (they : Bool) (w : trading_window) (v : List Nat) :
    session_core (set_filtered they w v) = session_core w := by
  unfold set_filtered; split <;> rfl

@[simp] theorem clamp_pane_core (they : Bool) (n : Nat) (w : trading_window) :
    session_core (clamp_pane they n w) = session_core w := by
  simp [clamp_pane]

@[simp] theorem redraw_core (env : ui_env) (t : Int) (w : trading_window) :
    session_core (redraw env t w) = session_core w := rfl

theorem core_state {w v : trading_window} (h : session_core w = session_core v) :
    w.state = v.state := congrArg (fun c => c.1) h

theorem core_confirm {w v : trading_window} (h : session_core w = session_core v) :
    w.confirm = v.confirm := congrArg (fun c => c.2.1) h

theorem core_exit {w v : trading_window} (h : session_core w = session_core v) :
    w.exit = v.exit := congrArg (fun c => c.2.2) h

theorem do_switch_lists_core (w : trading_window) :
    session_core (do_switch_lists w) = session_core w := by
  unfold do_switch_lists
  simp only []
  split_ifs <;> first | rfl | (simp; done) | (simp; rfl)

theorem do_up_down_core (up : Bool) (cr : List category_range) (w : trading_window) :
    session_core (do_up_down up cr w) = session_core w := by
  unfold do_up_down
  simp only []
  split_ifs <;> simp

theorem do_category_selection_core (cr : List category_range) (w : trading_window) :
    session_core (do_category_selection cr w) = session_core w := by
  unfold do_category_selection
  simp only []
  split_ifs
  · split <;> simp <;> rfl
  · rfl

theorem do_filter_core (env : ui_env) (c : Bool) (t : String) (w : trading_window) :
    session_core (do_filter env c t w) = session_core w := by
  unfold do_filter
  simp only []
  split_ifs <;> simp

theorem do_reset_filter_core (env : ui_env) (w : trading_window) :
    session_core (do_reset_filter env w) = session_core w := by
  unfold do_reset_filter
  simp

theorem do_page_core (up : Bool) (w : trading_window) :
    session_core (do_page up w) = session_core w := by
  unfold do_page
  simp only []
  split_ifs <;> simp

theorem do_examine_core (r : info_popup_result) (w : trading_window) :
    session_core (do_examine r w) = session_core w := by
  unfold do_examine
  simp only []
  split_ifs <;> (try split) <;> simp

theorem loop_head_core (env : ui_env) (w0 : trading_window) (inp : trade_input) :
    session_core (loop_head env w0 inp).2 = session_core w0 := by
  unfold loop_head
  simp only []
  split_ifs <;> simp

theorem loop_head_focus (env : ui_env) (w0 : trading_window) (inp : trade_input) :
    (loop_head env w0 inp).2.focus_them = w0.focus_them := by
  unfold loop_head clamp_pane set_category_cursor set_offset set_cursor redraw
  simp only []
  split_ifs <;> rfl

/-! ### Projections of the offer setters -/

@[simp] theorem set_owner_sells_locs (t : Bool) (ip : item_pricing) (v : Int) :
    (set_owner_sells t ip v).locs = ip.locs := by
  unfold set_owner_sells; split <;> rfl

@[simp] theorem set_owner_sells_price (t : Bool) (ip : item_pricing) (v : Int) :
    (set_owner_sells t ip v).price = ip.price := by
  unfold set_owner_sells; split <;> rfl

@[simp] theorem set_owner_sells_is_container (t : Bool) (ip : item_pricing) (v : Int) :
    (set_owner_sells t ip v).is_container = ip.is_container := by
  unfold set_owner_sells; split <;> rfl

@[simp] theorem set_owner_sells_count (t : Bool) (ip : item_pricing) (v : Int) :
    (set_owner_sells t ip v).count = ip.count := by
  unfold set_owner_sells; split <;> rfl

@[simp] theorem set_owner_sells_charges (t : Bool) (ip : item_pricing) (v : Int) :
    (set_owner_sells t ip v).charges = ip.charges := by
  unfold set_owner_sells; split <;> rfl

@[simp] theorem set_owner_sells_weight (t : Bool) (ip : item_pricing) (v : Int) :
    (set_owner_sells t ip v).weight = ip.weight := by
  unfold set_owner_sells; split <;> rfl

@[simp] theorem set_owner_sells_vol (t : Bool) (ip : item_pricing) (v : Int) :
    (set_owner_sells t ip v).vol = ip.vol := by
  unfold set_owner_sells; split <;> rfl

@[simp] theorem set_owner_sells_selected (t : Bool) (ip : item_pricing) (v : Int) :
    (set_owner_sells t ip v).selected = ip.selected := by
  unfold set_owner_sells; split <;> rfl

@[simp] theorem set_owner_sells_charge_locs (t : Bool) (ip : item_pricing) (v : Int) :
    (set_owner_sells_charge t ip v).locs = ip.locs := by
  unfold set_owner_sells_charge; split <;> rfl

@[simp] theorem set_owner_sells_charge_price (t : Bool) (ip : item_pricing) (v : Int) :
    (set_owner_sells_charge t ip v).price = ip.price := by
  unfold set_owner_sells_charge; split <;> rfl

@[simp] theorem set_owner_sells_charge_is_container (t : Bool) (ip : item_pricing) (v : Int) :
    (set_owner_sells_charge t ip v).is_container = ip.is_container := by
  unfold set_owner_sells_charge; split <;> rfl

@[simp] theorem set_owner_sells_charge_count (t : Bool) (ip : item_pricing) (v : Int) :
    (set_owner_sells_charge t ip v).count = ip.count := by
  unfold set_owner_sells_charge; split <;> rfl

@[simp] theorem set_owner_sells_charge_charges (t : Bool) (ip : item_pricing) (v : Int) :
    (set_owner_sells_charge t ip v).charges = ip.charges := by
  unfold set_owner_sells_charge; split <;> rfl

@[simp] theorem set_owner_sells_charge_weight (t : Bool) (ip : item_pricing) (v : Int) :
    (set_owner_sells_charge t ip v).weight = ip.weight := by
  unfold set_owner_sells_charge; split <;> rfl

@[simp] theorem set_owner_sells_charge_vol (t : Bool) (ip : item_pricing) (v : Int) :
    (set_owner_sells_charge t ip v).vol = ip.vol := by
  unfold set_owner_sells_charge; split <;> rfl

@[simp] theorem set_owner_sells_charge_selected (t : Bool) (ip : item_pricing) (v : Int) :
    (set_owner_sells_charge t ip v).selected = ip.selected := by
  unfold set_owner_sells_charge; split <;> rfl

@[simp] theorem set_selected_locs (ip : item_pricing) (v : Bool) :
    (set_selected ip v).locs = ip.locs := rfl

@[simp] theorem set_selected_price (ip : item_pricing) (v : Bool) :
    (set_selected ip v).price = ip.price := rfl

@[simp] theorem set_selected_is_container (ip : item_pricing) (v : Bool) :
    (set_selected ip v).is_container = ip.is_container := rfl

@[simp] theorem set_selected_count (ip : item_pricing) (v : Bool) :
    (set_selected ip v).count = ip.count := rfl

@[simp] theorem set_selected_charges (ip : item_pricing) (v : Bool) :
    (set_selected ip v).charges = ip.charges := rfl

@[simp] theorem set_selected_weight (ip : item_pricing) (v : Bool) :
    (set_selected ip v).weight = ip.weight := rfl

@[simp] theorem set_selected_vol (ip : item_pricing) (v : Bool) :
    (set_selected ip v).vol = ip.vol := rfl

@[simp] theorem set_selected_u_has (ip : item_pricing) (v : Bool) :
    (set_selected ip v).u_has = ip.u_has := rfl

@[simp] theorem set_selected_npc_has (ip : item_pricing) (v : Bool) :
    (set_selected ip v).npc_has = ip.npc_has := rfl

@[simp] theorem set_selected_u_charges (ip : item_pricing) (v : Bool) :
    (set_selected ip v).u_charges = ip.u_charges := rfl

@[simp] theorem set_selected_npc_charges (ip : item_pricing) (v : Bool) :
    (set_selected ip v).npc_charges = ip.npc_charges := rfl

@[simp] theorem set_selected_selected (ip : item_pricing) (v : Bool) :
    (set_selected ip v).selected = v := rfl

@[simp] theorem owner_sells_set_selected (q : Bool) (ip : item_pricing) (v : Bool) :
    owner_sells q (set_selected ip v) = owner_sells q ip := rfl

@[simp] theorem owner_sells_charge_set_selected (q : Bool) (ip : item_pricing) (v : Bool) :
    owner_sells_charge q (set_selected ip v) = owner_sells_charge q ip := rfl

@[simp] theorem owner_sells_set_owner_sells (t : Bool) (ip : item_pricing) (v : Int) :
    owner_sells t (set_owner_sells t ip v) = v := by
  cases t <;> rfl

@[simp] theorem owner_sells_set_owner_sells_other (t : Bool) (ip : item_pricing) (v : Int) :
    owner_sells (!t) (set_owner_sells t ip v) = owner_sells (!t) ip := by
  cases t <;> rfl

@[simp] theorem owner_sells_charge_set_owner_sells (q t : Bool) (ip : item_pricing) (v : Int) :
    owner_sells_charge q (set_owner_sells t ip v) = owner_sells_charge q ip := by
  cases t <;> cases q <;> rfl

@[simp] theorem owner_sells_charge_set_owner_sells_charge (t : Bool) (ip : item_pricing)
    (v : Int) : owner_sells_charge t (set_owner_sells_charge t ip v) = v := by
  cases t <;> rfl

@[simp] theorem owner_sells_charge_set_owner_sells_charge_other (t : Bool) (ip : item_pricing)
    (v : Int) :
    owner_sells_charge (!t) (set_owner_sells_charge t ip v) = owner_sells_charge (!t) ip := by
  cases t <;> rfl

@[simp] theorem owner_sells_set_owner_sells_charge (q t : Bool) (ip : item_pricing) (v : Int) :
    owner_sells q (set_owner_sells_charge t ip v) = owner_sells q ip := by
  cases t <;> cases q <;> rfl

theorem get_current_amount_eq (q : Bool) (ip : item_pricing) :
    get_current_amount q ip =
      if ip.charges > 0 then owner_sells_charge q ip else owner_sells q ip := rfl

theorem get_max_amount_eq (ip : item_pricing) :
    get_max_amount ip = (if ip.charges > 0 then ip.charges else max ip.count 1) := rfl

theorem settle_amount_lists (np : npc) (ip : item_pricing) (n : Int) (st : trade_state) :
    (settle_amount np ip n st).theirs = st.theirs ∧
    (settle_amount np ip n st).yours = st.yours := by
  exact ⟨rfl, rfl⟩

/-! ### Offer-wise invariants of the session -/

theorem pane_inv_list_of (P : Bool → item_pricing → Prop) (state : trade_state)
    (h : pane_inv P state) (they : Bool) : ∀ ip ∈ list_of they state, P they ip := by
  cases they
  · exact h.2
  · exact h.1

/-- The lambda `apply_trade_change` written with `get_current_amount` and `get_max_amount`. -/
theorem apply_trade_change_eq (np : npc) (they : Bool) (ip : item_pricing) (n : Int)
    (st : trade_state) :
    apply_trade_change np they ip n st =
      if clamp n 0 (get_max_amount ip) = get_current_amount they ip then (ip, st)
      else
        (set_selected
          (if ip.charges > 0 then set_owner_sells_charge they ip (clamp n 0 (get_max_amount ip))
           else set_owner_sells they ip (clamp n 0 (get_max_amount ip)))
          (decide (clamp n 0 (get_max_amount ip) > 0)),
         settle_amount np ip
          (if they then clamp n 0 (get_max_amount ip) - get_current_amount they ip
           else -(clamp n 0 (get_max_amount ip) - get_current_amount they ip)) st) := by
  unfold apply_trade_change
  rw [get_current_amount_eq, get_max_amount_eq]
  by_cases hch : ip.charges > 0
  · simp only [hch, if_true, decide_True]
  · simp only [hch, if_false, decide_False]
    rfl

theorem apply_trade_change_lists (np : npc) (they : Bool) (ip : item_pricing) (n : Int)
    (st : trade_state) :
    (apply_trade_change np they ip n st).2.theirs = st.theirs ∧
    (apply_trade_change np they ip n st).2.yours = st.yours := by
  rw [apply_trade_change_eq]
  split_ifs <;> exact ⟨rfl, rfl⟩

theorem hotkey_toggle_lists (np : npc) (they : Bool) (c : Bool) (h : Int) (ip : item_pricing)
    (st : trade_state) (r : item_pricing × trade_state)
    (hr : hotkey_toggle np they c h ip st = some r) :
    r.2.theirs = st.theirs ∧ r.2.yours = st.yours := by
  unfold hotkey_toggle at hr
  simp only [] at hr
  split at hr
  · exact absurd hr (by simp)
  · simp only [Option.some.injEq] at hr
    subst hr
    exact settle_amount_lists _ _ _ _

/-- Storing an offer back at `list_index` keeps an offer-wise invariant when the stored offer
satisfies it and the ledger passed along has the same lists. -/
theorem set_offer_pane_inv (P : Bool → item_pricing → Prop) (they : Bool) (i : Nat)
    (x : item_pricing) (s s2 : trade_state)
    (hl : s2.theirs = s.theirs ∧ s2.yours = s.yours)
    (hx : i < (list_of they s).length → P they x) (h : pane_inv P s) :
    pane_inv P (set_list_of they s2 ((list_of they s2).set i x)) := by
  have hmem : ∀ (l : List item_pricing) (q : Bool), (∀ ip ∈ l, P q ip) →
      (i < l.length → P q x) → ∀ ip ∈ l.set i x, P q ip := by
    intro l q hall hxq ip hip
    by_cases hi : i < l.length
    · rcases List.mem_or_eq_of_mem_set hip with hin | rfl
      · exact hall ip hin
      · exact hxq hi
    · rw [List.set_eq_of_length_le (not_lt.mp hi)] at hip
      exact hall ip hip
  cases they
  · simp only [set_list_of, list_of, Bool.false_eq_true, if_false] at hx ⊢
    refine ⟨?_, ?_⟩
    · show ∀ ip ∈ s2.theirs, P true ip
      rw [hl.1]; exact h.1
    · show ∀ ip ∈ s2.yours.set i x, P false ip
      rw [hl.2]; exact hmem _ _ h.2 hx
  · simp only [set_list_of, list_of, if_true] at hx ⊢
    refine ⟨?_, ?_⟩
    · show ∀ ip ∈ s2.theirs.set i x, P true ip
      rw [hl.1]; exact hmem _ _ h.1 hx
    · show ∀ ip ∈ s2.yours, P false ip
      rw [hl.2]; exact h.2

theorem getD_mem_of_lt (l : List item_pricing) (i : Nat) (hi : i < l.length) :
    l.getD i default ∈ l := by
  rw [List.getD_eq_getElem _ _ hi]
  exact List.getElem_mem hi

theorem on_offer_pane_inv (P : Bool → item_pricing → Prop) (they : Bool) (i : Nat)
    (f : item_pricing → trade_state → item_pricing × trade_state) (s : trade_state)
    (hfl : ∀ ip st, (f ip st).2.theirs = st.theirs ∧ (f ip st).2.yours = st.yours)
    (hfP : ∀ ip st, P they ip → P they (f ip st).1) (h : pane_inv P s) :
    pane_inv P (on_offer they i f s) := by
  unfold on_offer
  apply set_offer_pane_inv P they i _ s _ (hfl _ _) _ h
  intro hi
  exact hfP _ _ (pane_inv_list_of P s h they _ (getD_mem_of_lt _ _ hi))

theorem foldl_pane_inv (P : Bool → item_pricing → Prop) (g : trade_state → Nat → trade_state)
    (hg : ∀ st idx, pane_inv P st → pane_inv P (g st idx)) (l : List Nat) (s : trade_state)
    (h : pane_inv P s) : pane_inv P (l.foldl g s) := by
  induction l generalizing s with
  | nil => exact h
  | cons a l ih => exact ih _ (hg s a h)

theorem do_right_left_pane_inv (P : Bool → item_pricing → Prop) (np : npc) (right : Bool)
    (cr : List category_range) (w : trading_window)
    (hA : ∀ they ip n st, P they ip → P they (apply_trade_change np they ip n st).1)
    (h : pane_inv P w.state) : pane_inv P (do_right_left np right cr w).state := by
  have hstep : ∀ (they : Bool) (n : item_pricing → Int) (i : Nat) (st : trade_state),
      pane_inv P st →
      pane_inv P (on_offer they i (fun ip s => apply_trade_change np they ip (n ip) s) st) := by
    intro they n i st hst
    exact on_offer_pane_inv P they i _ st (fun ip s => apply_trade_change_lists _ _ _ _ _)
      (fun ip s hp => hA _ _ _ _ hp) hst
  unfold do_right_left
  simp only []
  by_cases hcm : w.category_mode = true
  · by_cases hcr : cr ≠ []
    · simp only [hcm, hcr, if_true, ne_eq, not_false_eq_true]
      apply foldl_pane_inv P _ _ _ _ h
      intro st idx hst
      cases right
      · exact hstep _ (fun _ => 0) _ st hst
      · exact hstep _ (fun ip => if ip.charges > 0 then ip.charges else max ip.count 1) _ st hst
    · simp only [hcm, hcr, if_true, if_false]
      exact h
  · by_cases hf : filtered_of w.focus_them w ≠ []
    · simp only [hcm, hf, if_true, ne_eq, not_false_eq_true]
      cases right
      · exact hstep _ (fun _ => 0) _ _ h
      · exact hstep _
          (fun ip => w.pending_count.getD (if ip.charges > 0 then ip.charges else max ip.count 1))
          _ _ h
    · simp only [hcm, hf, if_false]
      exact h

theorem do_autobalance_pane_inv (P : Bool → item_pricing → Prop) (np : npc) (env : ui_env)
    (cr : List category_range) (w : trading_window)
    (hA : ∀ they ip n st, P they ip → P they (apply_trade_change np they ip n st).1)
    (h : pane_inv P w.state) : pane_inv P (do_autobalance np env cr w).state := by
  unfold do_autobalance
  simp only []
  by_cases hf : filtered_of w.focus_them w = []
  · simp only [hf, if_true]
    exact h
  · by_cases hcm : w.category_mode = true
    · by_cases hcr : cr = []
      · simp only [hf, hcm, hcr, if_true, if_false]
        exact h
      · simp only [hf, hcm, hcr, if_true, if_false]
        apply foldl_pane_inv P _ _ _ _ h
        intro st idx hst
        split
        · exact on_offer_pane_inv P _ _ _ st (fun ip s => apply_trade_change_lists _ _ _ _ _)
            (fun ip s hp => hA _ _ _ _ hp) hst
        · exact hst
    · simp only [hf, hcm, if_false]
      exact on_offer_pane_inv P _ _ _ _ (fun ip s => apply_trade_change_lists _ _ _ _ _)
        (fun ip s hp => hA _ _ _ _ hp) h

theorem do_confirm_state (np : npc) (q : Bool) (w : trading_window) :
    (do_confirm np q w).state = w.state := by
  unfold do_confirm
  split_ifs <;> rfl

theorem hotkey_cursor_core (cr : List category_range) (i : Nat) (w : trading_window) :
    session_core (hotkey_cursor cr i w) = session_core w := by
  unfold hotkey_cursor
  simp only []
  split_ifs
  · split <;> simp
  · simp

theorem do_any_input_pane_inv (P : Bool → item_pricing → Prop) (np : npc) (env : ui_env)
    (inp : trade_input) (cr : List category_range) (w : trading_window)
    (hT : ∀ they c q ip st r, hotkey_toggle np they c q ip st = some r → P they ip → P they r.1)
    (h : pane_inv P w.state) : pane_inv P (do_any_input np env inp cr w).state := by
  unfold do_any_input
  simp only []
  by_cases hk : (!inp.evt_is_keyboard) = true
  · rw [if_pos hk]; exact h
  rw [if_neg hk]
  by_cases hd : '0' ≤ inp.evt_first_input ∧ inp.evt_first_input ≤ '9'
  · rw [if_pos hd]; exact h
  rw [if_neg hd]
  by_cases hp : List.indexOf inp.evt_first_input env.item_hotkeys ≥ env.item_hotkeys.length
  · rw [if_pos hp]; exact h
  rw [if_neg hp]
  by_cases hc : List.indexOf inp.evt_first_input env.item_hotkeys + offset_of w.focus_them w <
      (filtered_of w.focus_them w).length
  · rw [if_pos hc]
    have hs := core_state (hotkey_cursor_core cr
      (List.indexOf inp.evt_first_input env.item_hotkeys + offset_of w.focus_them w) w)
    split
    · rw [hs]; exact h
    · rename_i r hr
      dsimp only
      apply set_offer_pane_inv P _ _ _ _ _ (hotkey_toggle_lists _ _ _ _ _ _ _ hr) _ (hs ▸ h)
      intro hi
      apply hT _ _ _ _ _ _ hr
      exact pane_inv_list_of P _ (hs ▸ h) _ _ (getD_mem_of_lt _ _ hi)
  · rw [if_neg hc]; exact h

/-- One iteration of the loop keeps every offer-wise property that `apply_trade_change` and the
hotkey toggle keep. -/
theorem trade_loop_body_pane_inv (P : Bool → item_pricing → Prop) (np : npc) (env : ui_env)
    (w : trading_window) (inp : trade_input)
    (hA : ∀ they ip n st, P they ip → P they (apply_trade_change np they ip n st).1)
    (hT : ∀ they c q ip st r, hotkey_toggle np they c q ip st = some r → P they ip → P they r.1)
    (h : pane_inv P w.state) : pane_inv P (trade_loop_body np env w inp).state := by
  have hh : pane_inv P (loop_head env w inp).2.state := by
    rw [core_state (loop_head_core env w inp)]; exact h
  unfold trade_loop_body
  simp only []
  split
  · rw [core_state (do_switch_lists_core _)]; exact hh
  · rw [core_state (do_up_down_core _ _ _)]; exact hh
  · rw [core_state (do_up_down_core _ _ _)]; exact hh
  · exact do_right_left_pane_inv P np _ _ _ hA hh
  · exact do_right_left_pane_inv P np _ _ _ hA hh
  · exact do_autobalance_pane_inv P np env _ _ hA hh
  · exact hh
  · rw [core_state (do_category_selection_core _ _)]; exact hh
  · rw [core_state (do_filter_core _ _ _ _)]; exact hh
  · rw [core_state (do_reset_filter_core _ _)]; exact hh
  · rw [core_state (do_page_core _ _)]; exact hh
  · rw [core_state (do_page_core _ _)]; exact hh
  · rw [core_state (do_examine_core _ _)]; exact hh
  · rw [do_confirm_state]; exact hh
  · exact hh
  · exact do_any_input_pane_inv P np env inp _ _ hT hh
  · exact hh
  · exact hh

theorem trade_loop_pane_inv (P : Bool → item_pricing → Prop) (np : npc) (env : ui_env)
    (hA : ∀ they ip n st, P they ip → P they (apply_trade_change np they ip n st).1)
    (hT : ∀ they c q ip st r, hotkey_toggle np they c q ip st = some r → P they ip → P they r.1)
    (inputs : List trade_input) (w : trading_window)
    (h : pane_inv P w.state) : pane_inv P (trade_loop np env inputs w).state := by
  induction inputs generalizing w with
  | nil => exact h
  | cons inp rest ih =>
    unfold trade_loop
    split_ifs
    · exact h
    · exact ih _ (trade_loop_body_pane_inv P np env w inp hA hT h)

theorem perform_trade_init_lists (np : npc) (state : trade_state) :
    (perform_trade_init np state).state.theirs = state.theirs ∧
    (perform_trade_init np state).state.yours = state.yours := by
  unfold perform_trade_init
  simp only []
  split_ifs <;> exact ⟨rfl, rfl⟩

/-- An offer-wise property kept by `apply_trade_change` and by the hotkey toggle, and true of
the offers the session starts with, holds after any sequence of inputs. -/
theorem perform_trade_pane_inv (P : Bool → item_pricing → Prop) (np : npc) (env : ui_env)
    (hA : ∀ they ip n st, P they ip → P they (apply_trade_change np they ip n st).1)
    (hT : ∀ they c q ip st r, hotkey_toggle np they c q ip st = some r → P they ip → P they r.1)
    (inputs : List trade_input) (state : trade_state)
    (h : pane_inv P state) : pane_inv P (perform_trade np env inputs state).state := by
  apply trade_loop_pane_inv P np env hA hT
  unfold pane_inv
  rw [(perform_trade_init_lists np state).1, (perform_trade_init_lists np state).2]
  exact h

/-! ### The quantity bound -/

theorem apply_trade_change_charges (np : npc) (they : Bool) (ip : item_pricing) (n : Int)
    (st : trade_state) :
    (apply_trade_change np they ip n st).1.charges = ip.charges ∧
    (apply_trade_change np they ip n st).1.count = ip.count ∧
    (apply_trade_change np they ip n st).1.price = ip.price := by
  rw [apply_trade_change_eq]
  split_ifs <;> simp

/-- After `apply_trade_change` the amount of the focused pane is the requested amount clamped
to `[0, max]`. -/
theorem apply_trade_change_amount (np : npc) (they : Bool) (ip : item_pricing) (n : Int)
    (st : trade_state) :
    get_current_amount they (apply_trade_change np they ip n st).1 =
      clamp n 0 (get_max_amount ip) := by
  rw [apply_trade_change_eq]
  by_cases heq : clamp n 0 (get_max_amount ip) = get_current_amount they ip
  · rw [if_pos heq]; exact heq.symm
  · rw [if_neg heq]
    rw [get_current_amount_eq]
    by_cases hch : ip.charges > 0
    · simp [hch]
    · simp [hch]

/-- The call `apply_trade_change` leaves the counters of the other pane alone. -/
theorem apply_trade_change_other_amount (np : npc) (they : Bool) (ip : item_pricing) (n : Int)
    (st : trade_state) :
    get_current_amount (!they) (apply_trade_change np they ip n st).1 =
      get_current_amount (!they) ip := by
  rw [apply_trade_change_eq]
  by_cases heq : clamp n 0 (get_max_amount ip) = get_current_amount they ip
  · rw [if_pos heq]
  · rw [if_neg heq]
    rw [get_current_amount_eq, get_current_amount_eq (!they) ip]
    by_cases hch : ip.charges > 0
    · simp [hch]
    · simp [hch]

theorem apply_trade_change_amount_in_bounds (np : npc) (they : Bool) (ip : item_pricing)
    (n : Int) (st : trade_state) (q : Bool) (h : amount_in_bounds q ip) :
    amount_in_bounds q (apply_trade_change np they ip n st).1 := by
  unfold amount_in_bounds at h ⊢
  obtain ⟨hc, hk, _⟩ := apply_trade_change_charges np they ip n st
  rw [hc, hk]
  by_cases hq : q = they
  · subst hq
    rw [apply_trade_change_amount, get_max_amount_eq]
    apply clamp_bounds
    split_ifs <;> omega
  · have hq' : q = !they := by cases q <;> cases they <;> simp_all
    subst hq'
    rw [apply_trade_change_other_amount]
    exact h

theorem get_var_trade_bounds (total hint : Int) (c : Bool) (q : Int)
    (h : ¬ get_var_trade total hint c q < 1) :
    c = false ∧ 0 < q ∧ get_var_trade total hint c q = min total q ∧
    1 ≤ get_var_trade total hint c q ∧ get_var_trade total hint c q ≤ total := by
  unfold get_var_trade at h ⊢
  split_ifs at h ⊢ with hc
  · omega
  · have hc' : c = false ∧ 0 < q := by
      constructor
      · cases c <;> simp_all
      · by_contra hq
        exact hc (Or.inr (not_lt.mp hq))
    refine ⟨hc'.1, hc'.2, rfl, not_lt.mp h, min_le_left _ _⟩

/-- The six ways the hotkey branch changes an offer: a selected offer loses its charges, or
else its count, or else nothing; an unselected offer gets the prompted charges, the prompted
count, or one item.  In every case the selected flag flips and the ledger is settled for the
signed amount. -/
theorem hotkey_toggle_cases (np : npc) (they : Bool) (c : Bool) (q : Int) (ip : item_pricing)
    (st : trade_state) (r : item_pricing × trade_state)
    (hr : hotkey_toggle np they c q ip st = some r) :
    ∃ (chg : Int) (ip1 : item_pricing),
      r = (set_selected ip1 (!ip.selected),
           settle_amount np (set_selected ip1 (!ip.selected))
             (if (!ip.selected) ≠ they then chg * -1 else chg) st) ∧
      ((ip.selected = true ∧ owner_sells_charge they ip > 0 ∧
          ip1 = set_owner_sells_charge they ip 0 ∧ chg = owner_sells_charge they ip) ∨
       (ip.selected = true ∧ ¬ owner_sells_charge they ip > 0 ∧ owner_sells they ip > 0 ∧
          ip1 = set_owner_sells they ip 0 ∧ chg = owner_sells they ip) ∨
       (ip.selected = true ∧ ¬ owner_sells_charge they ip > 0 ∧ ¬ owner_sells they ip > 0 ∧
          ip1 = ip ∧ chg = 1) ∨
       (ip.selected = false ∧ ip.charges > 0 ∧ c = false ∧ 0 < q ∧ chg = min ip.charges q ∧
          1 ≤ chg ∧ chg ≤ ip.charges ∧ ip1 = set_owner_sells_charge they ip chg) ∨
       (ip.selected = false ∧ ¬ ip.charges > 0 ∧ ip.count > 1 ∧ c = false ∧ 0 < q ∧
          chg = min ip.count q ∧ 1 ≤ chg ∧ chg ≤ ip.count ∧ ip1 = set_owner_sells they ip chg) ∨
       (ip.selected = false ∧ ¬ ip.charges > 0 ∧ ¬ ip.count > 1 ∧
          ip1 = set_owner_sells they ip 1 ∧ chg = 1)) := by
  unfold hotkey_toggle at hr
  simp only [] at hr
  by_cases hsel : ip.selected = true
  · simp only [hsel, if_true] at hr
    by_cases h1 : owner_sells_charge they ip > 0
    · simp only [h1, if_true, Option.some.injEq] at hr
      refine ⟨_, _, ?_, Or.inl ⟨hsel, h1, rfl, rfl⟩⟩
      rw [← hr]; simp [hsel]
    · by_cases h2 : owner_sells they ip > 0
      · simp only [h1, h2, if_true, if_false, Option.some.injEq] at hr
        refine ⟨_, _, ?_, Or.inr (Or.inl ⟨hsel, h1, h2, rfl, rfl⟩)⟩
        rw [← hr]; simp [hsel]
      · simp only [h1, h2, if_false, Option.some.injEq] at hr
        refine ⟨_, _, ?_, Or.inr (Or.inr (Or.inl ⟨hsel, h1, h2, rfl, rfl⟩))⟩
        rw [← hr]; simp [hsel]
  · have hsel' : ip.selected = false := by simpa using hsel
    simp only [hsel', Bool.false_eq_true, if_false] at hr
    by_cases hch : ip.charges > 0
    · simp only [hch, if_true] at hr
      by_cases hlt : get_var_trade ip.charges (calc_amount_hint they ip st.your_balance) c q < 1
      · simp [hlt] at hr
      · simp only [hlt, if_false, Option.some.injEq] at hr
        obtain ⟨hc, hq, hv, hv1, hv2⟩ := get_var_trade_bounds _ _ _ _ hlt
        refine ⟨_, _, ?_, Or.inr (Or.inr (Or.inr (Or.inl
          ⟨hsel', hch, hc, hq, hv, hv1, hv2, rfl⟩)))⟩
        rw [← hr]; simp [hsel']
    · simp only [hch, if_false] at hr
      by_cases hcnt : ip.count > 1
      · simp only [hcnt, if_true] at hr
        by_cases hlt : get_var_trade ip.count (calc_amount_hint they ip st.your_balance) c q < 1
        · simp [hlt] at hr
        · simp only [hlt, if_false, Option.some.injEq] at hr
          obtain ⟨hc, hq, hv, hv1, hv2⟩ := get_var_trade_bounds _ _ _ _ hlt
          refine ⟨_, _, ?_, Or.inr (Or.inr (Or.inr (Or.inr (Or.inl
            ⟨hsel', hch, hcnt, hc, hq, hv, hv1, hv2, rfl⟩))))⟩
          rw [← hr]; simp [hsel']
      · simp only [hcnt, if_false, Option.some.injEq] at hr
        refine ⟨_, _, ?_, Or.inr (Or.inr (Or.inr (Or.inr (Or.inr
          ⟨hsel', hch, hcnt, rfl, rfl⟩))))⟩
        rw [← hr]; simp [hsel']

theorem owner_sells_charge_set_gen (q t : Bool) (ip : item_pricing) (v : Int) :
    owner_sells_charge q (set_owner_sells_charge t ip v) =
      if q = t then v else owner_sells_charge q ip := by
  cases q <;> cases t <;> rfl

theorem owner_sells_set_gen (q t : Bool) (ip : item_pricing) (v : Int) :
    owner_sells q (set_owner_sells t ip v) = if q = t then v else owner_sells q ip := by
  cases q <;> cases t <;> rfl

theorem hotkey_toggle_amount_in_bounds (np : npc) (they : Bool) (c : Bool) (k : Int)
    (ip : item_pricing) (st : trade_state) (r : item_pricing × trade_state)
    (hr : hotkey_toggle np they c k ip st = some r) (q : Bool) (h : amount_in_bounds q ip) :
    amount_in_bounds q r.1 := by
  obtain ⟨chg, ip1, hreq, hcases⟩ := hotkey_toggle_cases np they c k ip st r hr
  unfold amount_in_bounds at h ⊢
  rw [get_current_amount_eq] at h ⊢
  rw [hreq]
  rcases hcases with ⟨_, h1, rfl, _⟩ | ⟨_, h1, h2, rfl, _⟩ | ⟨_, _, _, rfl, _⟩ |
    ⟨_, hch, _, _, _, hv1, hv2, rfl⟩ | ⟨_, hch, hcnt, _, _, _, hv1, hv2, rfl⟩ |
    ⟨_, hch, hcnt, rfl, _⟩
  · simp only [set_selected_charges, set_selected_count, set_owner_sells_charge_charges,
      set_owner_sells_charge_count, owner_sells_charge_set_selected, owner_sells_set_selected,
      owner_sells_charge_set_gen, owner_sells_set_owner_sells_charge]
    split_ifs at h ⊢ <;> omega
  · simp only [set_selected_charges, set_selected_count, set_owner_sells_charges,
      set_owner_sells_count, owner_sells_charge_set_selected, owner_sells_set_selected,
      owner_sells_set_gen, owner_sells_charge_set_owner_sells]
    split_ifs at h ⊢ <;> omega
  · exact h
  · simp only [set_selected_charges, set_selected_count, set_owner_sells_charge_charges,
      set_owner_sells_charge_count, owner_sells_charge_set_selected, owner_sells_set_selected,
      owner_sells_charge_set_gen, owner_sells_set_owner_sells_charge]
    split_ifs at h ⊢ <;> omega
  · simp only [set_selected_charges, set_selected_count, set_owner_sells_charges,
      set_owner_sells_count, owner_sells_charge_set_selected, owner_sells_set_selected,
      owner_sells_set_gen, owner_sells_charge_set_owner_sells]
    split_ifs at h ⊢ <;> omega
  · simp only [set_selected_charges, set_selected_count, set_owner_sells_charges,
      set_owner_sells_count, owner_sells_charge_set_selected, owner_sells_set_selected,
      owner_sells_set_gen, owner_sells_charge_set_owner_sells]
    split_ifs at h ⊢ <;> omega

/-- C7: the quantity bound of the negotiation session.  When the session starts from offers
whose four counters are 0, then after any sequence of inputs every offer of both lists has, in
either pane's counters, `0 ≤ offered amount ≤ (charges > 0 ? charges : max(count, 1))`, the
offered amount being `u_charges` / `npc_charges` for a charge offer and `u_has` / `npc_has`
otherwise. -/
theorem session_amounts_within_bounds (np : npc) (env : ui_env) (inputs : List trade_input)
    (state : trade_state)
    (h0 : ∀ ip, ip ∈ state.theirs ∨ ip ∈ state.yours →
      ip.u_has = 0 ∧ ip.npc_has = 0 ∧ ip.u_charges = 0 ∧ ip.npc_charges = 0) :
    ∀ ip, ip ∈ (perform_trade np env inputs state).state.theirs ∨
        ip ∈ (perform_trade np env inputs state).state.yours →
      ∀ they : Bool,
        0 ≤ (if ip.charges > 0 then (if they then ip.u_charges else ip.npc_charges)
             else (if they then ip.u_has else ip.npc_has)) ∧
        (if ip.charges > 0 then (if they then ip.u_charges else ip.npc_charges)
             else (if they then ip.u_has else ip.npc_has)) ≤
          (if ip.charges > 0 then ip.charges else max ip.count 1) := by
  have hinit : pane_inv (fun _ ip => amount_in_bounds true ip ∧ amount_in_bounds false ip)
      state := by
    have hz : ∀ ip, ip ∈ state.theirs ∨ ip ∈ state.yours →
        amount_in_bounds true ip ∧ amount_in_bounds false ip := by
      intro ip hip
      obtain ⟨a, b, c, d⟩ := h0 ip hip
      unfold amount_in_bounds get_current_amount
      simp only [a, b, c, d, if_true, Bool.false_eq_true, if_false, ite_self, le_refl, true_and]
      constructor <;> split_ifs <;> omega
    exact ⟨fun ip hip => hz ip (Or.inl hip), fun ip hip => hz ip (Or.inr hip)⟩
  have hfin := perform_trade_pane_inv
    (fun _ ip => amount_in_bounds true ip ∧ amount_in_bounds false ip) np env
    (fun they ip n st hp =>
      ⟨apply_trade_change_amount_in_bounds np they ip n st true hp.1,
       apply_trade_change_amount_in_bounds np they ip n st false hp.2⟩)
    (fun they c q ip st r hr hp =>
      ⟨hotkey_toggle_amount_in_bounds np they c q ip st r hr true hp.1,
       hotkey_toggle_amount_in_bounds np they c q ip st r hr false hp.2⟩)
    inputs state hinit
  intro ip hip they
  have hb : amount_in_bounds true ip ∧ amount_in_bounds false ip := by
    rcases hip with hip | hip
    · exact hfin.1 ip hip
    · exact hfin.2 ip hip
  cases they
  · exact hb.2
  · exact hb.1

/-- The instance of C7 for the session that types `2`, `5` and then RIGHT on the single offer
of ten items: the pending count 25 is clamped, ten items are offered, and the bound holds. -/
theorem session_amounts_within_bounds_witness :
    (perform_trade trader_npc plain_env
        [input_of trade_action.ANY_INPUT '2', input_of trade_action.ANY_INPUT '5',
         input_of trade_action.RIGHT ' '] ledger_one_offer).state.theirs.map
      (fun ip => ip.u_has) = [10] ∧
    (∀ ip, ip ∈ (perform_trade trader_npc plain_env
        [input_of trade_action.ANY_INPUT '2', input_of trade_action.ANY_INPUT '5',
         input_of trade_action.RIGHT ' '] ledger_one_offer).state.theirs ∨
        ip ∈ (perform_trade trader_npc plain_env
        [input_of trade_action.ANY_INPUT '2', input_of trade_action.ANY_INPUT '5',
         input_of trade_action.RIGHT ' '] ledger_one_offer).state.yours →
      ∀ they : Bool,
        0 ≤ (if ip.charges > 0 then (if they then ip.u_charges else ip.npc_charges)
             else (if they then ip.u_has else ip.npc_has)) ∧
        (if ip.charges > 0 then (if they then ip.u_charges else ip.npc_charges)
             else (if they then ip.u_has else ip.npc_has)) ≤
          (if ip.charges > 0 then ip.charges else max ip.count 1)) :=
  ⟨by with_unfolding_all decide,
   session_amounts_within_bounds trader_npc plain_env
     [input_of trade_action.ANY_INPUT '2', input_of trade_action.ANY_INPUT '5',
      input_of trade_action.RIGHT ' '] ledger_one_offer
     (by
       intro ip hip
       simp only [ledger_one_offer, List.mem_singleton, List.not_mem_nil, or_false] at hip
       subst hip
       exact ⟨rfl, rfl, rfl, rfl⟩)⟩

/-! ### Commit -/

theorem do_right_left_flags (np : npc) (right : Bool) (cr : List category_range)
    (w : trading_window) :
    (do_right_left np right cr w).confirm = w.confirm ∧
    (do_right_left np right cr w).exit = w.exit := by
  unfold do_right_left
  simp only []
  split_ifs <;> exact ⟨rfl, rfl⟩

theorem do_autobalance_flags (np : npc) (env : ui_env) (cr : List category_range)
    (w : trading_window) :
    (do_autobalance np env cr w).confirm = w.confirm ∧
    (do_autobalance np env cr w).exit = w.exit := by
  unfold do_autobalance
  simp only []
  split_ifs <;> exact ⟨rfl, rfl⟩

theorem do_any_input_flags (np : npc) (env : ui_env) (inp : trade_input)
    (cr : List category_range) (w : trading_window) :
    (do_any_input np env inp cr w).confirm = w.confirm ∧
    (do_any_input np env inp cr w).exit = w.exit := by
  unfold do_any_input
  simp only []
  by_cases hk : (!inp.evt_is_keyboard) = true
  · rw [if_pos hk]; exact ⟨rfl, rfl⟩
  rw [if_neg hk]
  by_cases hd : '0' ≤ inp.evt_first_input ∧ inp.evt_first_input ≤ '9'
  · rw [if_pos hd]; exact ⟨rfl, rfl⟩
  rw [if_neg hd]
  by_cases hp : List.indexOf inp.evt_first_input env.item_hotkeys ≥ env.item_hotkeys.length
  · rw [if_pos hp]; exact ⟨rfl, rfl⟩
  rw [if_neg hp]
  by_cases hc : List.indexOf inp.evt_first_input env.item_hotkeys + offset_of w.focus_them w <
      (filtered_of w.focus_them w).length
  · rw [if_pos hc]
    have hs := hotkey_cursor_core cr
      (List.indexOf inp.evt_first_input env.item_hotkeys + offset_of w.focus_them w) w
    have h1 := core_confirm hs
    have h2 := core_exit hs
    split
    · exact ⟨h1, h2⟩
    · exact ⟨h1, h2⟩
  · rw [if_neg hc]; exact ⟨rfl, rfl⟩

theorem do_confirm_commit (np : npc) (q : Bool) (w : trading_window) (hw : w.confirm = false)
    (hc : (do_confirm np q w).confirm = true) :
    npc_trading.npc_will_accept_trade w.state np = true ∧
    0 ≤ w.state.volume_left ∧ 0 ≤ w.state.weight_left ∧ (do_confirm np q w).exit = true := by
  unfold do_confirm at hc ⊢
  by_cases h1 : (!npc_trading.npc_will_accept_trade w.state np) = true
  · rw [if_pos h1, hw] at hc; exact absurd hc (by simp)
  rw [if_neg h1] at hc ⊢
  by_cases h2 : w.state.volume_left < 0 ∨ w.state.weight_left < 0
  · rw [if_pos h2, hw] at hc; exact absurd hc (by simp)
  rw [if_neg h2] at hc ⊢
  have hacc : npc_trading.npc_will_accept_trade w.state np = true := by simpa using h1
  refine ⟨hacc, not_lt.mp (fun h => h2 (Or.inl h)), not_lt.mp (fun h => h2 (Or.inr h)), ?_⟩
  cases q
  · simp only [Bool.false_eq_true, if_false, ite_self] at hc
    rw [hw] at hc; exact absurd hc (by simp)
  · simp

/-- The only way one iteration of the loop sets `confirm` is the `CONFIRM` branch, and it does
so only when the NPC accepts the trade and no capacity is exceeded; the ledger is not touched
and the loop ends. -/
theorem trade_loop_body_confirm (np : npc) (env : ui_env) (w : trading_window)
    (inp : trade_input) (hw : w.confirm = false)
    (hc : (trade_loop_body np env w inp).confirm = true) :
    inp.action = trade_action.CONFIRM ∧
    npc_trading.npc_will_accept_trade w.state np = true ∧
    0 ≤ w.state.volume_left ∧ 0 ≤ w.state.weight_left ∧
    (trade_loop_body np env w inp).exit = true ∧
    (trade_loop_body np env w inp).state = w.state := by
  have hcore := loop_head_core env w inp
  have hcf : (loop_head env w inp).2.confirm = false := by rw [core_confirm hcore]; exact hw
  have hst : (loop_head env w inp).2.state = w.state := core_state hcore
  unfold trade_loop_body at hc ⊢
  simp only [] at hc ⊢
  split at hc
  · rw [core_confirm (do_switch_lists_core _), hcf] at hc; exact absurd hc (by simp)
  · rw [core_confirm (do_up_down_core _ _ _), hcf] at hc; exact absurd hc (by simp)
  · rw [core_confirm (do_up_down_core _ _ _), hcf] at hc; exact absurd hc (by simp)
  · rw [(do_right_left_flags _ _ _ _).1, hcf] at hc; exact absurd hc (by simp)
  · rw [(do_right_left_flags _ _ _ _).1, hcf] at hc; exact absurd hc (by simp)
  · rw [(do_autobalance_flags _ _ _ _).1, hcf] at hc; exact absurd hc (by simp)
  · rw [show ({ (loop_head env w inp).2 with
        show_item_info := !(loop_head env w inp).2.show_item_info } : trading_window).confirm =
        (loop_head env w inp).2.confirm from rfl, hcf] at hc
    exact absurd hc (by simp)
  · rw [core_confirm (do_category_selection_core _ _), hcf] at hc; exact absurd hc (by simp)
  · rw [core_confirm (do_filter_core _ _ _ _), hcf] at hc; exact absurd hc (by simp)
  · rw [core_confirm (do_reset_filter_core _ _), hcf] at hc; exact absurd hc (by simp)
  · rw [core_confirm (do_page_core _ _), hcf] at hc; exact absurd hc (by simp)
  · rw [core_confirm (do_page_core _ _), hcf] at hc; exact absurd hc (by simp)
  · rw [core_confirm (do_examine_core _ _), hcf] at hc; exact absurd hc (by simp)
  · rename_i hact
    obtain ⟨h1, h2, h3, h4⟩ := do_confirm_commit np inp.query_yn _ hcf hc
    rw [hst] at h1 h2 h3
    simp only [hact]
    exact ⟨trivial, h1, h2, h3, h4, (do_confirm_state _ _ _).trans hst⟩
  · exact absurd hc (by simp)
  · rw [(do_any_input_flags _ _ _ _ _).1, hcf] at hc; exact absurd hc (by simp)
  · rw [hcf] at hc; exact absurd hc (by simp)
  · rw [hcf] at hc; exact absurd hc (by simp)

theorem trade_loop_commit_inv (np : npc) (env : ui_env) (inputs : List trade_input)
    (w : trading_window)
    (h : w.confirm = true → w.exit = true ∧
      npc_trading.npc_will_accept_trade w.state np = true ∧
      0 ≤ w.state.volume_left ∧ 0 ≤ w.state.weight_left) :
    (trade_loop np env inputs w).confirm = true →
      (trade_loop np env inputs w).exit = true ∧
      npc_trading.npc_will_accept_trade (trade_loop np env inputs w).state np = true ∧
      0 ≤ (trade_loop np env inputs w).state.volume_left ∧
      0 ≤ (trade_loop np env inputs w).state.weight_left := by
  induction inputs generalizing w with
  | nil => exact h
  | cons inp rest ih =>
    unfold trade_loop
    by_cases hex : w.exit = true
    · rw [if_pos hex]; exact h
    · rw [if_neg hex]
      apply ih
      intro hc
      have hw : w.confirm = false := by
        by_contra hcon
        have : w.confirm = true := by simpa using hcon
        exact hex (h this).1
      obtain ⟨_, h1, h2, h3, h4, h5⟩ := trade_loop_body_confirm np env w inp hw hc
      rw [h5]
      exact ⟨h4, h1, h2, h3⟩

/-- C6: a trade is committed only within the limits.  If `perform_trade` ends with
`confirm = true` then in its final ledger the NPC accepts the trade and `volume_left` and
`weight_left` are not negative.  And for every state the session reaches with the loop still
running, an iteration that sets `confirm` found the trade accepted and both capacities
non-negative in the ledger of that moment; with `volume_left < 0` or `weight_left < 0` the
iteration never commits, whatever the input and the answers of the dialogs. -/
theorem confirm_only_within_limits (np : npc) (env : ui_env) (inputs : List trade_input)
    (state : trade_state) (inp : trade_input) :
    ((perform_trade np env inputs state).confirm = true →
      npc_trading.npc_will_accept_trade (perform_trade np env inputs state).state np = true ∧
      0 ≤ (perform_trade np env inputs state).state.volume_left ∧
      0 ≤ (perform_trade np env inputs state).state.weight_left) ∧
    ((perform_trade np env inputs state).exit = false →
      ((trade_loop_body np env (perform_trade np env inputs state) inp).confirm = true →
        inp.action = trade_action.CONFIRM ∧
        npc_trading.npc_will_accept_trade (perform_trade np env inputs state).state np = true ∧
        0 ≤ (perform_trade np env inputs state).state.volume_left ∧
        0 ≤ (perform_trade np env inputs state).state.weight_left) ∧
      ((perform_trade np env inputs state).state.volume_left < 0 ∨
          (perform_trade np env inputs state).state.weight_left < 0 →
        (trade_loop_body np env (perform_trade np env inputs state) inp).confirm = false)) := by
  have hinv := trade_loop_commit_inv np env inputs (perform_trade_init np state)
    (by
      intro hc
      have : (perform_trade_init np state).confirm = false := rfl
      rw [this] at hc
      exact absurd hc (by simp))
  have hrun : (perform_trade np env inputs state).exit = false →
      (perform_trade np env inputs state).confirm = false := by
    intro hex
    by_contra hcon
    have hc : (perform_trade np env inputs state).confirm = true := by simpa using hcon
    have := (hinv hc).1
    unfold perform_trade at hex
    rw [hex] at this
    exact absurd this (by simp)
  refine ⟨fun hc => (hinv hc).2, fun hex => ⟨?_, ?_⟩⟩
  · intro hc
    obtain ⟨h0, h1, h2, h3, _, _⟩ :=
      trade_loop_body_confirm np env _ inp (hrun hex) hc
    exact ⟨h0, h1, h2, h3⟩
  · intro hneg
    by_contra hcon
    have hc : (trade_loop_body np env (perform_trade np env inputs state) inp).confirm = true := by
      simpa using hcon
    obtain ⟨_, _, h2, h3, _, _⟩ := trade_loop_body_confirm np env _ inp (hrun hex) hc
    rcases hneg with h | h <;> omega

/-- The instance of C6 for the session that confirms at once with balance 100 and no item
selected: the trade is committed and the limits hold. -/
theorem confirm_only_within_limits_witness :
    (perform_trade trader_npc plain_env [input_of trade_action.CONFIRM ' ']
      ledger_one_offer).confirm = true ∧
    npc_trading.npc_will_accept_trade
      (perform_trade trader_npc plain_env [input_of trade_action.CONFIRM ' ']
        ledger_one_offer).state trader_npc = true ∧
    0 ≤ (perform_trade trader_npc plain_env [input_of trade_action.CONFIRM ' ']
        ledger_one_offer).state.volume_left ∧
    0 ≤ (perform_trade trader_npc plain_env [input_of trade_action.CONFIRM ' ']
        ledger_one_offer).state.weight_left :=
  ⟨by with_unfolding_all decide,
   (confirm_only_within_limits trader_npc plain_env [input_of trade_action.CONFIRM ' ']
      ledger_one_offer (input_of trade_action.CONFIRM ' ')).1 (by with_unfolding_all decide)⟩

/-! ### The selection flag and the toggle round trip -/

theorem static_cast_int_neg (x : ℚ) : static_cast_int (-x) = -static_cast_int x := by
  unfold static_cast_int
  rcases lt_trichotomy x 0 with h | h | h
  · have h1 : (0 : ℚ) ≤ -x := by linarith
    have h2 : ¬ (0 : ℚ) ≤ x := by linarith
    rw [if_pos h1, if_neg h2, Int.floor_neg]
  · subst h; simp
  · have h1 : ¬ (0 : ℚ) ≤ -x := by linarith
    have h2 : (0 : ℚ) ≤ x := by linarith
    rw [if_neg h1, if_pos h2, Int.ceil_neg]

theorem settle_amount_cancel (np : npc) (a b : item_pricing) (n : Int) (st : trade_state)
    (hp : a.price = b.price) (hl : a.locs = b.locs) (hv : a.vol = b.vol)
    (hw : a.weight = b.weight) :
    settle_amount np a (-n) (settle_amount np b n st) = st := by
  unfold settle_amount
  simp only [hp, hl, hv, hw]
  have hneg : static_cast_int (b.price * ((-n : Int) : ℚ)) =
      -static_cast_int (b.price * (n : ℚ)) := by
    rw [← static_cast_int_neg]; congr 1; push_cast; ring
  rw [hneg]
  cases st with
  | mk theirs yours bal vl wl =>
    simp only [trade_state.mk.injEq, true_and]
    refine ⟨?_, ?_, ?_⟩
    · split_ifs
      · ring
      · rfl
    · split_ifs
      · ring
      · rfl
    · split_ifs
      · ring
      · rfl

theorem apply_trade_change_selection_inv (np : npc) (they : Bool) (ip : item_pricing)
    (n : Int) (st : trade_state) (h : selection_inv they ip) :
    selection_inv they (apply_trade_change np they ip n st).1 := by
  have hmax := get_max_amount_pos ip
  have hcl := clamp_bounds n 0 (get_max_amount ip) (by omega)
  unfold selection_inv at h ⊢
  rw [apply_trade_change_amount, (apply_trade_change_charges np they ip n st).1]
  rw [apply_trade_change_eq]
  by_cases heq : clamp n 0 (get_max_amount ip) = get_current_amount they ip
  · rw [if_pos heq, heq]; exact h
  · rw [if_neg heq]
    refine ⟨by simp, hcl.1, ?_⟩
    by_cases hch : ip.charges > 0
    · simp only [hch, if_true] at h ⊢
      simpa using h.2.2
    · simp only [hch, if_false] at h ⊢
      simpa using h.2.2

theorem hotkey_toggle_selection_inv (np : npc) (they : Bool) (c : Bool) (k : Int)
    (ip : item_pricing) (st : trade_state) (r : item_pricing × trade_state)
    (hr : hotkey_toggle np they c k ip st = some r) (h : selection_inv they ip) :
    selection_inv they r.1 := by
  obtain ⟨chg, ip1, hreq, hcases⟩ := hotkey_toggle_cases np they c k ip st r hr
  unfold selection_inv at h ⊢
  rw [get_current_amount_eq] at h ⊢
  rw [hreq]
  rcases hcases with ⟨hs, h1, rfl, _⟩ | ⟨hs, h1, h2, rfl, _⟩ | ⟨hs, h1, h2, rfl, _⟩ |
    ⟨hs, hch, _, _, _, hv1, hv2, rfl⟩ | ⟨hs, hch, hcnt, _, _, _, hv1, hv2, rfl⟩ |
    ⟨hs, hch, hcnt, rfl, _⟩
  · by_cases hch : ip.charges > 0
    · simp only [hch, if_true] at h
      simp [hch, hs, h.2.2]
    · simp only [hch, if_false] at h
      omega
  · by_cases hch : ip.charges > 0
    · simp only [hch, if_true] at h
      omega
    · simp only [hch, if_false] at h
      simp [hch, hs, h.2.2]
  · exfalso
    have := h.1.1 hs
    split_ifs at this <;> omega
  · simp only [hch, if_true] at h
    simp [hch, hs, h.2.2]
    omega
  · simp only [hch, if_false] at h
    simp [hch, hs, h.2.2]
    omega
  · simp only [hch, if_false] at h
    simp [hch, hs, h.2.2]

theorem fresh_offer_selection_inv (they : Bool) (ip : item_pricing) (h : fresh_offer ip) :
    selection_inv they ip := by
  obtain ⟨h1, h2, h3, h4, h5⟩ := h
  unfold selection_inv get_current_amount owner_sells owner_sells_charge
  cases they <;> simp [h1, h2, h3, h4, h5]

/-- In every state the session reaches from fresh offers, each offer of either list satisfies
`selection_inv` for its pane. -/
theorem perform_trade_selection_inv (np : npc) (env : ui_env) (inputs : List trade_input)
    (state : trade_state)
    (h0 : ∀ ip, ip ∈ state.theirs ∨ ip ∈ state.yours → fresh_offer ip) :
    pane_inv selection_inv (perform_trade np env inputs state).state :=
  perform_trade_pane_inv selection_inv np env
    (fun they ip n st hp => apply_trade_change_selection_inv np they ip n st hp)
    (fun they c q ip st r hr hp => hotkey_toggle_selection_inv np they c q ip st r hr hp)
    inputs state
    ⟨fun ip hip => fresh_offer_selection_inv true ip (h0 ip (Or.inl hip)),
     fun ip hip => fresh_offer_selection_inv false ip (h0 ip (Or.inr hip))⟩

theorem restore_charge_offer (they : Bool) (ip : item_pricing) (k : Int)
    (hsel : ip.selected = false) (h2 : owner_sells_charge they ip = 0) :
    set_selected (set_owner_sells_charge they
      (set_selected (set_owner_sells_charge they ip k) true) 0) false = ip := by
  cases ip
  cases they <;>
    simp_all [set_selected, set_owner_sells_charge, owner_sells_charge]

theorem restore_count_offer (they : Bool) (ip : item_pricing) (k : Int)
    (hsel : ip.selected = false) (h1 : owner_sells they ip = 0) :
    set_selected (set_owner_sells they
      (set_selected (set_owner_sells they ip k) true) 0) false = ip := by
  cases ip
  cases they <;>
    simp_all [set_selected, set_owner_sells, owner_sells]

/-- The hotkey branch on a selected offer that has charges offered. -/
theorem hotkey_toggle_deselect_charges (np : npc) (they : Bool) (c : Bool) (q : Int)
    (ip : item_pricing) (st : trade_state) (hsel : ip.selected = true)
    (h : owner_sells_charge they ip > 0) :
    hotkey_toggle np they c q ip st =
      some (set_selected (set_owner_sells_charge they ip 0) false,
        settle_amount np (set_selected (set_owner_sells_charge they ip 0) false)
          (if (false : Bool) ≠ they then owner_sells_charge they ip * -1
           else owner_sells_charge they ip) st) := by
  unfold hotkey_toggle
  simp only [hsel, if_true, h, set_owner_sells_charge_selected, Bool.not_true,
    set_selected_selected]

/-- The hotkey branch on a selected offer that has no charges but a count offered. -/
theorem hotkey_toggle_deselect_count (np : npc) (they : Bool) (c : Bool) (q : Int)
    (ip : item_pricing) (st : trade_state) (hsel : ip.selected = true)
    (h0 : ¬ owner_sells_charge they ip > 0) (h : owner_sells they ip > 0) :
    hotkey_toggle np they c q ip st =
      some (set_selected (set_owner_sells they ip 0) false,
        settle_amount np (set_selected (set_owner_sells they ip 0) false)
          (if (false : Bool) ≠ they then owner_sells they ip * -1
           else owner_sells they ip) st) := by
  unfold hotkey_toggle
  simp only [hsel, if_true, h0, if_false, h, set_owner_sells_selected, Bool.not_true,
    set_selected_selected]

/-- The hotkey branch on an unselected charge offer, when the prompt is answered. -/
theorem hotkey_toggle_select_charges (np : npc) (they : Bool) (c : Bool) (q : Int)
    (ip : item_pricing) (st : trade_state) (hsel : ip.selected = false)
    (hch : ip.charges > 0)
    (hnl : ¬ get_var_trade ip.charges (calc_amount_hint they ip st.your_balance) c q < 1) :
    hotkey_toggle np they c q ip st =
      some (set_selected (set_owner_sells_charge they ip
            (get_var_trade ip.charges (calc_amount_hint they ip st.your_balance) c q)) true,
        settle_amount np (set_selected (set_owner_sells_charge they ip
            (get_var_trade ip.charges (calc_amount_hint they ip st.your_balance) c q)) true)
          (if (true : Bool) ≠ they then
            get_var_trade ip.charges (calc_amount_hint they ip st.your_balance) c q * -1
           else get_var_trade ip.charges (calc_amount_hint they ip st.your_balance) c q) st) := by
  unfold hotkey_toggle
  simp only [hsel, Bool.false_eq_true, if_false, hch, if_true, hnl,
    set_owner_sells_charge_selected, Bool.not_false, set_selected_selected]

/-- The hotkey branch on an unselected stack of several items, when the prompt is answered. -/
theorem hotkey_toggle_select_count (np : npc) (they : Bool) (c : Bool) (q : Int)
    (ip : item_pricing) (st : trade_state) (hsel : ip.selected = false)
    (hch : ¬ ip.charges > 0) (hcnt : ip.count > 1)
    (hnl : ¬ get_var_trade ip.count (calc_amount_hint they ip st.your_balance) c q < 1) :
    hotkey_toggle np they c q ip st =
      some (set_selected (set_owner_sells they ip
            (get_var_trade ip.count (calc_amount_hint they ip st.your_balance) c q)) true,
        settle_amount np (set_selected (set_owner_sells they ip
            (get_var_trade ip.count (calc_amount_hint they ip st.your_balance) c q)) true)
          (if (true : Bool) ≠ they then
            get_var_trade ip.count (calc_amount_hint they ip st.your_balance) c q * -1
           else get_var_trade ip.count (calc_amount_hint they ip st.your_balance) c q) st) := by
  unfold hotkey_toggle
  simp only [hsel, Bool.false_eq_true, if_false, hch, hcnt, if_true, hnl,
    set_owner_sells_selected, Bool.not_false, set_selected_selected]

/-- The hotkey branch on an unselected single item: no prompt, one item is offered. -/
theorem hotkey_toggle_select_single (np : npc) (they : Bool) (c : Bool) (q : Int)
    (ip : item_pricing) (st : trade_state) (hsel : ip.selected = false)
    (hch : ¬ ip.charges > 0) (hcnt : ¬ ip.count > 1) :
    hotkey_toggle np they c q ip st =
      some (set_selected (set_owner_sells they ip 1) true,
        settle_amount np (set_selected (set_owner_sells they ip 1) true)
          (if (true : Bool) ≠ they then (1 : Int) * -1 else 1) st) := by
  unfold hotkey_toggle
  simp only [hsel, Bool.false_eq_true, if_false, hch, hcnt,
    set_owner_sells_selected, Bool.not_false, set_selected_selected]

theorem get_var_trade_answered (total hint q : Int) (ht : 1 ≤ total) (hq : 1 ≤ q) :
    get_var_trade total hint false q = min total q ∧ 0 < min total q := by
  unfold get_var_trade
  have : ¬ ((false = true) ∨ q ≤ 0) := by simp; omega
  rw [if_neg this]
  exact ⟨rfl, lt_of_lt_of_le (by norm_num) (le_min ht hq)⟩

/-- Toggling an unselected offer whose counters are 0 on with the prompt answer `q ≥ 1` and
then off again gives back the offer and the ledger. -/
theorem hotkey_toggle_round_trip_offer (np : npc) (they : Bool) (ip : item_pricing)
    (st : trade_state) (q : Int) (c2 : Bool) (q2 : Int) (hsel : ip.selected = false)
    (h1 : owner_sells they ip = 0) (h2 : owner_sells_charge they ip = 0) (hq : 1 ≤ q) :
    ∃ r, hotkey_toggle np they false q ip st = some r ∧
      hotkey_toggle np they c2 q2 r.1 r.2 = some (ip, st) := by
  have hsign : ∀ k : Int, (if (false : Bool) ≠ they then k * -1 else k) =
      -(if (true : Bool) ≠ they then k * -1 else k) := by
    intro k; cases they <;> simp
  by_cases hch : ip.charges > 0
  · obtain ⟨hv, hk⟩ :=
      get_var_trade_answered ip.charges (calc_amount_hint they ip st.your_balance) q
        (by omega) hq
    have hnl : ¬ get_var_trade ip.charges (calc_amount_hint they ip st.your_balance) false q < 1 := by
      rw [hv]; omega
    refine ⟨_, hotkey_toggle_select_charges np they false q ip st hsel hch hnl, ?_⟩
    rw [hotkey_toggle_deselect_charges np they c2 q2 _ _ (by simp) (by simp; rw [hv]; exact hk)]
    simp only [owner_sells_charge_set_selected, owner_sells_charge_set_owner_sells_charge]
    rw [restore_charge_offer they ip _ hsel h2, hsign,
      settle_amount_cancel np ip _ _ st (by simp) (by simp) (by simp) (by simp)]
  · have hz : ¬ owner_sells_charge they ip > 0 := by omega
    by_cases hcnt : ip.count > 1
    · obtain ⟨hv, hk⟩ :=
        get_var_trade_answered ip.count (calc_amount_hint they ip st.your_balance) q
          (by omega) hq
      have hnl : ¬ get_var_trade ip.count (calc_amount_hint they ip st.your_balance) false q < 1 := by
        rw [hv]; omega
      refine ⟨_, hotkey_toggle_select_count np they false q ip st hsel hch hcnt hnl, ?_⟩
      rw [hotkey_toggle_deselect_count np they c2 q2 _ _ (by simp) (by simpa using hz)
        (by simp; rw [hv]; exact hk)]
      simp only [owner_sells_set_selected, owner_sells_set_owner_sells]
      rw [restore_count_offer they ip _ hsel h1, hsign,
        settle_amount_cancel np ip _ _ st (by simp) (by simp) (by simp) (by simp)]
    · refine ⟨_, hotkey_toggle_select_single np they false q ip st hsel hch hcnt, ?_⟩
      rw [hotkey_toggle_deselect_count np they c2 q2 _ _ (by simp) (by simpa using hz)
        (by simp)]
      simp only [owner_sells_set_selected, owner_sells_set_owner_sells]
      rw [restore_count_offer they ip _ hsel h1, hsign,
        settle_amount_cancel np ip _ _ st (by simp) (by simp) (by simp) (by simp)]

/-- C8: the toggle round trip.  In every state the session reaches from fresh offers, for
every offer of either pane that is not selected, every ledger and every prompt answer
`q ≥ 1`: the hotkey toggle switches the offer on, and a second toggle gives back exactly the
offer (its counters and its selected flag) and the ledger (`your_balance`, `volume_left`,
`weight_left`) from before the first toggle. -/
theorem toggle_round_trip (np : npc) (env : ui_env) (inputs : List trade_input)
    (state : trade_state)
    (h0 : ∀ ip, ip ∈ state.theirs ∨ ip ∈ state.yours → fresh_offer ip)
    (they : Bool) (ip : item_pricing)
    (hmem : ip ∈ list_of they (perform_trade np env inputs state).state)
    (hsel : ip.selected = false) (st : trade_state) (q : Int) (hq : 1 ≤ q)
    (c2 : Bool) (q2 : Int) :
    ∃ r, hotkey_toggle np they false q ip st = some r ∧ r.1.selected = true ∧
      hotkey_toggle np they c2 q2 r.1 r.2 = some (ip, st) := by
  have hinv := pane_inv_list_of selection_inv _
    (perform_trade_selection_inv np env inputs state h0) they ip hmem
  obtain ⟨hiff, hnn, hother⟩ := hinv
  have hamt : get_current_amount they ip = 0 := by
    have : ¬ get_current_amount they ip > 0 := fun h => by
      have := hiff.2 h
      rw [hsel] at this
      exact absurd this (by simp)
    omega
  rw [get_current_amount_eq] at hamt
  have h12 : owner_sells they ip = 0 ∧ owner_sells_charge they ip = 0 := by
    by_cases hch : ip.charges > 0
    · simp only [hch, if_true] at hamt hother
      exact ⟨hother, hamt⟩
    · simp only [hch, if_false] at hamt hother
      exact ⟨hamt, hother⟩
  obtain ⟨r, hr1, hr2⟩ :=
    hotkey_toggle_round_trip_offer np they ip st q c2 q2 hsel h12.1 h12.2 hq
  refine ⟨r, hr1, ?_, hr2⟩
  obtain ⟨chg, ip1, hreq, _⟩ := hotkey_toggle_cases np they false q ip st r hr1
  rw [hreq]
  simp [hsel]

/-- The instance of C8 for the offer of ten items at price 30 in the `theirs` pane, at the
start of a session with balance 100: toggled on with quantity 4 the balance is -20, toggled
off again everything is as before. -/
theorem toggle_round_trip_witness :
    (hotkey_toggle trader_npc true false 4 offer_price_30 ledger_one_offer).map
        (fun r => (r.1.u_has, r.2.your_balance)) = some (4, -20) ∧
    ∃ r, hotkey_toggle trader_npc true false 4 offer_price_30 ledger_one_offer = some r ∧
      r.1.selected = true ∧
      hotkey_toggle trader_npc true false 0 r.1 r.2 = some (offer_price_30, ledger_one_offer) :=
  ⟨by with_unfolding_all decide,
   toggle_round_trip trader_npc plain_env [] ledger_one_offer
     (by
       intro ip hip
       simp only [ledger_one_offer, List.mem_singleton, List.not_mem_nil, or_false] at hip
       subst hip
       exact ⟨rfl, rfl, rfl, rfl, rfl⟩)
     true offer_price_30 (by with_unfolding_all decide) rfl ledger_one_offer 4 (by decide)
     false 0⟩

/-! ### Where the code departs from the claims -/

/-- C9, evaluated: with balance 10 and an offer of the `theirs` pane at the unit price 3/2,
AUTOBALANCE plans with the truncated unit 1 and offers ten items, but `apply_trade_change`
charges `trunc (3/2 * 10) = 15`: the balance goes from 10 to -5.  The same happens in category
mode. -/
theorem autobalance_makes_balance_negative :
    (perform_trade trader_npc plain_env [] ledger_three_halves).state.your_balance = 10 ∧
    (perform_trade trader_npc plain_env [input_of trade_action.AUTOBALANCE ' ']
      ledger_three_halves).state.your_balance = -5 ∧
    (perform_trade trader_npc plain_env
      [input_of trade_action.CATEGORY_SELECTION ' ', input_of trade_action.AUTOBALANCE ' ']
      ledger_three_halves).state.your_balance = -5 := by
  refine ⟨?_, ?_, ?_⟩ <;> with_unfolding_all decide

/-- C10, evaluated: for a selected count offer made of three items of which one was agreed
(`u_has = 1`), `transfer_items` hands all three items to the receiver. -/
theorem transfer_items_moves_whole_stack :
    offer_one_of_three.u_has = 1 ∧
    (npc_trading.transfer_items [offer_one_of_three] 0 true).received.length = 3 ∧
    (npc_trading.transfer_items [offer_one_of_three] 0 true).kept = [] := by
  refine ⟨?_, ?_, ?_⟩ <;> with_unfolding_all decide

/-! ### The balance maps of the category plan -/

/-- The keys of a balance map. -/
theorem balance_map_find_some (m : balance_map) (k : Int) (ch : balance_choice)
    (h : balance_map_find m k = some ch) : (k, ch) ∈ m := by
  unfold balance_map_find at h
  rw [Option.map_eq_some'] at h
  obtain ⟨e, he, hch⟩ := h
  have hk := List.find?_some he
  have hm := List.mem_of_find?_eq_some he
  have : e = (k, ch) := by
    cases e with
    | mk a b =>
      simp only [beq_iff_eq] at hk
      simp only at hch
      rw [hk, hch]
  rw [← this]; exact hm

theorem balance_map_find_of_mem (m : balance_map) (k : Int) (ch : balance_choice)
    (h : (k, ch) ∈ m) : ∃ ch2, balance_map_find m k = some ch2 := by
  unfold balance_map_find
  cases hf : List.find? (fun e => e.1 == k) m with
  | some e => exact ⟨e.2, rfl⟩
  | none =>
    rw [List.find?_eq_none] at hf
    have := hf (k, ch) h
    simp at this

theorem balance_map_find_none (m : balance_map) (k : Int)
    (h : balance_map_find m k = none) : ∀ ch, (k, ch) ∉ m := by
  intro ch hmem
  obtain ⟨ch2, h2⟩ := balance_map_find_of_mem m k ch hmem
  rw [h] at h2
  exact absurd h2 (by simp)

theorem balance_map_emplace_fst (m : balance_map) (k : Int) (v : balance_choice) :
    (∀ x, x ∈ (balance_map_emplace m k v).1 → x ∈ m ∨ x = (k, v)) ∧
    (∀ x, x ∈ m → x ∈ (balance_map_emplace m k v).1) ∧
    (∃ ch, (k, ch) ∈ (balance_map_emplace m k v).1) ∧
    ((balance_map_emplace m k v).2 = true → (balance_map_emplace m k v).1 = m ++ [(k, v)]) ∧
    ((balance_map_emplace m k v).2 = false → (balance_map_emplace m k v).1 = m) := by
  unfold balance_map_emplace
  cases hf : balance_map_find m k with
  | some ch =>
    refine ⟨fun x hx => Or.inl hx, fun x hx => hx, ⟨ch, balance_map_find_some m k ch hf⟩,
      fun h => absurd h (by simp), fun _ => rfl⟩
  | none =>
    refine ⟨?_, ?_, ⟨v, by simp⟩, fun _ => rfl, fun h => absurd h (by simp)⟩
    · intro x hx
      simp only [List.mem_append, List.mem_singleton] at hx
      exact hx
    · intro x hx
      simp only [List.mem_append, List.mem_singleton]
      exact Or.inl hx

/-- The inner loop of the dynamic programme keeps `next` and `item_decisions` equal, only adds
choices `(prev_balance, amount)` for the amounts tried, never drops one, and reaches the
balance of every amount tried. -/
theorem dp_try_amounts_spec (entry : balance_item_entry) (prev : Int) (amounts : List Int)
    (acc : balance_map × balance_map) (hacc : acc.1 = acc.2) :
    (dp_try_amounts entry prev amounts acc).1 = (dp_try_amounts entry prev amounts acc).2 ∧
    (∀ x, x ∈ (dp_try_amounts entry prev amounts acc).1 → x ∈ acc.1 ∨
      ∃ a ∈ amounts, x = (prev + entry.unit_balance_delta * (a - entry.current_amount),
        ({ prev_balance := prev, amount := a } : balance_choice))) ∧
    (∀ x, x ∈ acc.1 → x ∈ (dp_try_amounts entry prev amounts acc).1) ∧
    (∀ a ∈ amounts, ∃ ch,
      (prev + entry.unit_balance_delta * (a - entry.current_amount), ch) ∈
        (dp_try_amounts entry prev amounts acc).1) := by
  induction amounts generalizing acc with
  | nil =>
    refine ⟨hacc, fun x hx => Or.inl hx, fun x hx => hx, ?_⟩
    intro a ha
    exact absurd ha (List.not_mem_nil _)
  | cons a rest ih =>
    obtain ⟨e1, e2, e3, e4, e5⟩ := balance_map_emplace_fst acc.1
      (prev + entry.unit_balance_delta * (a - entry.current_amount))
      { prev_balance := prev, amount := a }
    have hstep : ∃ acc2 : balance_map × balance_map,
        dp_try_amounts entry prev (a :: rest) acc = dp_try_amounts entry prev rest acc2 ∧
        acc2.1 = acc2.2 ∧
        acc2.1 = (balance_map_emplace acc.1
          (prev + entry.unit_balance_delta * (a - entry.current_amount))
          { prev_balance := prev, amount := a }).1 := by
      unfold dp_try_amounts
      simp only [List.foldl_cons]
      by_cases hins : (balance_map_emplace acc.1
          (prev + entry.unit_balance_delta * (a - entry.current_amount))
          { prev_balance := prev, amount := a }).2 = true
      · refine ⟨_, by rw [if_pos hins], ?_, rfl⟩
        simp only
        rw [← hacc]
      · refine ⟨_, by rw [if_neg hins], ?_, rfl⟩
        simp only
        rw [e5 (by simpa using hins)]
        exact hacc
    obtain ⟨acc2, hstep1, hstep2, hstep3⟩ := hstep
    rw [hstep1]
    obtain ⟨i1, i2, i3, i4⟩ := ih acc2 hstep2
    refine ⟨i1, ?_, ?_, ?_⟩
    · intro x hx
      rcases i2 x hx with h | ⟨b, hb, hxb⟩
      · rw [hstep3] at h
        rcases e1 x h with h' | h'
        · exact Or.inl h'
        · exact Or.inr ⟨a, List.mem_cons_self _ _, h'⟩
      · exact Or.inr ⟨b, List.mem_cons_of_mem _ hb, hxb⟩
    · intro x hx
      apply i3
      rw [hstep3]
      exact e2 x hx
    · intro b hb
      rcases List.mem_cons.mp hb with rfl | hb'
      · obtain ⟨ch, hch⟩ := e3
        exact ⟨ch, i3 _ (by rw [hstep3]; exact hch)⟩
      · exact i4 b hb'

theorem mem_iota_int (lo hi a : Int) : a ∈ iota_int lo hi ↔ lo ≤ a ∧ a < hi := by
  unfold iota_int
  rw [List.mem_map]
  constructor
  · rintro ⟨k, hk, rfl⟩
    rw [List.mem_range, Int.lt_toNat] at hk
    omega
  · rintro ⟨h1, h2⟩
    have hk : (((a - lo).toNat : Nat) : Int) = a - lo := Int.toNat_of_nonneg (by omega)
    refine ⟨(a - lo).toNat, ?_, by omega⟩
    rw [List.mem_range, Int.lt_toNat]
    omega

/-- An amount whose balance lies within the global bounds lies between the two quotients
`lower` and `upper` of the dynamic programme. -/
theorem amount_between_quotients (minb maxb prev u c a : Int) (hu : u ≠ 0)
    (h1 : minb ≤ prev + u * (a - c)) (h2 : prev + u * (a - c) ≤ maxb) :
    min (((minb - prev : Int) : ℚ) / (u : ℚ) + (c : ℚ))
        (((maxb - prev : Int) : ℚ) / (u : ℚ) + (c : ℚ)) ≤ (a : ℚ) ∧
    (a : ℚ) ≤ max (((minb - prev : Int) : ℚ) / (u : ℚ) + (c : ℚ))
        (((maxb - prev : Int) : ℚ) / (u : ℚ) + (c : ℚ)) := by
  have h1q : ((minb - prev : Int) : ℚ) ≤ (u : ℚ) * ((a : ℚ) - (c : ℚ)) := by
    have : minb - prev ≤ u * (a - c) := by linarith
    exact_mod_cast this
  have h2q : (u : ℚ) * ((a : ℚ) - (c : ℚ)) ≤ ((maxb - prev : Int) : ℚ) := by
    have : u * (a - c) ≤ maxb - prev := by linarith
    exact_mod_cast this
  rcases lt_or_gt_of_ne hu with hneg | hpos
  · have hq : (u : ℚ) < 0 := by exact_mod_cast hneg
    have e1 : ((maxb - prev : Int) : ℚ) / (u : ℚ) ≤ (a : ℚ) - (c : ℚ) := by
      rw [div_le_iff_of_neg hq]; linarith
    have e2 : (a : ℚ) - (c : ℚ) ≤ ((minb - prev : Int) : ℚ) / (u : ℚ) := by
      rw [le_div_iff_of_neg hq]; linarith
    exact ⟨le_trans (min_le_right _ _) (by linarith), le_trans (by linarith) (le_max_left _ _)⟩
  · have hq : (0 : ℚ) < (u : ℚ) := by exact_mod_cast hpos
    have e1 : ((minb - prev : Int) : ℚ) / (u : ℚ) ≤ (a : ℚ) - (c : ℚ) := by
      rw [div_le_iff₀ hq]; linarith
    have e2 : (a : ℚ) - (c : ℚ) ≤ ((maxb - prev : Int) : ℚ) / (u : ℚ) := by
      rw [le_div_iff₀ hq]; linarith
    exact ⟨le_trans (min_le_left _ _) (by linarith), le_trans (by linarith) (le_max_right _ _)⟩

theorem dp_visit_spec (minb maxb : Int) (entry : balance_item_entry)
    (acc : balance_map × balance_map) (pair : Int × balance_choice) (hacc : acc.1 = acc.2)
    (hu : entry.unit_balance_delta ≠ 0) (hm : 0 ≤ entry.max_amount) :
    (dp_visit minb maxb entry acc pair).1 = (dp_visit minb maxb entry acc pair).2 ∧
    (∀ x, x ∈ (dp_visit minb maxb entry acc pair).1 → x ∈ acc.1 ∨
      ∃ a, 0 ≤ a ∧ a ≤ entry.max_amount ∧
        x = (pair.1 + entry.unit_balance_delta * (a - entry.current_amount),
          ({ prev_balance := pair.1, amount := a } : balance_choice))) ∧
    (∀ x, x ∈ acc.1 → x ∈ (dp_visit minb maxb entry acc pair).1) ∧
    (∀ a, 0 ≤ a → a ≤ entry.max_amount →
      minb ≤ pair.1 + entry.unit_balance_delta * (a - entry.current_amount) →
      pair.1 + entry.unit_balance_delta * (a - entry.current_amount) ≤ maxb →
      ∃ ch, (pair.1 + entry.unit_balance_delta * (a - entry.current_amount), ch) ∈
        (dp_visit minb maxb entry acc pair).1) := by
  unfold dp_visit
  simp only []
  generalize hX : ⌈min (((minb - pair.1 : Int) : ℚ) / (entry.unit_balance_delta : ℚ) +
      (entry.current_amount : ℚ)) (((maxb - pair.1 : Int) : ℚ) / (entry.unit_balance_delta : ℚ) +
      (entry.current_amount : ℚ))⌉ = X
  generalize hY : ⌊max (((minb - pair.1 : Int) : ℚ) / (entry.unit_balance_delta : ℚ) +
      (entry.current_amount : ℚ)) (((maxb - pair.1 : Int) : ℚ) / (entry.unit_balance_delta : ℚ) +
      (entry.current_amount : ℚ))⌋ = Y
  have hXb := clamp_bounds X 0 entry.max_amount hm
  have hYb := clamp_bounds Y 0 entry.max_amount hm
  have hin : ∀ a, 0 ≤ a → a ≤ entry.max_amount →
      minb ≤ pair.1 + entry.unit_balance_delta * (a - entry.current_amount) →
      pair.1 + entry.unit_balance_delta * (a - entry.current_amount) ≤ maxb →
      clamp X 0 entry.max_amount ≤ a ∧ a ≤ clamp Y 0 entry.max_amount := by
    intro a ha0 ham h1 h2
    obtain ⟨b1, b2⟩ := amount_between_quotients minb maxb pair.1 entry.unit_balance_delta
      entry.current_amount a hu h1 h2
    have hXa : X ≤ a := by rw [← hX]; exact Int.ceil_le.mpr b1
    have hYa : a ≤ Y := by rw [← hY]; exact Int.le_floor.mpr b2
    constructor
    · unfold clamp; split_ifs <;> omega
    · unfold clamp; split_ifs <;> omega
  by_cases hgt : clamp X 0 entry.max_amount > clamp Y 0 entry.max_amount
  · rw [if_pos hgt]
    refine ⟨hacc, fun x hx => Or.inl hx, fun x hx => hx, ?_⟩
    intro a ha0 ham h1 h2
    obtain ⟨c1, c2⟩ := hin a ha0 ham h1 h2
    omega
  · rw [if_neg hgt]
    obtain ⟨s1, s2, s3, s4⟩ := dp_try_amounts_spec entry pair.1
      (iota_int (clamp X 0 entry.max_amount) (clamp Y 0 entry.max_amount + 1)) acc hacc
    refine ⟨s1, ?_, s3, ?_⟩
    · intro x hx
      rcases s2 x hx with h | ⟨a, ha, hxa⟩
      · exact Or.inl h
      · rw [mem_iota_int] at ha
        exact Or.inr ⟨a, by omega, by omega, hxa⟩
    · intro a ha0 ham h1 h2
      obtain ⟨c1, c2⟩ := hin a ha0 ham h1 h2
      exact s4 a ((mem_iota_int _ _ _).mpr ⟨c1, by omega⟩)

theorem dp_visit_foldl_spec (minb maxb : Int) (entry : balance_item_entry)
    (hu : entry.unit_balance_delta ≠ 0) (hm : 0 ≤ entry.max_amount)
    (pairs : List (Int × balance_choice)) (acc : balance_map × balance_map)
    (hacc : acc.1 = acc.2) :
    (pairs.foldl (dp_visit minb maxb entry) acc).1 =
      (pairs.foldl (dp_visit minb maxb entry) acc).2 ∧
    (∀ x, x ∈ (pairs.foldl (dp_visit minb maxb entry) acc).1 → x ∈ acc.1 ∨
      ∃ pair ∈ pairs, ∃ a, 0 ≤ a ∧ a ≤ entry.max_amount ∧
        x = (pair.1 + entry.unit_balance_delta * (a - entry.current_amount),
          ({ prev_balance := pair.1, amount := a } : balance_choice))) ∧
    (∀ x, x ∈ acc.1 → x ∈ (pairs.foldl (dp_visit minb maxb entry) acc).1) ∧
    (∀ pair ∈ pairs, ∀ a, 0 ≤ a → a ≤ entry.max_amount →
      minb ≤ pair.1 + entry.unit_balance_delta * (a - entry.current_amount) →
      pair.1 + entry.unit_balance_delta * (a - entry.current_amount) ≤ maxb →
      ∃ ch, (pair.1 + entry.unit_balance_delta * (a - entry.current_amount), ch) ∈
        (pairs.foldl (dp_visit minb maxb entry) acc).1) := by
  induction pairs generalizing acc with
  | nil =>
    refine ⟨hacc, fun x hx => Or.inl hx, fun x hx => hx, ?_⟩
    intro pair hp
    exact absurd hp (List.not_mem_nil _)
  | cons p rest ih =>
    simp only [List.foldl_cons]
    obtain ⟨v1, v2, v3, v4⟩ := dp_visit_spec minb maxb entry acc p hacc hu hm
    obtain ⟨i1, i2, i3, i4⟩ := ih (dp_visit minb maxb entry acc p) v1
    refine ⟨i1, ?_, ?_, ?_⟩
    · intro x hx
      rcases i2 x hx with h | ⟨pair, hpair, a, ha⟩
      · rcases v2 x h with h' | ⟨a, ha⟩
        · exact Or.inl h'
        · exact Or.inr ⟨p, List.mem_cons_self _ _, a, ha⟩
      · exact Or.inr ⟨pair, List.mem_cons_of_mem _ hpair, a, ha⟩
    · intro x hx
      exact i3 x (v3 x hx)
    · intro pair hpair a ha0 ham h1 h2
      rcases List.mem_cons.mp hpair with rfl | hpair'
      · obtain ⟨ch, hch⟩ := v4 a ha0 ham h1 h2
        exact ⟨ch, i3 _ hch⟩
      · exact i4 pair hpair' a ha0 ham h1 h2

/-- One step of the dynamic programme: `next` and `item_decisions` coincide, every recorded
choice leads from a state of `dp` by an amount of `[0, max]` to its key, and every balance
within the bounds that is reachable from a state of `dp` is a key. -/
theorem dp_step_spec (iter : balance_map → balance_map)
    (hiter : ∀ m x, x ∈ iter m ↔ x ∈ m) (minb maxb : Int) (dp : balance_map)
    (entry : balance_item_entry) (hu : entry.unit_balance_delta ≠ 0)
    (hm : 0 ≤ entry.max_amount) :
    (dp_step iter minb maxb dp entry).1 = (dp_step iter minb maxb dp entry).2 ∧
    (∀ x, x ∈ (dp_step iter minb maxb dp entry).1 →
      ∃ pair ∈ dp, ∃ a, 0 ≤ a ∧ a ≤ entry.max_amount ∧
        x = (pair.1 + entry.unit_balance_delta * (a - entry.current_amount),
          ({ prev_balance := pair.1, amount := a } : balance_choice))) ∧
    (∀ pair ∈ dp, ∀ a, 0 ≤ a → a ≤ entry.max_amount →
      minb ≤ pair.1 + entry.unit_balance_delta * (a - entry.current_amount) →
      pair.1 + entry.unit_balance_delta * (a - entry.current_amount) ≤ maxb →
      ∃ ch, (pair.1 + entry.unit_balance_delta * (a - entry.current_amount), ch) ∈
        (dp_step iter minb maxb dp entry).1) := by
  unfold dp_step
  obtain ⟨f1, f2, _, f4⟩ := dp_visit_foldl_spec minb maxb entry hu hm (iter dp) ([], []) rfl
  refine ⟨f1, ?_, ?_⟩
  · intro x hx
    rcases f2 x hx with h | ⟨pair, hpair, rest⟩
    · exact absurd h (List.not_mem_nil _)
    · exact ⟨pair, (hiter dp pair).mp hpair, rest⟩
  · intro pair hpair
    exact f4 pair ((hiter dp pair).mpr hpair)

theorem term_bounds (e : balance_item_entry) (a : Int) (h0 : 0 ≤ a) (h1 : a ≤ e.max_amount) :
    term_lo e ≤ e.unit_balance_delta * (a - e.current_amount) ∧
    e.unit_balance_delta * (a - e.current_amount) ≤ term_hi e := by
  unfold term_lo term_hi
  rcases le_total 0 e.unit_balance_delta with hu | hu
  · constructor
    · exact le_trans (min_le_left _ _) (by nlinarith)
    · exact le_trans (by nlinarith) (le_max_right _ _)
  · constructor
    · exact le_trans (min_le_right _ _) (by nlinarith)
    · exact le_trans (by nlinarith) (le_max_left _ _)

theorem term_lo_nonpos (e : balance_item_entry) (h0 : 0 ≤ e.current_amount)
    (h1 : e.current_amount ≤ e.max_amount) : term_lo e ≤ 0 ∧ 0 ≤ term_hi e := by
  have := term_bounds e e.current_amount h0 h1
  simpa using this

theorem sum_term_lo_nonpos (es : List balance_item_entry) (h : entries_ok es) :
    (es.map term_lo).sum ≤ 0 ∧ 0 ≤ (es.map term_hi).sum := by
  induction es with
  | nil => simp
  | cons e es ih =>
    have he := h e (List.mem_cons_self _ _)
    have hl := term_lo_nonpos e he.2.1 he.2.2
    have ih' := ih (fun x hx => h x (List.mem_cons_of_mem _ hx))
    simp only [List.map_cons, List.sum_cons]
    constructor <;> omega

theorem balance_bounds_eq (B : Int) (es : List balance_item_entry) :
    balance_bounds B es = (B + (es.map term_lo).sum, B + (es.map term_hi).sum) := by
  unfold balance_bounds
  have hgen : ∀ (acc : Int × Int), es.foldl (fun (acc : Int × Int) entry =>
      (acc.1 + min (entry.unit_balance_delta * (0 - entry.current_amount))
          (entry.unit_balance_delta * (entry.max_amount - entry.current_amount)),
        acc.2 + max (entry.unit_balance_delta * (0 - entry.current_amount))
          (entry.unit_balance_delta * (entry.max_amount - entry.current_amount)))) acc =
      (acc.1 + (es.map term_lo).sum, acc.2 + (es.map term_hi).sum) := by
    induction es with
    | nil => intro acc; simp
    | cons e es ih =>
      intro acc
      simp only [List.foldl_cons, List.map_cons, List.sum_cons]
      rw [ih]
      simp only [term_lo, term_hi]
      congr 1 <;> ring
  exact hgen (B, B)

theorem dp_pass_eq (iter : balance_map → balance_map) (minb maxb B : Int)
    (es : List balance_item_entry) :
    dp_pass iter minb maxb B es =
      es.foldl (dp_pass_body iter minb maxb) ([(B, { prev_balance := B, amount := 0 })], []) :=
  rfl

theorem dp_pass_body_foldl_decisions (iter : balance_map → balance_map) (minb maxb : Int)
    (es : List balance_item_entry) (dp0 : balance_map) (d0 : List balance_map) :
    es.foldl (dp_pass_body iter minb maxb) (dp0, d0) =
      ((es.foldl (dp_pass_body iter minb maxb) (dp0, [])).1,
        d0 ++ (es.foldl (dp_pass_body iter minb maxb) (dp0, [])).2) := by
  induction es generalizing dp0 d0 with
  | nil => simp
  | cons e es ih =>
    simp only [List.foldl_cons, dp_pass_body]
    rw [ih _ (d0 ++ _), ih _ ([] ++ _)]
    simp

theorem chain_append (l1 l2 : List (balance_item_entry × balance_map)) (b b1 b2 : Int)
    (as1 as2 : List Int) (h1 : chain l1 b as1 b1) (h2 : chain l2 b1 as2 b2) :
    chain (l1 ++ l2) b (as1 ++ as2) b2 := by
  induction l1 generalizing b as1 with
  | nil =>
    cases as1 with
    | nil =>
      simp only [chain] at h1
      subst h1
      simpa using h2
    | cons a as1 => simp [chain] at h1
  | cons p l1 ih =>
    cases as1 with
    | nil => cases p; simp [chain] at h1
    | cons a as1 =>
      cases p with
      | mk e d =>
        simp only [chain] at h1
        obtain ⟨ch, hf, ha, hrest⟩ := h1
        simp only [List.cons_append, chain]
        exact ⟨ch, hf, ha, ih _ _ hrest⟩

theorem feasible_length (es : List balance_item_entry) (amounts : List Int)
    (h : feasible es amounts) : amounts.length = es.length := by
  induction es generalizing amounts with
  | nil =>
    cases amounts with
    | nil => rfl
    | cons a amounts => simp [feasible] at h
  | cons e es ih =>
    cases amounts with
    | nil => simp [feasible] at h
    | cons a amounts =>
      simp only [feasible] at h
      simp [ih amounts h.2.2]

/-- The forward pass of the dynamic programme, from any map `dp0` whose states stay within the
global bounds however the entries are set: there is one decision map for each entry, every
final state is `b0 + plan_delta entries amounts` for a state `b0` of `dp0` and feasible
amounts that the backtracking loop recovers, and every such balance is a final state. -/
theorem dp_pass_gen (iter : balance_map → balance_map)
    (hiter : ∀ m x, x ∈ iter m ↔ x ∈ m) (minb maxb : Int) (es : List balance_item_entry)
    (hes : entries_ok es) (dp0 : balance_map)
    (hb : ∀ pair ∈ dp0, minb ≤ pair.1 + (es.map term_lo).sum ∧
      pair.1 + (es.map term_hi).sum ≤ maxb) :
    (es.foldl (dp_pass_body iter minb maxb) (dp0, [])).2.length = es.length ∧
    (∀ x, x ∈ (es.foldl (dp_pass_body iter minb maxb) (dp0, [])).1 →
      ∃ amounts b0 ch0, (b0, ch0) ∈ dp0 ∧ feasible es amounts ∧
        x.1 = b0 + plan_delta es amounts ∧
        chain (es.zip (es.foldl (dp_pass_body iter minb maxb) (dp0, [])).2).reverse
          x.1 amounts.reverse b0) ∧
    (∀ pair ∈ dp0, ∀ amounts, feasible es amounts →
      ∃ ch, (pair.1 + plan_delta es amounts, ch) ∈
        (es.foldl (dp_pass_body iter minb maxb) (dp0, [])).1) := by
  induction es generalizing dp0 with
  | nil =>
    refine ⟨rfl, ?_, ?_⟩
    · intro x hx
      exact ⟨[], x.1, x.2, hx, trivial, by simp [plan_delta], by simp [chain]⟩
    · intro pair hpair amounts hf
      cases amounts with
      | nil => exact ⟨pair.2, by simpa [plan_delta] using hpair⟩
      | cons a amounts => simp [feasible] at hf
  | cons e es ih =>
    have he := hes e (List.mem_cons_self _ _)
    have hes' : entries_ok es := fun x hx => hes x (List.mem_cons_of_mem _ hx)
    have hm : 0 ≤ e.max_amount := le_trans he.2.1 he.2.2
    obtain ⟨s1, s2, s3⟩ := dp_step_spec iter hiter minb maxb dp0 e he.1 hm
    obtain ⟨hlo, hhi⟩ := sum_term_lo_nonpos es hes'
    have hb1 : ∀ pair ∈ (dp_step iter minb maxb dp0 e).1,
        minb ≤ pair.1 + (es.map term_lo).sum ∧ pair.1 + (es.map term_hi).sum ≤ maxb := by
      intro pair hpair
      obtain ⟨p0, hp0, a, ha0, ham, hx⟩ := s2 pair hpair
      obtain ⟨t1, t2⟩ := term_bounds e a ha0 ham
      obtain ⟨b1, b2⟩ := hb p0 hp0
      simp only [List.map_cons, List.sum_cons] at b1 b2
      rw [hx]
      constructor <;> simp only <;> omega
    obtain ⟨i1, i2, i3⟩ := ih hes' (dp_step iter minb maxb dp0 e).1 hb1
    simp only [List.foldl_cons]
    have hfold : es.foldl (dp_pass_body iter minb maxb) (dp_pass_body iter minb maxb (dp0, []) e)
        = ((es.foldl (dp_pass_body iter minb maxb) ((dp_step iter minb maxb dp0 e).1, [])).1,
            (dp_step iter minb maxb dp0 e).2 ::
              (es.foldl (dp_pass_body iter minb maxb) ((dp_step iter minb maxb dp0 e).1, [])).2) := by
      have := dp_pass_body_foldl_decisions iter minb maxb es (dp_step iter minb maxb dp0 e).1
        [(dp_step iter minb maxb dp0 e).2]
      simpa [dp_pass_body] using this
    rw [hfold]
    refine ⟨by simp [i1], ?_, ?_⟩
    · intro x hx
      obtain ⟨amounts, b1, ch1, hmem1, hfeas, hval, hchain⟩ := i2 x hx
      obtain ⟨ch, hfind⟩ := balance_map_find_of_mem _ b1 ch1 (s1 ▸ hmem1)
      have hmem2 : (b1, ch) ∈ (dp_step iter minb maxb dp0 e).1 := by
        rw [s1]; exact balance_map_find_some _ _ _ hfind
      obtain ⟨p0, hp0, a, ha0, ham, hx2⟩ := s2 _ hmem2
      have hb1eq : b1 = p0.1 + e.unit_balance_delta * (a - e.current_amount) :=
        congrArg Prod.fst hx2
      have hcheq : ch = { prev_balance := p0.1, amount := a } := congrArg Prod.snd hx2
      refine ⟨a :: amounts, p0.1, p0.2, hp0, ⟨ha0, ham, hfeas⟩, ?_, ?_⟩
      · simp only [plan_delta]
        rw [hval, hb1eq]; ring
      · simp only [List.zip_cons_cons, List.reverse_cons]
        apply chain_append _ _ _ b1 _ _ _ hchain
        simp only [chain]
        exact ⟨ch, hfind, by rw [hcheq], by rw [hcheq]⟩
    · intro pair hpair amounts hf
      cases amounts with
      | nil => simp [feasible] at hf
      | cons a amounts =>
        simp only [feasible] at hf
        obtain ⟨t1, t2⟩ := term_bounds e a hf.1 hf.2.1
        obtain ⟨b1, b2⟩ := hb pair hpair
        simp only [List.map_cons, List.sum_cons] at b1 b2
        obtain ⟨ch, hch⟩ := s3 pair hpair a hf.1 hf.2.1 (by omega) (by omega)
        obtain ⟨ch2, hch2⟩ := i3 _ hch amounts hf.2.2
        refine ⟨ch2, ?_⟩
        simp only [plan_delta]
        simp only at hch2
        rw [show pair.1 + (e.unit_balance_delta * (a - e.current_amount) + plan_delta es amounts)
          = pair.1 + e.unit_balance_delta * (a - e.current_amount) + plan_delta es amounts
          from by ring]
        exact hch2

theorem best_nonneg_foldl (l : List (Int × balance_choice)) (acc : Option Int)
    (hacc : ∀ a, acc = some a → 0 ≤ a) :
    (∀ b, l.foldl best_non_debt_step acc = some b →
      0 ≤ b ∧ (acc = some b ∨ ∃ x ∈ l, x.1 = b) ∧ (∀ x ∈ l, 0 ≤ x.1 → b ≤ x.1) ∧
        (∀ a, acc = some a → b ≤ a)) ∧
    (l.foldl best_non_debt_step acc = none →
      acc = none ∧ ∀ x ∈ l, x.1 < 0) := by
  induction l generalizing acc with
  | nil =>
    constructor
    · intro b hb
      simp only [List.foldl_nil] at hb
      exact ⟨hacc b hb, Or.inl hb, fun x hx => absurd hx (List.not_mem_nil _),
        fun a ha => by rw [hb] at ha; cases ha; exact le_rfl⟩
    · intro h
      simp only [List.foldl_nil] at h
      exact ⟨h, fun x hx => absurd hx (List.not_mem_nil _)⟩
  | cons p l ih =>
    simp only [List.foldl_cons, best_non_debt_step]
    by_cases hp : p.1 ≥ 0
    · simp only [hp, if_true]
      cases acc with
      | none =>
        obtain ⟨j1, j2⟩ := ih (some p.1) (fun a ha => by cases ha; exact hp)
        constructor
        · intro b hb
          obtain ⟨k1, k2, k3, k4⟩ := j1 b hb
          refine ⟨k1, Or.inr ?_, ?_, fun a ha => by simp at ha⟩
          · rcases k2 with h | ⟨x, hx, hxb⟩
            · exact ⟨p, List.mem_cons_self _ _, by cases h; rfl⟩
            · exact ⟨x, List.mem_cons_of_mem _ hx, hxb⟩
          · intro x hx hx0
            rcases List.mem_cons.mp hx with rfl | hx'
            · exact k4 _ rfl
            · exact k3 x hx' hx0
        · intro h
          have := (j2 h).1
          simp at this
      | some a0 =>
        have ha0 := hacc a0 rfl
        by_cases hlt : p.1 < a0
        · simp only [hlt, if_true]
          obtain ⟨j1, j2⟩ := ih (some p.1) (fun a ha => by cases ha; exact hp)
          constructor
          · intro b hb
            obtain ⟨k1, k2, k3, k4⟩ := j1 b hb
            have hbp := k4 _ rfl
            refine ⟨k1, Or.inr ?_, ?_, fun a ha => by cases ha; omega⟩
            · rcases k2 with h | ⟨x, hx, hxb⟩
              · exact ⟨p, List.mem_cons_self _ _, by cases h; rfl⟩
              · exact ⟨x, List.mem_cons_of_mem _ hx, hxb⟩
            · intro x hx hx0
              rcases List.mem_cons.mp hx with rfl | hx'
              · exact hbp
              · exact k3 x hx' hx0
          · intro h
            have := (j2 h).1
            simp at this
        · simp only [hlt, if_false]
          obtain ⟨j1, j2⟩ := ih (some a0) (fun a ha => by cases ha; exact ha0)
          constructor
          · intro b hb
            obtain ⟨k1, k2, k3, k4⟩ := j1 b hb
            have hba := k4 _ rfl
            refine ⟨k1, ?_, ?_, fun a ha => by cases ha; exact hba⟩
            · rcases k2 with h | ⟨x, hx, hxb⟩
              · exact Or.inl h
              · exact Or.inr ⟨x, List.mem_cons_of_mem _ hx, hxb⟩
            · intro x hx hx0
              rcases List.mem_cons.mp hx with rfl | hx'
              · omega
              · exact k3 x hx' hx0
          · intro h
            have := (j2 h).1
            simp at this
    · simp only [hp, if_false]
      obtain ⟨j1, j2⟩ := ih acc hacc
      constructor
      · intro b hb
        obtain ⟨k1, k2, k3, k4⟩ := j1 b hb
        refine ⟨k1, ?_, ?_, k4⟩
        · rcases k2 with h | ⟨x, hx, hxb⟩
          · exact Or.inl h
          · exact Or.inr ⟨x, List.mem_cons_of_mem _ hx, hxb⟩
        · intro x hx hx0
          rcases List.mem_cons.mp hx with rfl | hx'
          · exact absurd hx0 hp
          · exact k3 x hx' hx0
      · intro h
        obtain ⟨k1, k2⟩ := j2 h
        refine ⟨k1, ?_⟩
        intro x hx
        rcases List.mem_cons.mp hx with rfl | hx'
        · omega
        · exact k2 x hx'

theorem best_any_foldl (l : List (Int × balance_choice)) (acc : Option Int) :
    (∀ b, l.foldl best_any_step acc = some b →
      (acc = some b ∨ ∃ x ∈ l, x.1 = b) ∧ (∀ x ∈ l, x.1 ≤ b) ∧ (∀ a, acc = some a → a ≤ b)) ∧
    (l.foldl best_any_step acc = none →
      acc = none ∧ l = []) := by
  induction l generalizing acc with
  | nil =>
    constructor
    · intro b hb
      simp only [List.foldl_nil] at hb
      exact ⟨Or.inl hb, fun x hx => absurd hx (List.not_mem_nil _),
        fun a ha => by rw [hb] at ha; cases ha; exact le_rfl⟩
    · intro h
      simp only [List.foldl_nil] at h
      exact ⟨h, rfl⟩
  | cons p l ih =>
    simp only [List.foldl_cons, best_any_step]
    cases acc with
    | none =>
      obtain ⟨j1, j2⟩ := ih (some p.1)
      constructor
      · intro b hb
        obtain ⟨k2, k3, k4⟩ := j1 b hb
        have hpb := k4 _ rfl
        refine ⟨Or.inr ?_, ?_, fun a ha => by simp at ha⟩
        · rcases k2 with h | ⟨x, hx, hxb⟩
          · exact ⟨p, List.mem_cons_self _ _, by cases h; rfl⟩
          · exact ⟨x, List.mem_cons_of_mem _ hx, hxb⟩
        · intro x hx
          rcases List.mem_cons.mp hx with rfl | hx'
          · exact hpb
          · exact k3 x hx'
      · intro h
        have := (j2 h).1
        simp at this
    | some a0 =>
      by_cases hgt : p.1 > a0
      · simp only [hgt, if_true]
        obtain ⟨j1, j2⟩ := ih (some p.1)
        constructor
        · intro b hb
          obtain ⟨k2, k3, k4⟩ := j1 b hb
          have hpb := k4 _ rfl
          refine ⟨Or.inr ?_, ?_, fun a ha => by cases ha; omega⟩
          · rcases k2 with h | ⟨x, hx, hxb⟩
            · exact ⟨p, List.mem_cons_self _ _, by cases h; rfl⟩
            · exact ⟨x, List.mem_cons_of_mem _ hx, hxb⟩
          · intro x hx
            rcases List.mem_cons.mp hx with rfl | hx'
            · exact hpb
            · exact k3 x hx'
        · intro h
          have := (j2 h).1
          simp at this
      · simp only [hgt, if_false]
        obtain ⟨j1, j2⟩ := ih (some a0)
        constructor
        · intro b hb
          obtain ⟨k2, k3, k4⟩ := j1 b hb
          have hab := k4 _ rfl
          refine ⟨?_, ?_, fun a ha => by cases ha; exact hab⟩
          · rcases k2 with h | ⟨x, hx, hxb⟩
            · exact Or.inl h
            · exact Or.inr ⟨x, List.mem_cons_of_mem _ hx, hxb⟩
          · intro x hx
            rcases List.mem_cons.mp hx with rfl | hx'
            · omega
            · exact k3 x hx'
        · intro h
          have := (j2 h).1
          simp at this

/-- The choice of the best balance: a key of `dp`, the least non-negative key when there is
one, and otherwise the greatest key. -/
theorem pick_best_balance_spec (iter : balance_map → balance_map)
    (hiter : ∀ m x, x ∈ iter m ↔ x ∈ m) (dp : balance_map) (hne : dp ≠ []) :
    ∃ b, pick_best_balance iter dp = some b ∧ (∃ x ∈ dp, x.1 = b) ∧
      ((∃ x ∈ dp, 0 ≤ x.1) → 0 ≤ b ∧ ∀ x ∈ dp, 0 ≤ x.1 → b ≤ x.1) ∧
      ((¬ ∃ x ∈ dp, 0 ≤ x.1) → ∀ x ∈ dp, x.1 ≤ b) := by
  unfold pick_best_balance
  obtain ⟨n1, n2⟩ := best_nonneg_foldl (iter dp) none (fun a ha => by simp at ha)
  obtain ⟨a1, a2⟩ := best_any_foldl (iter dp) none
  cases hfirst : (iter dp).foldl best_non_debt_step none with
  | some b =>
    obtain ⟨k1, k2, k3, _⟩ := n1 b hfirst
    have hmem : ∃ x ∈ dp, x.1 = b := by
      rcases k2 with h | ⟨x, hx, hxb⟩
      · simp at h
      · exact ⟨x, (hiter dp x).mp hx, hxb⟩
    refine ⟨b, rfl, hmem, ?_, ?_⟩
    · intro _
      exact ⟨k1, fun x hx hx0 => k3 x ((hiter dp x).mpr hx) hx0⟩
    · intro hno
      obtain ⟨x, hx, hxb⟩ := hmem
      exact absurd ⟨x, hx, by omega⟩ hno
  | none =>
    obtain ⟨_, hallneg⟩ := n2 hfirst
    cases hsecond : (iter dp).foldl best_any_step none with
    | some b =>
      obtain ⟨k2, k3, _⟩ := a1 b hsecond
      have hmem : ∃ x ∈ dp, x.1 = b := by
        rcases k2 with h | ⟨x, hx, hxb⟩
        · simp at h
        · exact ⟨x, (hiter dp x).mp hx, hxb⟩
      refine ⟨b, rfl, hmem, ?_, ?_⟩
      · rintro ⟨x, hx, hx0⟩
        have := hallneg x ((hiter dp x).mpr hx)
        omega
      · intro _ x hx
        exact k3 x ((hiter dp x).mpr hx)
    | none =>
      obtain ⟨_, hnil⟩ := a2 hsecond
      exfalso
      cases hdp : dp with
      | nil => exact hne hdp
      | cons y ys =>
        have : y ∈ iter dp := (hiter dp y).mpr (by rw [hdp]; exact List.mem_cons_self _ _)
        rw [hnil] at this
        exact absurd this (List.not_mem_nil _)

/-! ### The plan -/

theorem plan_find_append (p : plan_map) (k k2 : Nat) (v : Int) :
    plan_find (p ++ [(k, v)]) k2 =
      match plan_find p k2 with
      | some a => some a
      | none => if k2 = k then some v else none := by
  unfold plan_find
  rw [List.find?_append]
  cases hf : List.find? (fun e => e.1 == k2) p with
  | some e => simp
  | none =>
    by_cases hk : k2 = k
    · subst hk; simp
    · have : (k == k2) = false := by
        simp only [beq_eq_false_iff_ne, ne_eq]
        exact fun h => hk h.symm
      simp [List.find?_cons, this, hk]

theorem plan_find_map_assign (p : plan_map) (k k2 : Nat) (v : Int) :
    plan_find (p.map (fun e => if e.1 == k then (k, v) else e)) k2 =
      if k2 = k then (plan_find p k).map (fun _ => v) else plan_find p k2 := by
  unfold plan_find
  induction p with
  | nil => simp
  | cons e p ih =>
    simp only [List.map_cons, List.find?_cons]
    by_cases hek : e.1 = k
    · have h1 : (e.1 == k) = true := by simpa using hek
      simp only [h1, if_true]
      by_cases hk : k2 = k
      · subst hk
        simp [hek]
      · have h2 : (k == k2) = false := by
          simp only [beq_eq_false_iff_ne, ne_eq]; exact fun h => hk h.symm
        have h3 : (e.1 == k2) = false := by
          simp only [beq_eq_false_iff_ne, ne_eq]; rw [hek]; exact fun h => hk h.symm
        simp only [h2, h3, hk, if_false]
        simpa [hk] using ih
    · have h1 : (e.1 == k) = false := by simpa using hek
      simp only [h1]
      by_cases hk : k2 = k
      · subst hk
        simp only [Bool.false_eq_true, if_false, h1, if_true]
        simpa using ih
      · simp only [Bool.false_eq_true, if_false, hk]
        cases h4 : (e.1 == k2) with
        | true => simp
        | false => simpa [hk] using ih

/-- Reading the plan after the assignment `plan[key] = value`. -/
theorem plan_find_assign (p : plan_map) (k k2 : Nat) (v : Int) :
    plan_find (plan_assign p k v) k2 = if k2 = k then some v else plan_find p k2 := by
  unfold plan_assign
  cases hf : plan_find p k with
  | some a =>
    simp only []
    rw [plan_find_map_assign, hf]
    simp
  | none =>
    simp only []
    rw [plan_find_append]
    by_cases hk : k2 = k
    · subst hk; simp [hf]
    · simp only [hk, if_false]
      cases plan_find p k2 <;> rfl

theorem plan_find_emplace (p : plan_map) (k k2 : Nat) (v : Int) :
    plan_find (plan_emplace p k v) k2 =
      match plan_find p k2 with
      | some a => some a
      | none => if k2 = k then some v else none := by
  unfold plan_emplace
  cases hf : plan_find p k with
  | some a =>
    simp only []
    by_cases hk : k2 = k
    · subst hk; simp [hf]
    · cases plan_find p k2 <;> simp [hk]
  | none =>
    simp only []
    exact plan_find_append p k k2 v

theorem assign_all_not_mem (l : List (Nat × Int)) (p : plan_map) (k : Nat)
    (hk : k ∉ l.map Prod.fst) :
    plan_find (l.foldl (fun p x => plan_assign p x.1 x.2) p) k = plan_find p k := by
  induction l generalizing p with
  | nil => rfl
  | cons x l ih =>
    simp only [List.map_cons, List.mem_cons, not_or] at hk
    simp only [List.foldl_cons]
    rw [ih _ hk.2, plan_find_assign, if_neg hk.1]

theorem assign_all_mem (l : List (Nat × Int)) (p : plan_map) (k : Nat) (a : Int)
    (hnd : (l.map Prod.fst).Nodup) (hmem : (k, a) ∈ l) :
    plan_find (l.foldl (fun p x => plan_assign p x.1 x.2) p) k = some a := by
  induction l generalizing p with
  | nil => exact absurd hmem (List.not_mem_nil _)
  | cons x l ih =>
    simp only [List.map_cons, List.nodup_cons] at hnd
    simp only [List.foldl_cons]
    rcases List.mem_cons.mp hmem with h | h
    · subst h
      rw [assign_all_not_mem l _ _ hnd.1, plan_find_assign]
      simp
    · exact ih _ hnd.2 h

/-- When the backtracking loop finds a choice at every step it performs exactly the
assignments of the amounts found. -/
theorem backtrack_of_chain (steps : List (balance_item_entry × balance_map)) (b b0 : Int)
    (amounts : List Int) (p : plan_map) (h : chain steps b amounts b0) :
    backtrack steps b p =
      ((steps.zip amounts).map (fun x => (x.1.1.list_index, x.2))).foldl
        (fun p x => plan_assign p x.1 x.2) p := by
  induction steps generalizing b amounts p with
  | nil => simp [backtrack]
  | cons st steps ih =>
    cases amounts with
    | nil => cases st; simp [chain] at h
    | cons a amounts =>
      cases st with
      | mk e d =>
        simp only [chain] at h
        obtain ⟨ch, hf, ha, hrest⟩ := h
        simp only [backtrack, hf, List.zip_cons_cons, List.map_cons, List.foldl_cons]
        rw [ih _ _ _ hrest, ha]

/-- The backtracking loop only assigns to the list indices of its entries. -/
theorem backtrack_other (steps : List (balance_item_entry × balance_map)) (b : Int)
    (p : plan_map) (k : Nat) (hk : ∀ st ∈ steps, st.1.list_index ≠ k) :
    plan_find (backtrack steps b p) k = plan_find p k := by
  induction steps generalizing b p with
  | nil => rfl
  | cons st steps ih =>
    cases st with
    | mk e d =>
      simp only [backtrack]
      cases hf : balance_map_find d b with
      | none => rfl
      | some found =>
        simp only []
        rw [ih _ _ (fun st hst => hk st (List.mem_cons_of_mem _ hst)), plan_find_assign]
        have := hk (e, d) (List.mem_cons_self _ _)
        simp only at this
        rw [if_neg (fun h => this h.symm)]

theorem zip_zip_map_index (es : List balance_item_entry) (ds : List balance_map)
    (amounts : List Int) (h1 : ds.length = es.length) (h2 : amounts.length = es.length) :
    ((es.zip ds).zip amounts).map (fun x => (x.1.1.list_index, x.2)) =
      (es.zip amounts).map (fun y => (y.1.list_index, y.2)) := by
  induction es generalizing ds amounts with
  | nil => simp
  | cons e es ih =>
    cases ds with
    | nil => simp at h1
    | cons d ds =>
      cases amounts with
      | nil => simp at h2
      | cons a amounts =>
        simp only [List.length_cons, add_left_inj] at h1 h2
        simp only [List.zip_cons_cons, List.map_cons, ih ds amounts h1 h2]

theorem feasible_current (es : List balance_item_entry) (h : entries_ok es) :
    feasible es (es.map (fun e => e.current_amount)) := by
  induction es with
  | nil => trivial
  | cons e es ih =>
    have he := h e (List.mem_cons_self _ _)
    exact ⟨he.2.1, he.2.2, ih (fun x hx => h x (List.mem_cons_of_mem _ hx))⟩

/-- The plan on the entries: when the entries are searchable and their list indices are
distinct, the plan returned assigns feasible amounts to the entries, and the balance they give
is the least non-negative balance that feasible amounts can give, or else the greatest. -/
theorem plan_of_entries_optimal (iter : balance_map → balance_map)
    (hiter : ∀ m x, x ∈ iter m ↔ x ∈ m) (B : Int) (es : List balance_item_entry)
    (plan0 : plan_map) (hes : entries_ok es)
    (hnd : (es.map (fun e => e.list_index)).Nodup) :
    ∃ (amounts : List Int) (best : Int),
      (match pick_best_balance iter
          (dp_pass iter (balance_bounds B es).1 (balance_bounds B es).2 B es).1 with
        | none => plan0
        | some best_balance =>
          backtrack (es.zip
            (dp_pass iter (balance_bounds B es).1 (balance_bounds B es).2 B es).2).reverse
            best_balance plan0) =
        backtrack (es.zip
            (dp_pass iter (balance_bounds B es).1 (balance_bounds B es).2 B es).2).reverse
            best plan0 ∧
      (dp_pass iter (balance_bounds B es).1 (balance_bounds B es).2 B es).1 ≠ [] ∧
      feasible es amounts ∧
      best = B + plan_delta es amounts ∧
      (∀ e a, (e, a) ∈ es.zip amounts →
        plan_find (backtrack (es.zip
            (dp_pass iter (balance_bounds B es).1 (balance_bounds B es).2 B es).2).reverse
            best plan0) e.list_index = some a) ∧
      (∀ other, feasible es other →
        (0 ≤ B + plan_delta es other → 0 ≤ best ∧ best ≤ B + plan_delta es other) ∧
        (best < 0 → B + plan_delta es other ≤ best)) := by
  rw [balance_bounds_eq, dp_pass_eq]
  simp only []
  obtain ⟨g1, g2, g3⟩ := dp_pass_gen iter hiter (B + (es.map term_lo).sum)
    (B + (es.map term_hi).sum) es hes [(B, { prev_balance := B, amount := 0 })]
    (by
      intro pair hpair
      simp only [List.mem_singleton] at hpair
      subst hpair
      exact ⟨le_rfl, le_rfl⟩)
  have hkey : ∀ other, feasible es other → ∃ ch, (B + plan_delta es other, ch) ∈
      (es.foldl (dp_pass_body iter (B + (es.map term_lo).sum) (B + (es.map term_hi).sum))
        ([(B, { prev_balance := B, amount := 0 })], [])).1 := by
    intro other hf
    exact g3 (B, { prev_balance := B, amount := 0 }) (List.mem_singleton.mpr rfl) other hf
  have hdpne : (es.foldl (dp_pass_body iter (B + (es.map term_lo).sum)
      (B + (es.map term_hi).sum)) ([(B, { prev_balance := B, amount := 0 })], [])).1 ≠ [] := by
    obtain ⟨ch, hch⟩ := hkey _ (feasible_current es hes)
    exact List.ne_nil_of_mem hch
  obtain ⟨best, hbest, ⟨x, hx, hxb⟩, hopt1, hopt2⟩ :=
    pick_best_balance_spec iter hiter _ hdpne
  obtain ⟨amounts, b0, ch0, hmem0, hfeas, hval, hchain⟩ := g2 x hx
  simp only [List.mem_singleton, Prod.mk.injEq] at hmem0
  obtain ⟨hb0, _⟩ := hmem0
  rw [hxb, hb0] at hval hchain
  have hlen := feasible_length es amounts hfeas
  refine ⟨amounts, best, by rw [hbest], hdpne, hfeas, hval, ?_, ?_⟩
  · intro e a hea
    rw [backtrack_of_chain _ _ _ _ _ hchain]
    have hzr : ((es.zip (es.foldl (dp_pass_body iter (B + (es.map term_lo).sum)
        (B + (es.map term_hi).sum)) ([(B, { prev_balance := B, amount := 0 })], [])).2).reverse.zip
        amounts.reverse) =
        ((es.zip (es.foldl (dp_pass_body iter (B + (es.map term_lo).sum)
        (B + (es.map term_hi).sum)) ([(B, { prev_balance := B, amount := 0 })], [])).2).zip
        amounts).reverse := by
      exact (List.reverse_zipWith (by simp only [List.length_zip, g1, hlen, min_self])).symm
    rw [hzr, List.map_reverse, zip_zip_map_index es _ amounts g1 hlen]
    apply assign_all_mem
    · rw [List.map_reverse, List.nodup_reverse, List.map_map]
      have : (fun y : balance_item_entry × Int => y.1.list_index) =
          (fun e : balance_item_entry => e.list_index) ∘ Prod.fst := rfl
      rw [show (Prod.fst ∘ fun y : balance_item_entry × Int => (y.1.list_index, y.2)) =
        (fun e : balance_item_entry => e.list_index) ∘ Prod.fst from rfl, ← List.map_map,
        List.map_fst_zip _ _ (by omega)]
      exact hnd
    · rw [List.mem_reverse, List.mem_map]
      exact ⟨(e, a), hea, rfl⟩
  · intro other hfo
    obtain ⟨ch, hch⟩ := hkey other hfo
    constructor
    · intro h0
      obtain ⟨o1, o2⟩ := hopt1 ⟨_, hch, h0⟩
      exact ⟨o1, o2 _ hch h0⟩
    · intro hneg
      by_cases hex : ∃ x ∈ (es.foldl (dp_pass_body iter (B + (es.map term_lo).sum)
          (B + (es.map term_hi).sum)) ([(B, { prev_balance := B, amount := 0 })], [])).1,
          0 ≤ x.1
      · have := (hopt1 hex).1
        omega
      · exact hopt2 hex _ hch

theorem collect_entries_foldl (focus_them : Bool) (list : List item_pricing)
    (filtered : List Nat) (l : List Nat) (acc : plan_map × List balance_item_entry) :
    l.foldl (fun (acc : plan_map × List balance_item_entry) idx =>
      let list_index := filtered.getD idx 0
      let ip := list.getD list_index default
      let current_amount := get_current_amount focus_them ip
      let plan := plan_emplace acc.1 list_index current_amount
      let unit := unit_balance_delta focus_them ip
      let max_amount := get_max_amount ip
      if unit = 0 ∨ max_amount = 0 then
        (plan, acc.2)
      else
        (plan, acc.2 ++ [{ list_index := list_index, current_amount := current_amount,
                           max_amount := max_amount, unit_balance_delta := unit }])) acc =
    (l.foldl (fun p idx => plan_emplace p (filtered.getD idx 0)
        (get_current_amount focus_them (offer_at list filtered idx))) acc.1,
      acc.2 ++ (l.filter (fun idx =>
        decide (unit_balance_delta focus_them (offer_at list filtered idx) ≠ 0))).map
          (entry_at focus_them list filtered)) := by
  induction l generalizing acc with
  | nil => simp
  | cons idx l ih =>
    simp only [List.foldl_cons]
    rw [ih]
    have hmax : ¬ get_max_amount (list.getD (filtered.getD idx 0) default) = 0 := by
      have := get_max_amount_pos (list.getD (filtered.getD idx 0) default)
      omega
    by_cases hu : unit_balance_delta focus_them (offer_at list filtered idx) = 0
    · have hu' : unit_balance_delta focus_them (list.getD (filtered.getD idx 0) default) = 0 := hu
      rw [if_pos (Or.inl hu')]
      rw [List.filter_cons_of_neg (by simpa using hu)]
      rfl
    · have hu' : ¬ unit_balance_delta focus_them (list.getD (filtered.getD idx 0) default) = 0 := hu
      rw [if_neg (by rintro (h | h); exact hu' h; exact hmax h)]
      rw [List.filter_cons_of_pos (by simpa using hu)]
      simp only [List.map_cons, List.append_assoc, List.singleton_append]
      rfl

/-- The first loop of the plan: the plan of current amounts, and the entries of the searched
positions. -/
theorem collect_entries_eq (focus_them : Bool) (list : List item_pricing)
    (filtered : List Nat) (range : category_range) :
    collect_entries focus_them list filtered range =
      ((iota range.start range.end_).foldl (fun p idx => plan_emplace p (filtered.getD idx 0)
          (get_current_amount focus_them (offer_at list filtered idx))) [],
        (searched_positions focus_them list filtered range).map
          (entry_at focus_them list filtered)) := by
  unfold collect_entries searched_positions
  rw [collect_entries_foldl]
  simp

theorem plan_delta_map (focus_them : Bool) (list : List item_pricing) (filtered : List Nat)
    (positions : List Nat) (amount : Nat → Int) :
    plan_delta (positions.map (entry_at focus_them list filtered)) (positions.map amount) =
      (positions.map (fun idx =>
        unit_balance_delta focus_them (offer_at list filtered idx) *
          (amount idx - get_current_amount focus_them (offer_at list filtered idx)))).sum := by
  induction positions with
  | nil => simp [plan_delta]
  | cons i l ih => simp [plan_delta, ih, entry_at]

theorem feasible_map (focus_them : Bool) (list : List item_pricing) (filtered : List Nat)
    (positions : List Nat) (amount : Nat → Int) :
    feasible (positions.map (entry_at focus_them list filtered)) (positions.map amount) ↔
      ∀ idx ∈ positions, 0 ≤ amount idx ∧
        amount idx ≤ get_max_amount (offer_at list filtered idx) := by
  induction positions with
  | nil => simp [feasible]
  | cons i l ih =>
    simp only [List.map_cons, feasible, ih, List.mem_cons, forall_eq_or_imp, entry_at]
    tauto

/-- Amounts aligned with a list of positions are the values of a function of the position
when the plan returns them at distinct list indices. -/
theorem amounts_eq_map (focus_them : Bool) (list : List item_pricing) (filtered : List Nat)
    (positions : List Nat) (amounts : List Int) (plan : plan_map)
    (hlen : amounts.length = positions.length)
    (h : ∀ e a, (e, a) ∈ (positions.map (entry_at focus_them list filtered)).zip amounts →
      plan_find plan e.list_index = some a) :
    amounts = positions.map (planned_amount plan filtered) := by
  induction positions generalizing amounts with
  | nil =>
    cases amounts with
    | nil => rfl
    | cons a amounts => simp at hlen
  | cons i l ih =>
    cases amounts with
    | nil => simp at hlen
    | cons a amounts =>
      simp only [List.length_cons, add_left_inj] at hlen
      simp only [List.map_cons, List.zip_cons_cons, List.mem_cons] at h
      have h1 := h (entry_at focus_them list filtered i) a (Or.inl rfl)
      have h2 := ih amounts hlen (fun e b hmem => h e b (Or.inr hmem))
      simp only [List.map_cons]
      rw [← h2]
      congr 1
      unfold planned_amount
      simp only [entry_at] at h1
      rw [h1]; rfl

theorem mem_searched_positions (focus_them : Bool) (list : List item_pricing)
    (filtered : List Nat) (range : category_range) (idx : Nat) :
    idx ∈ searched_positions focus_them list filtered range ↔
      (range.start ≤ idx ∧ idx < range.end_) ∧
        unit_balance_delta focus_them (offer_at list filtered idx) ≠ 0 := by
  unfold searched_positions iota
  rw [List.mem_filter, List.mem_range']
  simp only [decide_eq_true_eq, one_mul]
  constructor
  · rintro ⟨⟨i, hi, rfl⟩, hu⟩
    exact ⟨⟨by omega, by omega⟩, hu⟩
  · rintro ⟨⟨h1, h2⟩, hu⟩
    exact ⟨⟨idx - range.start, by omega, by omega⟩, hu⟩

theorem searched_positions_nodup (focus_them : Bool) (list : List item_pricing)
    (filtered : List Nat) (range : category_range) :
    (searched_positions focus_them list filtered range).Nodup := by
  unfold searched_positions iota
  exact List.Nodup.filter _ (List.nodup_range' _ _)

theorem searched_indices_nodup (focus_them : Bool) (list : List item_pricing)
    (filtered : List Nat) (range : category_range) (hnd : filtered.Nodup)
    (hend : range.end_ ≤ filtered.length) :
    (((searched_positions focus_them list filtered range).map
      (entry_at focus_them list filtered)).map (fun e => e.list_index)).Nodup := by
  rw [List.map_map]
  apply List.Nodup.map_on _ (searched_positions_nodup focus_them list filtered range)
  intro x hx y hy hxy
  have hx' := ((mem_searched_positions _ _ _ _ _).mp hx).1.2
  have hy' := ((mem_searched_positions _ _ _ _ _).mp hy).1.2
  simp only [Function.comp, entry_at] at hxy
  rw [List.getD_eq_getElem filtered 0 (show x < filtered.length by omega),
    List.getD_eq_getElem filtered 0 (show y < filtered.length by omega)] at hxy
  exact (List.Nodup.getElem_inj_iff hnd).mp hxy

/-- The plan of `calc_category_autobalance_plan` stays within the bounds of the offers, and
its balance is the best one that any assignment within the bounds reaches: the least
non-negative balance if there is one, and otherwise the greatest. -/
theorem category_plan_spec (iter : balance_map → balance_map)
    (hiter : ∀ m x, x ∈ iter m ↔ x ∈ m) (focus_them : Bool) (B : Int)
    (list : List item_pricing) (filtered : List Nat) (range : category_range)
    (hnd : filtered.Nodup) (hend : range.end_ ≤ filtered.length)
    (hcur : ∀ idx, range.start ≤ idx → idx < range.end_ →
      0 ≤ get_current_amount focus_them (offer_at list filtered idx) ∧
      get_current_amount focus_them (offer_at list filtered idx) ≤
        get_max_amount (offer_at list filtered idx)) :
    (∀ idx ∈ searched_positions focus_them list filtered range,
      (∃ a, plan_find (calc_category_autobalance_plan iter focus_them B list filtered range)
        (filtered.getD idx 0) = some a) ∧
      0 ≤ planned_amount
        (calc_category_autobalance_plan iter focus_them B list filtered range) filtered idx ∧
      planned_amount
        (calc_category_autobalance_plan iter focus_them B list filtered range) filtered idx ≤
          get_max_amount (offer_at list filtered idx)) ∧
    ((∃ other : Nat → Int,
        (∀ idx ∈ searched_positions focus_them list filtered range,
          0 ≤ other idx ∧ other idx ≤ get_max_amount (offer_at list filtered idx)) ∧
        0 ≤ planned_balance focus_them B list filtered
          (searched_positions focus_them list filtered range) other) →
      0 ≤ planned_balance focus_them B list filtered
        (searched_positions focus_them list filtered range)
        (planned_amount
          (calc_category_autobalance_plan iter focus_them B list filtered range) filtered) ∧
      ∀ other : Nat → Int,
        (∀ idx ∈ searched_positions focus_them list filtered range,
          0 ≤ other idx ∧ other idx ≤ get_max_amount (offer_at list filtered idx)) →
        0 ≤ planned_balance focus_them B list filtered
          (searched_positions focus_them list filtered range) other →
        planned_balance focus_them B list filtered
          (searched_positions focus_them list filtered range)
          (planned_amount
            (calc_category_autobalance_plan iter focus_them B list filtered range) filtered) ≤
        planned_balance focus_them B list filtered
          (searched_positions focus_them list filtered range) other) ∧
    ((¬ ∃ other : Nat → Int,
        (∀ idx ∈ searched_positions focus_them list filtered range,
          0 ≤ other idx ∧ other idx ≤ get_max_amount (offer_at list filtered idx)) ∧
        0 ≤ planned_balance focus_them B list filtered
          (searched_positions focus_them list filtered range) other) →
      ∀ other : Nat → Int,
        (∀ idx ∈ searched_positions focus_them list filtered range,
          0 ≤ other idx ∧ other idx ≤ get_max_amount (offer_at list filtered idx)) →
        planned_balance focus_them B list filtered
          (searched_positions focus_them list filtered range) other ≤
        planned_balance focus_them B list filtered
          (searched_positions focus_them list filtered range)
          (planned_amount
            (calc_category_autobalance_plan iter focus_them B list filtered range) filtered)) := by
  generalize hS : searched_positions focus_them list filtered range = S
  have hSmem : ∀ idx ∈ S, (range.start ≤ idx ∧ idx < range.end_) ∧
      unit_balance_delta focus_them (offer_at list filtered idx) ≠ 0 := by
    intro idx hidx
    rw [← hS] at hidx
    exact (mem_searched_positions _ _ _ _ _).mp hidx
  have hes : entries_ok (S.map (entry_at focus_them list filtered)) := by
    intro e he
    rw [List.mem_map] at he
    obtain ⟨idx, hidx, rfl⟩ := he
    obtain ⟨⟨h1, h2⟩, hu⟩ := hSmem idx hidx
    exact ⟨hu, hcur idx h1 h2⟩
  have hndE : ((S.map (entry_at focus_them list filtered)).map
      (fun e => e.list_index)).Nodup := by
    rw [← hS]; exact searched_indices_nodup focus_them list filtered range hnd hend
  have hbal : ∀ amount : Nat → Int, planned_balance focus_them B list filtered S amount =
      B + plan_delta (S.map (entry_at focus_them list filtered)) (S.map amount) := by
    intro amount
    rw [plan_delta_map]; rfl
  by_cases hE : S.map (entry_at focus_them list filtered) = []
  · have hSnil : S = [] := by simpa using hE
    subst hSnil
    refine ⟨fun idx hidx => absurd hidx (List.not_mem_nil _), ?_, ?_⟩
    · rintro ⟨other, _, h0⟩
      simp only [planned_balance, List.map_nil, List.sum_nil, add_zero] at h0 ⊢
      exact ⟨h0, fun _ _ _ => le_rfl⟩
    · intro _ other _
      simp [planned_balance]
  · obtain ⟨amounts, best, heq, hdpne, hfeas, hval, hfind, hopt⟩ :=
      plan_of_entries_optimal iter hiter B (S.map (entry_at focus_them list filtered))
        ((iota range.start range.end_).foldl (fun p idx =>
          plan_emplace p (filtered.getD idx 0)
            (get_current_amount focus_them (offer_at list filtered idx))) []) hes hndE
    have hplan : calc_category_autobalance_plan iter focus_them B list filtered range =
        backtrack ((S.map (entry_at focus_them list filtered)).zip
          (dp_pass iter (balance_bounds B (S.map (entry_at focus_them list filtered))).1
            (balance_bounds B (S.map (entry_at focus_them list filtered))).2 B
            (S.map (entry_at focus_them list filtered))).2).reverse best
          ((iota range.start range.end_).foldl (fun p idx =>
            plan_emplace p (filtered.getD idx 0)
              (get_current_amount focus_them (offer_at list filtered idx))) []) := by
      unfold calc_category_autobalance_plan
      simp only []
      rw [collect_entries_eq, hS]
      simp only []
      rw [if_neg hE, if_neg hdpne]
      exact heq
    rw [hplan]
    rw [← hplan] at hfind ⊢
    have hlen := feasible_length _ _ hfeas
    rw [List.length_map] at hlen
    have hamounts := amounts_eq_map focus_them list filtered S amounts
      (calc_category_autobalance_plan iter focus_them B list filtered range) hlen hfind
    have hP : planned_balance focus_them B list filtered S
        (planned_amount (calc_category_autobalance_plan iter focus_them B list filtered range)
          filtered) = best := by
      rw [hbal, ← hamounts, hval]
    have hfeas' := (feasible_map focus_them list filtered S _).mp (hamounts ▸ hfeas)
    rw [hP]
    refine ⟨?_, ?_, ?_⟩
    · intro idx hidx
      refine ⟨?_, hfeas' idx hidx⟩
      have hmemzip : (entry_at focus_them list filtered idx,
          planned_amount (calc_category_autobalance_plan iter focus_them B list filtered range)
            filtered idx) ∈ (S.map (entry_at focus_them list filtered)).zip amounts := by
        rw [hamounts, List.zip_map']
        exact List.mem_map.mpr ⟨idx, hidx, rfl⟩
      exact ⟨_, hfind _ _ hmemzip⟩
    · rintro ⟨other, hof, ho0⟩
      have hfo := (feasible_map focus_them list filtered S other).mpr hof
      rw [hbal] at ho0
      refine ⟨((hopt _ hfo).1 ho0).1, ?_⟩
      intro other2 hof2 ho20
      have hfo2 := (feasible_map focus_them list filtered S other2).mpr hof2
      rw [hbal] at ho20 ⊢
      exact ((hopt _ hfo2).1 ho20).2
    · intro hno other hof
      have hfo := (feasible_map focus_them list filtered S other).mpr hof
      rw [hbal]
      apply (hopt _ hfo).2
      by_contra hcon
      apply hno
      refine ⟨planned_amount
        (calc_category_autobalance_plan iter focus_them B list filtered range) filtered,
        hfeas', ?_⟩
      rw [hP]
      omega

/-- C2: category autobalance finds the best reachable balance.  For a range of a filtered list
without repeated indices whose offers have current amounts within `[0, max]`, the plan gives
every searched offer (non-zero unit) an amount within `[0, max]`, and the balance
`B + sum of unit * (amount - current)` of the plan is the least non-negative balance that any
assignment within the bounds gives, if there is one, and otherwise the greatest. -/
theorem category_plan_optimal (iter : balance_map → balance_map)
    (hiter : ∀ m x, x ∈ iter m ↔ x ∈ m) (focus_them : Bool) (B : Int)
    (list : List item_pricing) (filtered : List Nat) (range : category_range)
    (hnd : filtered.Nodup) (hend : range.end_ ≤ filtered.length)
    (hcur : ∀ idx, range.start ≤ idx → idx < range.end_ →
      0 ≤ get_current_amount focus_them (offer_at list filtered idx) ∧
      get_current_amount focus_them (offer_at list filtered idx) ≤
        get_max_amount (offer_at list filtered idx)) :
    (∀ idx ∈ searched_positions focus_them list filtered range,
      (∃ a, plan_find (calc_category_autobalance_plan iter focus_them B list filtered range)
        (filtered.getD idx 0) = some a) ∧
      0 ≤ planned_amount
        (calc_category_autobalance_plan iter focus_them B list filtered range) filtered idx ∧
      planned_amount
        (calc_category_autobalance_plan iter focus_them B list filtered range) filtered idx ≤
          get_max_amount (offer_at list filtered idx)) ∧
    ((∃ other : Nat → Int,
        (∀ idx ∈ searched_positions focus_them list filtered range,
          0 ≤ other idx ∧ other idx ≤ get_max_amount (offer_at list filtered idx)) ∧
        0 ≤ planned_balance focus_them B list filtered
          (searched_positions focus_them list filtered range) other) →
      0 ≤ planned_balance focus_them B list filtered
        (searched_positions focus_them list filtered range)
        (planned_amount
          (calc_category_autobalance_plan iter focus_them B list filtered range) filtered) ∧
      ∀ other : Nat → Int,
        (∀ idx ∈ searched_positions focus_them list filtered range,
          0 ≤ other idx ∧ other idx ≤ get_max_amount (offer_at list filtered idx)) →
        0 ≤ planned_balance focus_them B list filtered
          (searched_positions focus_them list filtered range) other →
        planned_balance focus_them B list filtered
          (searched_positions focus_them list filtered range)
          (planned_amount
            (calc_category_autobalance_plan iter focus_them B list filtered range) filtered) ≤
        planned_balance focus_them B list filtered
          (searched_positions focus_them list filtered range) other) ∧
    ((¬ ∃ other : Nat → Int,
        (∀ idx ∈ searched_positions focus_them list filtered range,
          0 ≤ other idx ∧ other idx ≤ get_max_amount (offer_at list filtered idx)) ∧
        0 ≤ planned_balance focus_them B list filtered
          (searched_positions focus_them list filtered range) other) →
      ∀ other : Nat → Int,
        (∀ idx ∈ searched_positions focus_them list filtered range,
          0 ≤ other idx ∧ other idx ≤ get_max_amount (offer_at list filtered idx)) →
        planned_balance focus_them B list filtered
          (searched_positions focus_them list filtered range) other ≤
        planned_balance focus_them B list filtered
          (searched_positions focus_them list filtered range)
          (planned_amount
            (calc_category_autobalance_plan iter focus_them B list filtered range) filtered)) :=
  category_plan_spec iter hiter focus_them B list filtered range hnd hend hcur

/-- The instance of C2 for the two offers at prices 10 (maximum 5) and 15 (maximum 3) of the
`yours` pane and the starting balance -5: the plan offers one item at price 10 and none at
price 15, which gives the balance 5, and the amounts of the plan are within the bounds. -/
theorem category_plan_optimal_witness :
    calc_category_autobalance_plan (fun m => m) false (-5) [offer_price_10, offer_price_15]
      [0, 1] range_two = [(0, 1), (1, 0)] ∧
    planned_balance false (-5) [offer_price_10, offer_price_15] [0, 1]
      (searched_positions false [offer_price_10, offer_price_15] [0, 1] range_two)
      (planned_amount (calc_category_autobalance_plan (fun m => m) false (-5)
        [offer_price_10, offer_price_15] [0, 1] range_two) [0, 1]) = 5 ∧
    (∀ idx ∈ searched_positions false [offer_price_10, offer_price_15] [0, 1] range_two,
      (∃ a, plan_find (calc_category_autobalance_plan (fun m => m) false (-5)
        [offer_price_10, offer_price_15] [0, 1] range_two) (([0, 1] : List Nat).getD idx 0)
          = some a) ∧
      0 ≤ planned_amount (calc_category_autobalance_plan (fun m => m) false (-5)
        [offer_price_10, offer_price_15] [0, 1] range_two) [0, 1] idx ∧
      planned_amount (calc_category_autobalance_plan (fun m => m) false (-5)
        [offer_price_10, offer_price_15] [0, 1] range_two) [0, 1] idx ≤
          get_max_amount (offer_at [offer_price_10, offer_price_15] [0, 1] idx)) :=
  ⟨by with_unfolding_all decide, by with_unfolding_all decide,
   (category_plan_optimal (fun m => m) (fun _ _ => Iff.rfl) false (-5)
      [offer_price_10, offer_price_15] [0, 1] range_two (by decide) (by decide)
      (by
        intro idx _ h2
        have h2' : idx < 2 := h2
        interval_cases idx <;> exact ⟨by decide, by decide⟩)).1⟩

/-! ### The debt written back by `trade` -/

/-- C11: `trade` returns the `confirm` of the session; it changes `op_of_u.owed` only when the
session was committed and the NPC does not exchange freely, and then to `calc_npc_owes_you` of
the final ledger; after a cancelled session, or for an NPC that exchanges freely, the debt is
what it was. -/
theorem trade_updates_debt_only_on_commit (np : npc) (cost : Int) (env : ui_env)
    (inputs : List trade_input) (theirs yours : List item_pricing) :
    (trade np cost env inputs theirs yours).1 =
      (perform_trade np env inputs
        (npc_trading.setup_trade_state cost np theirs yours)).confirm ∧
    ((trade np cost env inputs theirs yours).1 = true ∧
        np.will_exchange_items_freely = false →
      (trade np cost env inputs theirs yours).2.op_of_u.owed =
        npc_trading.calc_npc_owes_you
          (perform_trade np env inputs
            (npc_trading.setup_trade_state cost np theirs yours)).state np) ∧
    ((trade np cost env inputs theirs yours).1 = false ∨
        np.will_exchange_items_freely = true →
      (trade np cost env inputs theirs yours).2 = np) := by
  unfold trade
  simp only []
  by_cases hc : (perform_trade np env inputs
      (npc_trading.setup_trade_state cost np theirs yours)).confirm = true
  · by_cases hf : np.will_exchange_items_freely = true
    · simp [hc, hf]
    · have hf' : np.will_exchange_items_freely = false := by simpa using hf
      simp [hc, hf', npc_trading.update_npc_owed]
  · have hc' : (perform_trade np env inputs
        (npc_trading.setup_trade_state cost np theirs yours)).confirm = false := by
      simpa using hc
    simp [hc']

/-- The instance of C11 for the trader with debt 100 and cost 0, who confirms after taking three
items at price 30: the session is committed and the debt becomes the final balance 10. -/
theorem trade_updates_debt_only_on_commit_witness :
    (trade trader_npc 0 plain_env
      [input_of trade_action.ANY_INPUT '3', input_of trade_action.RIGHT ' ',
        input_of trade_action.CONFIRM ' ']
      [offer_price_30] []).1 = true ∧
    (trade trader_npc 0 plain_env
      [input_of trade_action.ANY_INPUT '3', input_of trade_action.RIGHT ' ',
        input_of trade_action.CONFIRM ' ']
      [offer_price_30] []).2.op_of_u.owed = 10 ∧
    (trade trader_npc 0 plain_env [input_of trade_action.QUIT ' ']
      [offer_price_30] []).2 = trader_npc ∧
    (trade companion_npc 0 plain_env
      [input_of trade_action.ANY_INPUT '3', input_of trade_action.RIGHT ' ',
        input_of trade_action.CONFIRM ' ']
      [offer_price_30] []).2 = companion_npc := by
  refine ⟨by with_unfolding_all decide, ?_, ?_, ?_⟩
  · rw [(trade_updates_debt_only_on_commit trader_npc 0 plain_env
      [input_of trade_action.ANY_INPUT '3', input_of trade_action.RIGHT ' ',
        input_of trade_action.CONFIRM ' ']
      [offer_price_30] []).2.1 ⟨by with_unfolding_all decide, rfl⟩]
    with_unfolding_all decide
  · exact (trade_updates_debt_only_on_commit trader_npc 0 plain_env
      [input_of trade_action.QUIT ' '] [offer_price_30] []).2.2
      (Or.inl (by with_unfolding_all decide))
  · exact (trade_updates_debt_only_on_commit companion_npc 0 plain_env
      [input_of trade_action.ANY_INPUT '3', input_of trade_action.RIGHT ' ',
        input_of trade_action.CONFIRM ' ']
      [offer_price_30] []).2.2 (Or.inr rfl)

/-! ### Prices -/

/-- C12: `net_price_adjustment` is at least 1 for every pair of characters, whatever the
skill-difference function `price_adjustment` returns. -/
theorem net_price_adjustment_ge_one (price_adjustment : Int → ℚ)
    (buyer seller : npc_trading.Character) :
    1 ≤ npc_trading.net_price_adjustment price_adjustment buyer seller := by
  unfold npc_trading.net_price_adjustment
  exact le_max_right _ _

/-- C13: `adjust_values` multiplies the price by the factor, except that with a faction whose
currency is the type of the offer's front item the price is unchanged; without a faction the
price is always multiplied.  Nothing else of the offer changes. -/
theorem adjust_values_price (ip : item_pricing) (adjust : ℚ) :
    npc_trading.adjust_values ip adjust none = { ip with price := ip.price * adjust } ∧
    (∀ f : npc_trading.faction, f.currency = (front ip.locs).typeId →
      npc_trading.adjust_values ip adjust (some f) = ip) ∧
    (∀ f : npc_trading.faction, f.currency ≠ (front ip.locs).typeId →
      npc_trading.adjust_values ip adjust (some f) = { ip with price := ip.price * adjust }) := by
  refine ⟨rfl, ?_, ?_⟩
  · intro f hf
    simp [npc_trading.adjust_values, hf]
  · intro f hf
    simp [npc_trading.adjust_values, hf]

/-! ### The selection flag -/

/-- C14: the selection flag invariant.  When the session starts from fresh offers (not
selected, all counters 0), then after any sequence of inputs every offer of the `theirs` list
is selected exactly when its offered amount (`u_charges` for a charge offer, `u_has`
otherwise) is positive, and every offer of the `yours` list exactly when its `npc_charges` or
`npc_has` is. -/
theorem session_selected_iff_amount_positive (np : npc) (env : ui_env)
    (inputs : List trade_input) (state : trade_state)
    (h0 : ∀ ip, ip ∈ state.theirs ∨ ip ∈ state.yours → fresh_offer ip) :
    (∀ ip ∈ (perform_trade np env inputs state).state.theirs,
      (ip.selected = true ↔ (if ip.charges > 0 then ip.u_charges else ip.u_has) > 0)) ∧
    (∀ ip ∈ (perform_trade np env inputs state).state.yours,
      (ip.selected = true ↔ (if ip.charges > 0 then ip.npc_charges else ip.npc_has) > 0)) := by
  have h := perform_trade_selection_inv np env inputs state h0
  constructor
  · intro ip hip
    exact (h.1 ip hip).1
  · intro ip hip
    exact (h.2 ip hip).1

/-- The instance of C14 for the session that takes four of the ten items by hotkey: the offer
is selected and `u_has = 4`. -/
theorem session_selected_iff_amount_positive_witness :
    (perform_trade trader_npc plain_env [input_of trade_action.ANY_INPUT 'a']
      ledger_one_offer).state.theirs.map (fun ip => (ip.selected, ip.u_has)) = [(true, 4)] ∧
    (∀ ip ∈ (perform_trade trader_npc plain_env [input_of trade_action.ANY_INPUT 'a']
      ledger_one_offer).state.theirs,
      (ip.selected = true ↔ (if ip.charges > 0 then ip.u_charges else ip.u_has) > 0)) :=
  ⟨by with_unfolding_all decide,
   (session_selected_iff_amount_positive trader_npc plain_env
      [input_of trade_action.ANY_INPUT 'a'] ledger_one_offer
      (by
        intro ip hip
        simp only [ledger_one_offer, List.mem_singleton, List.not_mem_nil, or_false] at hip
        subst hip
        exact ⟨rfl, rfl, rfl, rfl, rfl⟩)).1⟩

/-! ### The balance after the amounts return to 0 -/

/-- C15 (refuted on the code): the balance depends on the path, not only on the offered
amounts.  With a non-freely-exchanging NPC, balance 100 and one offer of 2 charges at unit
price 1/2, the inputs `1`, RIGHT, `2`, RIGHT, LEFT bring every amount back to 0 and the flag
back to unselected, but leave the balance at 101: each step from 0 to 1 and from 1 to 2
costs `static_cast<int>(0.5) = 0`, the step from 2 to 0 returns `static_cast<int>(1.0) = 1`. -/
theorem balance_depends_on_path :
    (perform_trade trader_npc plain_env
      [input_of trade_action.ANY_INPUT '1', input_of trade_action.RIGHT ' ',
        input_of trade_action.ANY_INPUT '2', input_of trade_action.RIGHT ' ',
        input_of trade_action.LEFT ' '] ledger_half).state.theirs = [offer_price_half] ∧
    (perform_trade trader_npc plain_env
      [input_of trade_action.ANY_INPUT '1', input_of trade_action.RIGHT ' ',
        input_of trade_action.ANY_INPUT '2', input_of trade_action.RIGHT ' ',
        input_of trade_action.LEFT ' '] ledger_half).state.your_balance = 101 ∧
    ledger_half.your_balance = 100 ∧
    (perform_trade trader_npc plain_env
      [input_of trade_action.ANY_INPUT '1', input_of trade_action.RIGHT ' ',
        input_of trade_action.ANY_INPUT '2', input_of trade_action.RIGHT ' ']
      ledger_half).state.theirs.map (fun ip => ip.u_charges) = [2] ∧
    (perform_trade trader_npc plain_env
      [input_of trade_action.ANY_INPUT '1', input_of trade_action.RIGHT ' ',
        input_of trade_action.ANY_INPUT '2', input_of trade_action.RIGHT ' ']
      ledger_half).state.your_balance = 100 ∧
    (perform_trade trader_npc plain_env
      [input_of trade_action.ANY_INPUT '2', input_of trade_action.RIGHT ' ']
      ledger_half).state.theirs.map (fun ip => ip.u_charges) = [2] ∧
    (perform_trade trader_npc plain_env
      [input_of trade_action.ANY_INPUT '2', input_of trade_action.RIGHT ' ']
      ledger_half).state.your_balance = 99 := by
  refine ⟨?_, ?_, ?_, ?_, ?_, ?_, ?_⟩ <;> with_unfolding_all decide

/-! ### The filtered index list -/

theorem iota_zero (n : Nat) : iota 0 n = List.range n := by
  unfold iota
  simp [List.range_eq_range']

theorem build_filtered_indices_empty (f : String → item → Bool) (list : List item_pricing) :
    build_filtered_indices f list "" = List.range list.length := by
  unfold build_filtered_indices
  rw [if_pos (by decide), iota_zero]

theorem do_filter_filtered (env : ui_env) (t : String) (w : trading_window) :
    (do_filter env true t w).focus_them = w.focus_them ∧
    (do_filter env true t w).state = w.state ∧
    filtered_of w.focus_them (do_filter env true t w) =
      build_filtered_indices env.item_filter_from_string (list_of w.focus_them w.state) t := by
  unfold do_filter clamp_pane set_offset set_cursor set_filtered set_filter filtered_of list_of
  cases w.focus_them <;> simp

theorem do_reset_filter_filtered (env : ui_env) (w : trading_window) :
    filtered_of w.focus_them (do_reset_filter env w) =
      build_filtered_indices env.item_filter_from_string (list_of w.focus_them w.state) "" := by
  unfold do_reset_filter clamp_pane set_offset set_cursor set_filtered set_filter filtered_of
    list_of
  cases w.focus_them <;> simp

/-- C16: `build_filtered_indices` with the empty filter returns `[0, 1, ..., n-1]`; with a
non-empty filter it returns, in strictly increasing order, exactly the indices below `n` whose
offer has a front item that passes the filter.  Hence filtering the focused pane twice with the
same text gives the same index list as filtering once, and RESET_FILTER gives the full list
`[0, 1, ..., n-1]` in the original order. -/
theorem build_filtered_indices_spec (env : ui_env) (list : List item_pricing)
    (filter : String) (w : trading_window) :
    build_filtered_indices env.item_filter_from_string list "" = List.range list.length ∧
    (filter ≠ "" →
      (build_filtered_indices env.item_filter_from_string list filter).Pairwise
        (fun a b => a < b) ∧
      ∀ idx, idx ∈ build_filtered_indices env.item_filter_from_string list filter ↔
        idx < list.length ∧
          env.item_filter_from_string filter (front (list.getD idx default).locs) = true) ∧
    filtered_of w.focus_them (do_filter env true filter (do_filter env true filter w)) =
      filtered_of w.focus_them (do_filter env true filter w) ∧
    filtered_of w.focus_them (do_reset_filter env w) =
      List.range (list_of w.focus_them w.state).length := by
  refine ⟨build_filtered_indices_empty _ _, ?_, ?_, ?_⟩
  · intro hne
    have hemp : ¬ filter.isEmpty = true := fun h => hne ((String.isEmpty_iff filter).mp h)
    unfold build_filtered_indices
    rw [if_neg hemp, iota_zero]
    constructor
    · exact List.Pairwise.filter _ (List.pairwise_lt_range list.length)
    · intro idx
      rw [List.mem_filter, List.mem_range]
  · obtain ⟨h1, h2, h3⟩ := do_filter_filtered env filter w
    obtain ⟨_, _, k3⟩ := do_filter_filtered env filter (do_filter env true filter w)
    rw [h1] at k3
    rw [k3, h2, h3]
  · rw [do_reset_filter_filtered, build_filtered_indices_empty]

/-- The instance of C16 for four offers with the type ids 4, 7, 10, 13 and a filter that lets
even type ids pass: the filter "x" keeps the positions 0 and 2, the empty filter all four. -/
theorem build_filtered_indices_spec_witness :
    build_filtered_indices even_type_filter
      [offer_of_type 4, offer_of_type 7, offer_of_type 10, offer_of_type 13] "x" = [0, 2] ∧
    build_filtered_indices even_type_filter
      [offer_of_type 4, offer_of_type 7, offer_of_type 10, offer_of_type 13] "" =
        [0, 1, 2, 3] ∧
    (build_filtered_indices even_type_filter
      [offer_of_type 4, offer_of_type 7, offer_of_type 10, offer_of_type 13] "x").Pairwise
        (fun a b => a < b) :=
  ⟨by with_unfolding_all decide, by with_unfolding_all decide,
   ((build_filtered_indices_spec
      { item_filter_from_string := even_type_filter, item_hotkeys := [], iter := fun m => m }
      [offer_of_type 4, offer_of_type 7, offer_of_type 10, offer_of_type 13] "x"
      default).2.1 (by decide)).1⟩

/-! ### The quantity prompt -/

theorem hotkey_toggle_none_of_cancel (np : npc) (they : Bool) (c : Bool) (q : Int)
    (ip : item_pricing) (st : trade_state) (hsel : ip.selected = false)
    (hpr : ip.charges > 0 ∨ ip.count > 1) (hc : c = true ∨ q ≤ 0) :
    hotkey_toggle np they c q ip st = none := by
  have hv : ∀ total hint, get_var_trade total hint c q < 1 := by
    intro total hint
    unfold get_var_trade
    rw [if_pos hc]
    decide
  unfold hotkey_toggle
  simp only [hsel, Bool.false_eq_true, if_false]
  by_cases hch : ip.charges > 0
  · simp only [hch, if_true, hv, if_true]
  · have hcount : ip.count > 1 := hpr.resolve_left hch
    simp only [hch, if_false, hcount, if_true, hv, if_true]

/-- C18: a cancelled or non-positive quantity prompt mutates nothing.  `get_var_trade` returns
-1 when the prompt is cancelled or answered with a number that is not positive, and
`min(total_count, how_many)` otherwise; and when the hotkey of an unselected offer that is
prompted for (charges, or a count above 1) meets such an answer, the branch leaves the ledger
(both offer lists with flags and amounts, `your_balance`, `volume_left`, `weight_left`) and
the loop flags `confirm` and `exit` as they were, so the session goes on. -/
theorem cancelled_prompt_mutates_nothing (np : npc) (env : ui_env) (inp : trade_input)
    (cr : List category_range) (w : trading_window)
    (hc : inp.popup_canceled = true ∨ inp.popup_how_many ≤ 0)
    (hsel : (offer_at (list_of w.focus_them w.state) (filtered_of w.focus_them w)
      (env.item_hotkeys.indexOf inp.evt_first_input + offset_of w.focus_them w)).selected
        = false)
    (hpr : (offer_at (list_of w.focus_them w.state) (filtered_of w.focus_them w)
        (env.item_hotkeys.indexOf inp.evt_first_input + offset_of w.focus_them w)).charges > 0 ∨
      (offer_at (list_of w.focus_them w.state) (filtered_of w.focus_them w)
        (env.item_hotkeys.indexOf inp.evt_first_input + offset_of w.focus_them w)).count > 1) :
    (∀ total hint,
      get_var_trade total hint inp.popup_canceled inp.popup_how_many = -1) ∧
    (∀ total hint q, 0 < q → get_var_trade total hint false q = min total q) ∧
    (do_any_input np env inp cr w).state = w.state ∧
    (do_any_input np env inp cr w).confirm = w.confirm ∧
    (do_any_input np env inp cr w).exit = w.exit := by
  refine ⟨?_, ?_, ?_⟩
  · intro total hint
    unfold get_var_trade
    rw [if_pos hc]
  · intro total hint q hq
    unfold get_var_trade
    rw [if_neg (by simp; omega)]
  · have hcore : session_core (do_any_input np env inp cr w) = session_core w := by
      unfold do_any_input
      simp only []
      by_cases hk : (!inp.evt_is_keyboard) = true
      · rw [if_pos hk]
      rw [if_neg hk]
      by_cases hd : '0' ≤ inp.evt_first_input ∧ inp.evt_first_input ≤ '9'
      · rw [if_pos hd]; rfl
      rw [if_neg hd]
      by_cases hp : List.indexOf inp.evt_first_input env.item_hotkeys ≥ env.item_hotkeys.length
      · rw [if_pos hp]
      rw [if_neg hp]
      by_cases hi : List.indexOf inp.evt_first_input env.item_hotkeys + offset_of w.focus_them w
          < (filtered_of w.focus_them w).length
      · rw [if_pos hi]
        have hs := core_state (hotkey_cursor_core cr
          (List.indexOf inp.evt_first_input env.item_hotkeys + offset_of w.focus_them w) w)
        rw [hs]
        unfold offer_at at hsel hpr
        rw [hotkey_toggle_none_of_cancel np w.focus_them inp.popup_canceled inp.popup_how_many
          _ _ hsel hpr hc]
        exact hotkey_cursor_core cr _ w
      · rw [if_neg hi]
    exact ⟨core_state hcore, core_confirm hcore, core_exit hcore⟩

/-- The instance of C18 for the hotkey `a` on the unselected offer of ten items when the
prompt is cancelled: the ledger stays `ledger_one_offer` with the capacity of the NPC. -/
theorem cancelled_prompt_mutates_nothing_witness :
    first_window.state.theirs = [offer_price_30] ∧
    (do_any_input trader_npc plain_env input_cancelled [] first_window).state =
      first_window.state ∧
    (do_any_input trader_npc plain_env input_cancelled [] first_window).exit = false :=
  ⟨by with_unfolding_all decide,
   (cancelled_prompt_mutates_nothing trader_npc plain_env input_cancelled [] first_window
      (Or.inl rfl) (by with_unfolding_all decide)
      (Or.inr (by with_unfolding_all decide))).2.2.1,
   ((cancelled_prompt_mutates_nothing trader_npc plain_env input_cancelled [] first_window
      (Or.inl rfl) (by with_unfolding_all decide)
      (Or.inr (by with_unfolding_all decide))).2.2.2.2).trans (by with_unfolding_all decide)⟩

/-! ### RIGHT and LEFT -/

/-- The amount requested by the branch RIGHT or LEFT of category mode. -/
theorem right_left_amount (np : npc) (they right : Bool) (ip : item_pricing)
    (st : trade_state) :
    (if right = true then
        apply_trade_change np they ip (if ip.charges > 0 then ip.charges else max ip.count 1) st
      else apply_trade_change np they ip 0 st) =
    apply_trade_change np they ip (if right = true then get_max_amount ip else 0) st := by
  cases right <;> rfl

/-- The lists after `on_offer` with a function that keeps the lists of the ledger: the offer
at `list_index` of the pane is replaced, the other pane is untouched. -/
theorem on_offer_lists (they : Bool) (i : Nat)
    (f : item_pricing → trade_state → item_pricing × trade_state) (st : trade_state)
    (hf : (f ((list_of they st).getD i default) st).2.theirs = st.theirs ∧
      (f ((list_of they st).getD i default) st).2.yours = st.yours) :
    list_of they (on_offer they i f st) =
      (list_of they st).set i (f ((list_of they st).getD i default) st).1 ∧
    list_of (!they) (on_offer they i f st) = list_of (!they) st := by
  unfold on_offer
  simp only []
  cases they
  · simp only [list_of, set_list_of, Bool.false_eq_true, if_false, Bool.not_false, if_true]
      at hf ⊢
    exact ⟨by rw [hf.2], hf.1⟩
  · simp only [list_of, set_list_of, if_true, Bool.not_true, Bool.false_eq_true, if_false]
      at hf ⊢
    exact ⟨by rw [hf.1], hf.2⟩

theorem getD_set_self (l : List item_pricing) (i : Nat) (x : item_pricing)
    (hi : i < l.length) : (l.set i x).getD i default = x := by
  rw [List.getD_eq_getElem _ _ (by rw [List.length_set]; exact hi)]
  simp

theorem getD_set_other (l : List item_pricing) (i j : Nat) (x : item_pricing) (hij : i ≠ j) :
    (l.set i x).getD j default = l.getD j default := by
  simp only [List.getD_eq_getElem?_getD]
  rw [List.getElem?_set_ne hij]

/-- C19: RIGHT and LEFT in item mode.  In item mode with a non-empty filtered list whose
cursor row shows an offer of the focused list, RIGHT leaves the offer under the cursor at its
maximum amount when no count is pending and at `min(n, maximum)` when the count `n > 0` is
pending; LEFT leaves it at 0 whatever is pending; and afterwards no count is pending. -/
theorem item_mode_right_left (np : npc) (right : Bool) (cr : List category_range)
    (w : trading_window) (hmode : w.category_mode = false)
    (hne : filtered_of w.focus_them w ≠ [])
    (hidx : (filtered_of w.focus_them w).getD (cursor_of w.focus_them w) 0 <
      (list_of w.focus_them w.state).length) :
    (right = true → w.pending_count = none →
      get_current_amount w.focus_them
        (offer_at (list_of w.focus_them (do_right_left np right cr w).state)
          (filtered_of w.focus_them w) (cursor_of w.focus_them w)) =
        get_max_amount (offer_at (list_of w.focus_them w.state)
          (filtered_of w.focus_them w) (cursor_of w.focus_them w))) ∧
    (right = true → ∀ n : Int, w.pending_count = some n → 0 < n →
      get_current_amount w.focus_them
        (offer_at (list_of w.focus_them (do_right_left np right cr w).state)
          (filtered_of w.focus_them w) (cursor_of w.focus_them w)) =
        min n (get_max_amount (offer_at (list_of w.focus_them w.state)
          (filtered_of w.focus_them w) (cursor_of w.focus_them w)))) ∧
    (right = false →
      get_current_amount w.focus_them
        (offer_at (list_of w.focus_them (do_right_left np right cr w).state)
          (filtered_of w.focus_them w) (cursor_of w.focus_them w)) = 0) ∧
    (do_right_left np right cr w).pending_count = none := by
  have hmax := get_max_amount_pos (offer_at (list_of w.focus_them w.state)
    (filtered_of w.focus_them w) (cursor_of w.focus_them w))
  have hstate : (do_right_left np right cr w).state =
      on_offer w.focus_them ((filtered_of w.focus_them w).getD (cursor_of w.focus_them w) 0)
        (fun ip st => apply_trade_change np w.focus_them ip
          (if right = true then w.pending_count.getD (get_max_amount ip) else 0) st)
        w.state := by
    unfold do_right_left
    simp only [hmode, Bool.false_eq_true, if_false, hne, ne_eq, not_false_eq_true, if_true]
    cases right <;> rfl
  have hoffer : offer_at (list_of w.focus_them (do_right_left np right cr w).state)
      (filtered_of w.focus_them w) (cursor_of w.focus_them w) =
      (apply_trade_change np w.focus_them
        (offer_at (list_of w.focus_them w.state) (filtered_of w.focus_them w)
          (cursor_of w.focus_them w))
        (if right = true then w.pending_count.getD (get_max_amount
          (offer_at (list_of w.focus_them w.state) (filtered_of w.focus_them w)
            (cursor_of w.focus_them w))) else 0) w.state).1 := by
    rw [hstate]
    unfold offer_at
    rw [(on_offer_lists w.focus_them _ _ w.state (apply_trade_change_lists _ _ _ _ _)).1]
    rw [getD_set_self _ _ _ hidx]
  refine ⟨?_, ?_, ?_, ?_⟩
  · intro hr hp
    rw [hoffer, apply_trade_change_amount, if_pos hr, hp]
    exact clamp_of_mem _ _ _ (by simp only [Option.getD_none]; omega) (le_refl _)
  · intro hr n hp hn
    rw [hoffer, apply_trade_change_amount, if_pos hr, hp]
    simp only [Option.getD_some]
    unfold clamp
    rcases le_total n (get_max_amount (offer_at (list_of w.focus_them w.state)
      (filtered_of w.focus_them w) (cursor_of w.focus_them w))) with h | h
    · rw [if_neg (by omega), if_neg (by omega), min_eq_left h]
    · rw [if_neg (by omega), min_eq_right h]
      split_ifs <;> omega
  · intro hr
    rw [hoffer, apply_trade_change_amount, if_neg (by simp [hr])]
    exact clamp_of_mem _ _ _ (le_refl _) (by omega)
  · unfold do_right_left
    rfl

/-- The instance of C19 for the offer of ten items with the count 3 pending: RIGHT offers
three items and clears the pending count. -/
theorem item_mode_right_left_witness :
    (do_right_left trader_npc true [] window_pending_3).state.theirs.map
      (fun ip => ip.u_has) = [3] ∧
    get_current_amount window_pending_3.focus_them
      (offer_at (list_of window_pending_3.focus_them
          (do_right_left trader_npc true [] window_pending_3).state)
        (filtered_of window_pending_3.focus_them window_pending_3)
        (cursor_of window_pending_3.focus_them window_pending_3)) =
      min 3 (get_max_amount (offer_at
        (list_of window_pending_3.focus_them window_pending_3.state)
        (filtered_of window_pending_3.focus_them window_pending_3)
        (cursor_of window_pending_3.focus_them window_pending_3))) :=
  ⟨by with_unfolding_all decide,
   (item_mode_right_left trader_npc true [] window_pending_3 (by with_unfolding_all decide)
      (by with_unfolding_all decide) (by with_unfolding_all decide)).2.1 rfl 3
      (by with_unfolding_all decide) (by decide)⟩

theorem apply_trade_change_max (np : npc) (they : Bool) (ip : item_pricing) (n : Int)
    (st : trade_state) :
    get_max_amount (apply_trade_change np they ip n st).1 = get_max_amount ip := by
  obtain ⟨hc, hk, _⟩ := apply_trade_change_charges np they ip n st
  rw [get_max_amount_eq, get_max_amount_eq, hc, hk]

/-- One step of the loop over a category range: the offer at the list index of the position
gets the requested amount, every other offer and the other pane stay. -/
theorem category_step (np : npc) (they : Bool) (target : item_pricing → Int)
    (filtered : List Nat) (st : trade_state) (idx : Nat) :
    list_of (!they) (on_offer they (filtered.getD idx 0)
      (fun ip s => apply_trade_change np they ip (target ip) s) st) = list_of (!they) st ∧
    (list_of they (on_offer they (filtered.getD idx 0)
      (fun ip s => apply_trade_change np they ip (target ip) s) st)).length =
        (list_of they st).length ∧
    (∀ i, filtered.getD idx 0 ≠ i →
      (list_of they (on_offer they (filtered.getD idx 0)
        (fun ip s => apply_trade_change np they ip (target ip) s) st)).getD i default =
        (list_of they st).getD i default) ∧
    (filtered.getD idx 0 < (list_of they st).length →
      (list_of they (on_offer they (filtered.getD idx 0)
        (fun ip s => apply_trade_change np they ip (target ip) s) st)).getD
          (filtered.getD idx 0) default =
        (apply_trade_change np they ((list_of they st).getD (filtered.getD idx 0) default)
          (target ((list_of they st).getD (filtered.getD idx 0) default)) st).1) := by
  obtain ⟨h1, h2⟩ := on_offer_lists they (filtered.getD idx 0)
    (fun ip s => apply_trade_change np they ip (target ip) s) st
    (apply_trade_change_lists _ _ _ _ _)
  refine ⟨h2, ?_, ?_, ?_⟩
  · rw [h1, List.length_set]
  · intro i hi
    rw [h1, getD_set_other _ _ _ _ hi]
  · intro hlt
    rw [h1, getD_set_self _ _ _ hlt]

/-- The loop over the positions `l` of a category range with the target `max` (RIGHT) or 0
(LEFT): the other pane and every offer at a list index that no position names stay, and an
offer that some position names ends at the target amount with its maximum unchanged. -/
theorem category_fold (np : npc) (they right : Bool) (filtered : List Nat) (l : List Nat)
    (st : trade_state) :
    list_of (!they) (l.foldl (fun s idx => on_offer they (filtered.getD idx 0)
      (fun ip s2 => apply_trade_change np they ip
        (if right = true then get_max_amount ip else 0) s2) s) st) = list_of (!they) st ∧
    (list_of they (l.foldl (fun s idx => on_offer they (filtered.getD idx 0)
      (fun ip s2 => apply_trade_change np they ip
        (if right = true then get_max_amount ip else 0) s2) s) st)).length =
          (list_of they st).length ∧
    ∀ i,
      get_max_amount ((list_of they (l.foldl (fun s idx => on_offer they (filtered.getD idx 0)
        (fun ip s2 => apply_trade_change np they ip
          (if right = true then get_max_amount ip else 0) s2) s) st)).getD i default) =
        get_max_amount ((list_of they st).getD i default) ∧
      ((∀ idx ∈ l, filtered.getD idx 0 ≠ i) →
        (list_of they (l.foldl (fun s idx => on_offer they (filtered.getD idx 0)
          (fun ip s2 => apply_trade_change np they ip
            (if right = true then get_max_amount ip else 0) s2) s) st)).getD i default =
          (list_of they st).getD i default) ∧
      ((∃ idx ∈ l, filtered.getD idx 0 = i) → i < (list_of they st).length →
        get_current_amount they
          ((list_of they (l.foldl (fun s idx => on_offer they (filtered.getD idx 0)
            (fun ip s2 => apply_trade_change np they ip
              (if right = true then get_max_amount ip else 0) s2) s) st)).getD i default) =
          (if right = true then get_max_amount ((list_of they st).getD i default) else 0)) := by
  induction l generalizing st with
  | nil =>
    refine ⟨rfl, rfl, fun i => ⟨rfl, fun _ => rfl, ?_⟩⟩
    rintro ⟨idx, hidx, _⟩
    simp at hidx
  | cons idx l ih =>
    simp only [List.foldl_cons]
    obtain ⟨s1, s2, s3, s4⟩ := category_step np they
      (fun ip => if right = true then get_max_amount ip else 0) filtered st idx
    obtain ⟨i1, i2, i3⟩ := ih (on_offer they (filtered.getD idx 0)
      (fun ip s2 => apply_trade_change np they ip
        (if right = true then get_max_amount ip else 0) s2) st)
    have hmax1 : ∀ i, get_max_amount ((list_of they (on_offer they (filtered.getD idx 0)
        (fun ip s2 => apply_trade_change np they ip
          (if right = true then get_max_amount ip else 0) s2) st)).getD i default) =
        get_max_amount ((list_of they st).getD i default) := by
      intro i
      by_cases hk : filtered.getD idx 0 = i
      · by_cases hlt : filtered.getD idx 0 < (list_of they st).length
        · rw [← hk, s4 hlt, apply_trade_change_max]
        · rw [← hk]
          have e1 : (list_of they st).getD (filtered.getD idx 0) default = default := by
            rw [List.getD_eq_default]; omega
          have e2 : (list_of they (on_offer they (filtered.getD idx 0)
              (fun ip s2 => apply_trade_change np they ip
                (if right = true then get_max_amount ip else 0) s2) st)).getD
                (filtered.getD idx 0) default = default := by
            rw [List.getD_eq_default]; rw [s2]; omega
          rw [e1, e2]
      · rw [s3 i hk]
    refine ⟨i1.trans s1, i2.trans s2, fun i => ⟨?_, ?_, ?_⟩⟩
    · rw [(i3 i).1, hmax1 i]
    · intro hun
      rw [(i3 i).2.1 (fun j hj => hun j (List.mem_cons_of_mem _ hj))]
      exact s3 i (hun idx (List.mem_cons_self _ _))
    · intro htouched hlt
      by_cases htail : ∃ j ∈ l, filtered.getD j 0 = i
      · rw [(i3 i).2.2 htail (by rw [s2]; exact hlt), hmax1 i]
      · have hun : ∀ j ∈ l, filtered.getD j 0 ≠ i := by
          intro j hj hji
          exact htail ⟨j, hj, hji⟩
        have hk : filtered.getD idx 0 = i := by
          obtain ⟨j, hj, hji⟩ := htouched
          rcases List.mem_cons.mp hj with h | h
          · rw [← h]; exact hji
          · exact absurd hji (hun j h)
        rw [(i3 i).2.1 hun, ← hk, s4 (by rw [hk]; exact hlt), apply_trade_change_amount]
        have hpos := get_max_amount_pos ((list_of they st).getD (filtered.getD idx 0) default)
        cases right
        · exact clamp_of_mem _ _ _ (le_refl _) (by omega)
        · exact clamp_of_mem _ _ _ (by simp only [if_true]; omega) (le_refl _)

theorem mem_iota (a b i : Nat) : i ∈ iota a b ↔ a ≤ i ∧ i < b := by
  unfold iota
  rw [List.mem_range']
  constructor
  · rintro ⟨k, hk, rfl⟩
    omega
  · rintro ⟨h1, h2⟩
    exact ⟨i - a, by omega, by omega⟩

/-- C20: RIGHT and LEFT in category mode.  With the active range
`category_ranges[category_cursor]`, RIGHT leaves every offer of the focused list shown at a
position of the range at its maximum amount and LEFT leaves it at 0; an offer of the focused
list that no position of the range shows is unchanged (amounts, flag and all), and so is the
whole list of the other pane. -/
theorem category_mode_right_left (np : npc) (right : Bool) (cr : List category_range)
    (w : trading_window) (hmode : w.category_mode = true) (hcr : cr ≠ []) :
    (∀ idx, (cr.getD (category_cursor_of w.focus_them w) default).start ≤ idx →
      idx < (cr.getD (category_cursor_of w.focus_them w) default).end_ →
      (filtered_of w.focus_them w).getD idx 0 < (list_of w.focus_them w.state).length →
      get_current_amount w.focus_them
        (offer_at (list_of w.focus_them (do_right_left np right cr w).state)
          (filtered_of w.focus_them w) idx) =
        (if right = true then
          get_max_amount (offer_at (list_of w.focus_them w.state) (filtered_of w.focus_them w) idx)
         else 0)) ∧
    (∀ i, (∀ idx, (cr.getD (category_cursor_of w.focus_them w) default).start ≤ idx →
        idx < (cr.getD (category_cursor_of w.focus_them w) default).end_ →
        (filtered_of w.focus_them w).getD idx 0 ≠ i) →
      (list_of w.focus_them (do_right_left np right cr w).state).getD i default =
        (list_of w.focus_them w.state).getD i default) ∧
    list_of (!w.focus_them) (do_right_left np right cr w).state =
      list_of (!w.focus_them) w.state := by
  have hstate : (do_right_left np right cr w).state =
      (iota (cr.getD (category_cursor_of w.focus_them w) default).start
        (cr.getD (category_cursor_of w.focus_them w) default).end_).foldl
        (fun s idx => on_offer w.focus_them ((filtered_of w.focus_them w).getD idx 0)
          (fun ip s2 => apply_trade_change np w.focus_them ip
            (if right = true then get_max_amount ip else 0) s2) s) w.state := by
    unfold do_right_left
    simp only [hmode, if_true, hcr, ne_eq, not_false_eq_true]
    cases right <;> rfl
  obtain ⟨f1, _, f3⟩ := category_fold np w.focus_them right (filtered_of w.focus_them w)
    (iota (cr.getD (category_cursor_of w.focus_them w) default).start
      (cr.getD (category_cursor_of w.focus_them w) default).end_) w.state
  rw [hstate]
  refine ⟨?_, ?_, f1⟩
  · intro idx h1 h2 hlt
    exact (f3 _).2.2 ⟨idx, (mem_iota _ _ _).mpr ⟨h1, h2⟩, rfl⟩ hlt
  · intro i hi
    exact (f3 i).2.1 (fun idx hidx => hi idx ((mem_iota _ _ _).mp hidx).1
      ((mem_iota _ _ _).mp hidx).2)

/-- The instance of C20 for the range of the two offers at prices 10 (maximum 5) and 15
(maximum 3): RIGHT offers 5 and 3, and the list of the other pane stays. -/
theorem category_mode_right_left_witness :
    (do_right_left trader_npc true [range_two] window_category).state.theirs.map
      (fun ip => (ip.selected, ip.u_has)) = [(true, 5), (true, 3)] ∧
    list_of (!window_category.focus_them)
      (do_right_left trader_npc true [range_two] window_category).state =
        list_of (!window_category.focus_them) window_category.state :=
  ⟨by with_unfolding_all decide,
   (category_mode_right_left trader_npc true [range_two] window_category
      (by with_unfolding_all decide) (by decide)).2.2⟩

/-! ### Price-neutral offers under autobalance -/

/-- The first loop of the plan: a list index that is already planned keeps its amount, a list
index shown at one of the positions gets the current amount of its offer, and no other list
index enters the plan. -/
theorem plan_current_foldl (focus_them : Bool) (list : List item_pricing)
    (filtered : List Nat) (l : List Nat) (p : plan_map) (k : Nat) :
    (∀ a, plan_find p k = some a →
      plan_find (l.foldl (fun p idx => plan_emplace p (filtered.getD idx 0)
        (get_current_amount focus_them (offer_at list filtered idx))) p) k = some a) ∧
    (plan_find p k = none → (∃ idx ∈ l, filtered.getD idx 0 = k) →
      plan_find (l.foldl (fun p idx => plan_emplace p (filtered.getD idx 0)
        (get_current_amount focus_them (offer_at list filtered idx))) p) k =
          some (get_current_amount focus_them (list.getD k default))) ∧
    (plan_find p k = none → (¬ ∃ idx ∈ l, filtered.getD idx 0 = k) →
      plan_find (l.foldl (fun p idx => plan_emplace p (filtered.getD idx 0)
        (get_current_amount focus_them (offer_at list filtered idx))) p) k = none) := by
  induction l generalizing p with
  | nil =>
    refine ⟨fun a h => h, ?_, fun h _ => h⟩
    rintro _ ⟨idx, hidx, _⟩
    simp at hidx
  | cons idx0 l ih =>
    simp only [List.foldl_cons]
    obtain ⟨ih1, ih2, ih3⟩ := ih (plan_emplace p (filtered.getD idx0 0)
      (get_current_amount focus_them (offer_at list filtered idx0)))
    have hfind := plan_find_emplace p (filtered.getD idx0 0) k
      (get_current_amount focus_them (offer_at list filtered idx0))
    refine ⟨?_, ?_, ?_⟩
    · intro a ha
      apply ih1
      rw [hfind, ha]
    · intro hnone htouched
      rw [hnone] at hfind
      simp only [] at hfind
      by_cases hk : k = filtered.getD idx0 0
      · rw [if_pos hk] at hfind
        rw [ih1 _ hfind]
        unfold offer_at
        rw [← hk]
      · rw [if_neg hk] at hfind
        apply ih2 hfind
        obtain ⟨j, hj, hjk⟩ := htouched
        rcases List.mem_cons.mp hj with h | h
        · rw [h] at hjk; exact absurd hjk.symm hk
        · exact ⟨j, h, hjk⟩
    · intro hnone hun
      rw [hnone] at hfind
      simp only [] at hfind
      have hk : ¬ k = filtered.getD idx0 0 :=
        fun h => hun ⟨idx0, List.mem_cons_self _ _, h.symm⟩
      rw [if_neg hk] at hfind
      apply ih3 hfind
      rintro ⟨j, hj, hjk⟩
      exact hun ⟨j, List.mem_cons_of_mem _ hj, hjk⟩

/-- The search of the plan only writes the list indices of its entries. -/
theorem category_plan_find_other (iter : balance_map → balance_map) (focus_them : Bool)
    (B : Int) (list : List item_pricing) (filtered : List Nat) (range : category_range)
    (k : Nat)
    (hk : ∀ e ∈ (collect_entries focus_them list filtered range).2, e.list_index ≠ k) :
    plan_find (calc_category_autobalance_plan iter focus_them B list filtered range) k =
      plan_find (collect_entries focus_them list filtered range).1 k := by
  unfold calc_category_autobalance_plan
  simp only []
  split_ifs
  · rfl
  · rfl
  · split
    · rfl
    · apply backtrack_other
      intro st hst
      have hmem := List.mem_reverse.mp hst
      have : st.1 ∈ (collect_entries focus_them list filtered range).2 := by
        cases st with
        | mk e d => exact (List.of_mem_zip hmem).1
      exact hk _ this

/-- A loop whose every step leaves the starting ledger as it is ends with that ledger. -/
theorem foldl_fixed (g : trade_state → Nat → trade_state) (l : List Nat) (s : trade_state)
    (h : ∀ idx ∈ l, g s idx = s) : l.foldl g s = s := by
  induction l with
  | nil => rfl
  | cons idx l ih =>
    rw [List.foldl_cons, h idx (List.mem_cons_self _ _)]
    exact ih (fun j hj => h j (List.mem_cons_of_mem _ hj))

/-- Writing an offer back unchanged leaves the ledger as it is. -/
theorem set_list_of_self (they : Bool) (st : trade_state) (k : Nat) :
    set_list_of they st ((list_of they st).set k ((list_of they st).getD k default)) = st := by
  have hl : ∀ l : List item_pricing, l.set k (l.getD k default) = l := by
    intro l
    by_cases hlt : k < l.length
    · rw [List.getD_eq_getElem _ _ hlt]
      apply List.ext_getElem
      · simp
      · intro n h1 h2
        by_cases hn : k = n
        · subst hn; simp
        · rw [List.getElem_set_ne hn]
    · exact List.set_eq_of_length_le (by omega)
  rw [hl]
  cases they <;> rfl

/-- Asking `apply_trade_change` for the current amount of an offer within its bounds changes
neither the offer nor the ledger. -/
theorem on_offer_current (np : npc) (they : Bool) (k : Nat) (st : trade_state)
    (h0 : 0 ≤ get_current_amount they ((list_of they st).getD k default))
    (h1 : get_current_amount they ((list_of they st).getD k default) ≤
      get_max_amount ((list_of they st).getD k default)) :
    on_offer they k (fun ip s => apply_trade_change np they ip
      (get_current_amount they ((list_of they st).getD k default)) s) st = st := by
  unfold on_offer
  simp only []
  rw [apply_trade_change_eq, if_pos (clamp_of_mem _ _ _ h0 h1)]
  exact set_list_of_self they st k

/-- C17: autobalance never changes a price-neutral offer.  `calc_autobalance_amount` returns
the current amount of an offer whose unit contribution is 0; `calc_category_autobalance_plan`
maps every offer of the range whose unit contribution is 0 to its current amount; and when
every offer of the range has the unit contribution 0, the plan holds exactly the list indices
shown in the range, each with its current amount, and AUTOBALANCE in category mode (the
amounts being within their bounds) leaves the whole ledger as it was. -/
theorem autobalance_keeps_price_neutral_offers (np : npc) (env : ui_env)
    (cr : List category_range) (w : trading_window) (focus_them : Bool) (B : Int)
    (ip : item_pricing) (list : List item_pricing) (filtered : List Nat)
    (range : category_range) :
    (unit_balance_delta focus_them ip = 0 →
      calc_autobalance_amount focus_them B ip = get_current_amount focus_them ip) ∧
    (∀ idx, range.start ≤ idx → idx < range.end_ →
      unit_balance_delta focus_them (offer_at list filtered idx) = 0 →
      plan_find (calc_category_autobalance_plan env.iter focus_them B list filtered range)
        (filtered.getD idx 0) =
          some (get_current_amount focus_them (offer_at list filtered idx))) ∧
    ((∀ idx, range.start ≤ idx → idx < range.end_ →
        unit_balance_delta focus_them (offer_at list filtered idx) = 0) →
      ∀ k,
        ((∃ idx, range.start ≤ idx ∧ idx < range.end_ ∧ filtered.getD idx 0 = k) →
          plan_find (calc_category_autobalance_plan env.iter focus_them B list filtered range)
            k = some (get_current_amount focus_them (list.getD k default))) ∧
        ((¬ ∃ idx, range.start ≤ idx ∧ idx < range.end_ ∧ filtered.getD idx 0 = k) →
          plan_find (calc_category_autobalance_plan env.iter focus_them B list filtered range)
            k = none)) ∧
    (w.category_mode = true →
      (∀ idx, (cr.getD (category_cursor_of w.focus_them w) default).start ≤ idx →
        idx < (cr.getD (category_cursor_of w.focus_them w) default).end_ →
        unit_balance_delta w.focus_them
          (offer_at (list_of w.focus_them w.state) (filtered_of w.focus_them w) idx) = 0 ∧
        0 ≤ get_current_amount w.focus_them
          (offer_at (list_of w.focus_them w.state) (filtered_of w.focus_them w) idx) ∧
        get_current_amount w.focus_them
          (offer_at (list_of w.focus_them w.state) (filtered_of w.focus_them w) idx) ≤
          get_max_amount
            (offer_at (list_of w.focus_them w.state) (filtered_of w.focus_them w) idx)) →
      (do_autobalance np env cr w).state = w.state) := by
  have hentries : ∀ (f : Bool) (b : Int) (ls : List item_pricing) (fl : List Nat)
      (r : category_range) (k : Nat),
      (∀ idx, r.start ≤ idx → idx < r.end_ → fl.getD idx 0 = k →
        unit_balance_delta f (offer_at ls fl idx) = 0) →
      plan_find (calc_category_autobalance_plan env.iter f b ls fl r) k =
        plan_find ((iota r.start r.end_).foldl (fun p idx => plan_emplace p (fl.getD idx 0)
          (get_current_amount f (offer_at ls fl idx))) []) k := by
    intro f b ls fl r k hzero
    rw [category_plan_find_other, collect_entries_eq]
    intro e he
    rw [collect_entries_eq] at he
    simp only [List.mem_map] at he
    obtain ⟨j, hj, rfl⟩ := he
    obtain ⟨⟨hj1, hj2⟩, hju⟩ := (mem_searched_positions _ _ _ _ _).mp hj
    intro hjk
    exact hju (hzero j hj1 hj2 hjk)
  have hplan : ∀ (f : Bool) (b : Int) (ls : List item_pricing) (fl : List Nat)
      (r : category_range) (idx : Nat), r.start ≤ idx → idx < r.end_ →
      unit_balance_delta f (offer_at ls fl idx) = 0 →
      plan_find (calc_category_autobalance_plan env.iter f b ls fl r) (fl.getD idx 0) =
        some (get_current_amount f (offer_at ls fl idx)) := by
    intro f b ls fl r idx h1 h2 hu
    rw [hentries f b ls fl r (fl.getD idx 0)]
    · exact (plan_current_foldl f ls fl (iota r.start r.end_) [] (fl.getD idx 0)).2.1 rfl
        ⟨idx, (mem_iota _ _ _).mpr ⟨h1, h2⟩, rfl⟩
    · intro j _ _ hjk
      have : offer_at ls fl j = offer_at ls fl idx := by
        unfold offer_at
        rw [hjk]
      rw [this]
      exact hu
  refine ⟨?_, hplan focus_them B list filtered range, ?_, ?_⟩
  · intro hu
    unfold calc_autobalance_amount
    simp only []
    rw [if_pos hu]
  · intro hall k
    have hk := hentries focus_them B list filtered range k (fun idx h1 h2 _ => hall idx h1 h2)
    rw [hk]
    constructor
    · rintro ⟨idx, h1, h2, h3⟩
      exact (plan_current_foldl focus_them list filtered (iota range.start range.end_) [] k).2.1
        rfl ⟨idx, (mem_iota _ _ _).mpr ⟨h1, h2⟩, h3⟩
    · intro hno
      apply (plan_current_foldl focus_them list filtered (iota range.start range.end_)
        [] k).2.2 rfl
      rintro ⟨idx, hidx, h3⟩
      exact hno ⟨idx, ((mem_iota _ _ _).mp hidx).1, ((mem_iota _ _ _).mp hidx).2, h3⟩
  · intro hmode hall
    unfold do_autobalance
    simp only []
    by_cases hf : filtered_of w.focus_them w = []
    · rw [if_pos hf]
    rw [if_neg hf, if_pos hmode]
    by_cases hcr : cr = []
    · rw [if_pos hcr]
    rw [if_neg hcr]
    simp only []
    apply foldl_fixed
    intro idx hidx
    obtain ⟨h1, h2⟩ := (mem_iota _ _ _).mp hidx
    obtain ⟨hu, hb0, hb1⟩ := hall idx h1 h2
    rw [hplan w.focus_them w.state.your_balance (list_of w.focus_them w.state)
      (filtered_of w.focus_them w) _ idx h1 h2 hu]
    simp only []
    unfold offer_at at hb0 hb1 ⊢
    exact on_offer_current np w.focus_them _ w.state hb0 hb1

/-- The instance of C17 for the offer of 2 charges at the unit price 1/2, whose unit
contribution is 0: the item autobalance keeps the amount 0, the plan of the range holds the
amount 0 for it, and AUTOBALANCE in category mode leaves the ledger `ledger_half`. -/
theorem autobalance_keeps_price_neutral_offers_witness :
    unit_balance_delta true offer_price_half = 0 ∧
    calc_autobalance_amount true 100 offer_price_half =
      get_current_amount true offer_price_half ∧
    calc_category_autobalance_plan plain_env.iter true 100 [offer_price_half] [0] range_one =
      [(0, 0)] ∧
    (do_autobalance trader_npc plain_env [range_one] window_half).state = window_half.state :=
  ⟨by with_unfolding_all decide,
   (autobalance_keeps_price_neutral_offers trader_npc plain_env [range_one] window_half true
      100 offer_price_half [offer_price_half] [0] range_one).1 (by with_unfolding_all decide),
   by with_unfolding_all decide,
   (autobalance_keeps_price_neutral_offers trader_npc plain_env [range_one] window_half true
      100 offer_price_half [offer_price_half] [0] range_one).2.2.2
      (by with_unfolding_all decide)
      (by
        intro idx h1 h2
        have h0 : idx = 0 := by
          have h2' : idx < 1 := h2
          omega
        subst h0
        exact ⟨by with_unfolding_all decide, by with_unfolding_all decide,
          by with_unfolding_all decide⟩)⟩

/-! ### The capped debt and the question of CONFIRM -/

/-- C28, refuted as stated: the capped-debt question is not asked in every state in which
the balance is above both the previous debt and `max_willing_to_owe`.  The trader owes 100,
is willing to owe 500 and can carry a volume of 1000; after SWITCH_LISTS and RIGHT the player
gives 400 items of volume 3 at price 2, so the balance is 900, above 100 and 500, and the
remembered debt 500 is below it, but `volume_left` is -200: CONFIRM opens the popup that the
NPC cannot carry all that, asks no question and does not commit. -/
theorem capped_debt_question_not_asked :
    trader_npc.will_exchange_items_freely = false ∧
    (perform_trade trader_npc plain_env
      [input_of trade_action.SWITCH_LISTS ' ', input_of trade_action.RIGHT ' ']
      ledger_bulk).state.your_balance = 900 ∧
    trader_npc.op_of_u.owed = 100 ∧ trader_npc.max_willing_to_owe = 500 ∧
    npc_trading.calc_npc_owes_you (perform_trade trader_npc plain_env
      [input_of trade_action.SWITCH_LISTS ' ', input_of trade_action.RIGHT ' ']
      ledger_bulk).state trader_npc = 500 ∧
    (perform_trade trader_npc plain_env
      [input_of trade_action.SWITCH_LISTS ' ', input_of trade_action.RIGHT ' ']
      ledger_bulk).state.volume_left = -200 ∧
    confirm_dialog_of trader_npc (perform_trade trader_npc plain_env
      [input_of trade_action.SWITCH_LISTS ' ', input_of trade_action.RIGHT ' ']
      ledger_bulk) = confirm_dialog.cannot_carry ∧
    (perform_trade trader_npc plain_env
      [input_of trade_action.SWITCH_LISTS ' ', input_of trade_action.RIGHT ' ',
        input_of trade_action.CONFIRM ' ']
      ledger_bulk).confirm = false := by
  refine ⟨rfl, ?_, rfl, rfl, ?_, ?_, ?_, ?_⟩ <;> with_unfolding_all decide

/-- C28, amended: for an NPC that does not exchange freely, `calc_npc_owes_you` never exceeds
`your_balance`, and is below it exactly when the balance is above both the previous debt and
`max_willing_to_owe`.  CONFIRM asks the capped-debt question exactly when, in addition, the
NPC accepts the trade and neither `volume_left` nor `weight_left` is negative; it asks the
plain question exactly when the NPC accepts, the capacity suffices and the balance is not
above both. -/
theorem calc_npc_owes_you_le_balance (np : npc) (w : trading_window)
    (hfree : np.will_exchange_items_freely = false) :
    npc_trading.calc_npc_owes_you w.state np ≤ w.state.your_balance ∧
    (npc_trading.calc_npc_owes_you w.state np < w.state.your_balance ↔
      w.state.your_balance > np.op_of_u.owed ∧
        w.state.your_balance > np.max_willing_to_owe) ∧
    (confirm_dialog_of np w = confirm_dialog.capped_debt ↔
      npc_trading.npc_will_accept_trade w.state np = true ∧
        ¬ (w.state.volume_left < 0 ∨ w.state.weight_left < 0) ∧
        w.state.your_balance > np.op_of_u.owed ∧
        w.state.your_balance > np.max_willing_to_owe) ∧
    (confirm_dialog_of np w = confirm_dialog.looks_like_a_deal ↔
      npc_trading.npc_will_accept_trade w.state np = true ∧
        ¬ (w.state.volume_left < 0 ∨ w.state.weight_left < 0) ∧
        ¬ (w.state.your_balance > np.op_of_u.owed ∧
          w.state.your_balance > np.max_willing_to_owe)) := by
  have hlt : npc_trading.calc_npc_owes_you w.state np < w.state.your_balance ↔
      w.state.your_balance > np.op_of_u.owed ∧
        w.state.your_balance > np.max_willing_to_owe := by
    unfold npc_trading.calc_npc_owes_you
    rw [hfree]
    simp only [Bool.false_eq_true, if_false]
    split_ifs with h
    · constructor
      · intro _; exact h
      · intro _
        rcases max_cases np.op_of_u.owed np.max_willing_to_owe with ⟨he, _⟩ | ⟨he, _⟩ <;>
          rw [he] <;> omega
    · constructor
      · intro hc; omega
      · intro hc; exact absurd hc h
  refine ⟨?_, hlt, ?_⟩
  · unfold npc_trading.calc_npc_owes_you
    rw [hfree]
    simp only [Bool.false_eq_true, if_false]
    split_ifs with h
    · rcases max_cases np.op_of_u.owed np.max_willing_to_owe with ⟨he, _⟩ | ⟨he, _⟩ <;>
        rw [he] <;> omega
    · exact le_refl _
  · unfold confirm_dialog_of
    by_cases hacc : npc_trading.npc_will_accept_trade w.state np = true
    · rw [hacc]
      simp only [Bool.not_true, Bool.false_eq_true, if_false, true_and]
      by_cases hcap : w.state.volume_left < 0 ∨ w.state.weight_left < 0
      · rw [if_pos hcap]
        simp only [reduceCtorEq, false_iff]
        exact ⟨fun h => h.1 hcap, fun h => h.1 hcap⟩
      · rw [if_neg hcap]
        by_cases hc : npc_trading.calc_npc_owes_you w.state np < w.state.your_balance
        · rw [if_pos hc]
          simp only [true_iff, reduceCtorEq, false_iff]
          exact ⟨⟨hcap, hlt.mp hc⟩, fun h => h.2 (hlt.mp hc)⟩
        · rw [if_neg hc]
          simp only [reduceCtorEq, false_iff, true_iff]
          exact ⟨fun h => hc (hlt.mpr h.2), ⟨hcap, fun h => hc (hlt.mpr h)⟩⟩
    · have hacc' : npc_trading.npc_will_accept_trade w.state np = false := by
        simpa using hacc
      rw [hacc']
      simp only [Bool.not_false, if_true, Bool.false_eq_true, false_and, iff_false]
      constructor <;> split_ifs <;> simp

/-- The instance of C28 (amended) for the trader who owes 100 and is willing to owe 500, at
the balance 600 with capacity left: the remembered debt is 500, below the balance, and CONFIRM
asks the capped-debt question. -/
theorem calc_npc_owes_you_le_balance_witness :
    npc_trading.calc_npc_owes_you (perform_trade_init trader_npc ledger_rich).state trader_npc
      = 500 ∧
    npc_trading.calc_npc_owes_you (perform_trade_init trader_npc ledger_rich).state trader_npc
      ≤ (perform_trade_init trader_npc ledger_rich).state.your_balance ∧
    confirm_dialog_of trader_npc (perform_trade_init trader_npc ledger_rich) =
      confirm_dialog.capped_debt :=
  ⟨by with_unfolding_all decide,
   (calc_npc_owes_you_le_balance trader_npc (perform_trade_init trader_npc ledger_rich)
      rfl).1,
   (calc_npc_owes_you_le_balance trader_npc (perform_trade_init trader_npc ledger_rich)
      rfl).2.2.1.mpr
      ⟨by with_unfolding_all decide, by with_unfolding_all decide,
       by with_unfolding_all decide, by with_unfolding_all decide⟩⟩

/-! ### The cursor and the page offset -/

theorem clamp_cursor_to_list_bounds (p n cursor offset : Nat) (hp : 0 < p) (hn : 0 < n) :
    (clamp_cursor_to_list p n cursor offset).1 < n ∧
    (clamp_cursor_to_list p n cursor offset).2 ≤ (clamp_cursor_to_list p n cursor offset).1 ∧
    (clamp_cursor_to_list p n cursor offset).1 <
      (clamp_cursor_to_list p n cursor offset).2 + p ∧
    (n ≤ p → (clamp_cursor_to_list p n cursor offset).2 = 0) ∧
    (p < n → (clamp_cursor_to_list p n cursor offset).2 + p ≤ n) := by
  have hp0 : ¬ p = 0 := by omega
  have hn0 : ¬ n = 0 := by omega
  unfold clamp_cursor_to_list
  rw [if_neg hp0, if_neg hn0]
  simp only [Nat.min_def]
  split_ifs <;> simp only [] <;> refine ⟨?_, ?_, ?_, ?_, ?_⟩ <;> intros <;>
    first | omega | trivial

theorem clamp_cursor_to_list_fixed (p n c o : Nat) (hp : 0 < p) (hn : 0 < n) (h1 : c < n)
    (h2 : o ≤ c) (h3 : c < o + p) (h4 : n ≤ p → o = 0) (h5 : p < n → o + p ≤ n) :
    clamp_cursor_to_list p n c o = (c, o) := by
  have hp0 : ¬ p = 0 := by omega
  have hn0 : ¬ n = 0 := by omega
  have hmin : min c (n - 1) = c := min_eq_left (by omega)
  unfold clamp_cursor_to_list
  rw [if_neg hp0, if_neg hn0]
  simp only [hmin]
  by_cases hle : n ≤ p
  · rw [if_pos hle, h4 hle]
  · have k1 : ¬ c < o := by omega
    have k2 : ¬ c ≥ o + p := by omega
    have k3 : ¬ o + p > n := by omega
    rw [if_neg hle]
    simp only [k1, k2, k3, if_false]

/-- C29: `clamp_cursor_to_list` keeps the cursor a valid, visible index.  With a page of
`p > 0` rows: for an empty list the cursor and the offset become 0; for a list of `n > 0`
rows the cursor is below `n`, lies on the page (`offset ≤ cursor < offset + p`), the offset is
0 when the list fits on one page and the page ends inside the list otherwise; and a second
call changes nothing. -/
theorem clamp_cursor_to_list_valid (p n cursor offset : Nat) (hp : 0 < p) :
    (n = 0 → clamp_cursor_to_list p n cursor offset = (0, 0)) ∧
    (0 < n →
      (clamp_cursor_to_list p n cursor offset).1 < n ∧
      (clamp_cursor_to_list p n cursor offset).2 ≤ (clamp_cursor_to_list p n cursor offset).1 ∧
      (clamp_cursor_to_list p n cursor offset).1 <
        (clamp_cursor_to_list p n cursor offset).2 + p ∧
      (n ≤ p → (clamp_cursor_to_list p n cursor offset).2 = 0) ∧
      (p < n → (clamp_cursor_to_list p n cursor offset).2 + p ≤ n)) ∧
    clamp_cursor_to_list p n (clamp_cursor_to_list p n cursor offset).1
      (clamp_cursor_to_list p n cursor offset).2 = clamp_cursor_to_list p n cursor offset := by
  have hp0 : ¬ p = 0 := by omega
  have hzero : n = 0 → ∀ c o, clamp_cursor_to_list p n c o = (0, 0) := by
    intro hn c o
    unfold clamp_cursor_to_list
    rw [if_neg hp0, if_pos hn]
  refine ⟨fun hn => hzero hn _ _, clamp_cursor_to_list_bounds p n cursor offset hp, ?_⟩
  by_cases hn : n = 0
  · rw [hzero hn, hzero hn]
  · obtain ⟨h1, h2, h3, h4, h5⟩ :=
      clamp_cursor_to_list_bounds p n cursor offset hp (by omega)
    exact clamp_cursor_to_list_fixed p n _ _ hp (by omega) h1 h2 h3 h4 h5

/-- The instance of C29 for a list of 10 rows, a page of 4 rows, and the cursor 25 with the
offset 0: the cursor becomes 9 and the offset 6. -/
theorem clamp_cursor_to_list_valid_witness :
    clamp_cursor_to_list 4 10 25 0 = (9, 6) ∧
    ((clamp_cursor_to_list 4 10 25 0).1 < 10 ∧
      (clamp_cursor_to_list 4 10 25 0).2 ≤ (clamp_cursor_to_list 4 10 25 0).1 ∧
      (clamp_cursor_to_list 4 10 25 0).1 < (clamp_cursor_to_list 4 10 25 0).2 + 4 ∧
      (10 ≤ 4 → (clamp_cursor_to_list 4 10 25 0).2 = 0) ∧
      (4 < 10 → (clamp_cursor_to_list 4 10 25 0).2 + 4 ≤ 10)) :=
  ⟨by decide, (clamp_cursor_to_list_valid 4 10 25 0 (by decide)).2.1 (by decide)⟩

/-! ### The sign of a balance update -/

theorem static_cast_int_sign (x : ℚ) :
    (0 ≤ x → 0 ≤ static_cast_int x) ∧ (1 ≤ x → 1 ≤ static_cast_int x) ∧
    (x ≤ 0 → static_cast_int x ≤ 0) ∧ (x ≤ -1 → static_cast_int x ≤ -1) := by
  unfold static_cast_int
  refine ⟨?_, ?_, ?_, ?_⟩
  · intro h
    rw [if_pos h]
    exact Int.floor_nonneg.mpr h
  · intro h
    rw [if_pos (by linarith)]
    exact Int.le_floor.mpr (by exact_mod_cast h)
  · intro h
    by_cases h0 : 0 ≤ x
    · rw [if_pos h0]
      have : x = 0 := le_antisymm h h0
      rw [this]; simp
    · rw [if_neg h0]
      exact Int.ceil_le.mpr (by exact_mod_cast h)
  · intro h
    rw [if_neg (by linarith)]
    exact Int.ceil_le.mpr (by exact_mod_cast h)

/-- The balance after `settle_amount` with an NPC that does not exchange freely. -/
theorem settle_amount_balance (np : npc) (ip : item_pricing) (n : Int) (st : trade_state)
    (hfree : np.will_exchange_items_freely = false) :
    (settle_amount np ip n st).your_balance =
      st.your_balance - static_cast_int (ip.price * (n : ℚ)) := by
  unfold settle_amount
  simp [hfree]

/-- The sign of the change that `settle_amount` makes to the balance, for a positive price
and a positive amount `k`: taking `k` lowers the balance, giving `k` raises it. -/
theorem settle_amount_sign (np : npc) (ip : item_pricing) (k : Int) (st : trade_state)
    (hfree : np.will_exchange_items_freely = false) (hprice : 0 < ip.price) (hk : 1 ≤ k) :
    ((settle_amount np ip k st).your_balance ≤ st.your_balance ∧
      (1 ≤ ip.price → (settle_amount np ip k st).your_balance < st.your_balance)) ∧
    (st.your_balance ≤ (settle_amount np ip (-k) st).your_balance ∧
      (1 ≤ ip.price → st.your_balance < (settle_amount np ip (-k) st).your_balance)) := by
  have hkq : (1 : ℚ) ≤ (k : ℚ) := by exact_mod_cast hk
  have hpos : 0 ≤ ip.price * (k : ℚ) := by positivity
  have hone : 1 ≤ ip.price → 1 ≤ ip.price * (k : ℚ) := by
    intro h
    calc (1 : ℚ) = 1 * 1 := by norm_num
      _ ≤ ip.price * (k : ℚ) := by apply mul_le_mul h hkq <;> linarith
  rw [settle_amount_balance np ip k st hfree, settle_amount_balance np ip (-k) st hfree]
  have hneg : ip.price * ((-k : Int) : ℚ) = -(ip.price * (k : ℚ)) := by push_cast; ring
  rw [hneg, static_cast_int_neg]
  obtain ⟨s1, s2, _, _⟩ := static_cast_int_sign (ip.price * (k : ℚ))
  have a1 := s1 hpos
  refine ⟨⟨by omega, fun h => ?_⟩, ⟨by omega, fun h => ?_⟩⟩
  · have := s2 (hone h); omega
  · have := s2 (hone h); omega

/-- C21, refuted as stated: taking one item at price 30 from the `theirs` pane lowers
`your_balance` from 100 to 70 instead of raising it, and giving the same item away from the
`yours` pane raises it from 100 to 130 instead of lowering it. -/
theorem taking_lowers_balance :
    ledger_one_offer.your_balance = 100 ∧
    (apply_trade_change trader_npc true offer_price_30 1 ledger_one_offer).1.u_has = 1 ∧
    (apply_trade_change trader_npc true offer_price_30 1 ledger_one_offer).2.your_balance
      = 70 ∧
    (apply_trade_change trader_npc false offer_price_30 1 ledger_one_offer).1.npc_has = 1 ∧
    (apply_trade_change trader_npc false offer_price_30 1 ledger_one_offer).2.your_balance
      = 130 ∧
    (perform_trade trader_npc plain_env
      [input_of trade_action.ANY_INPUT '1', input_of trade_action.RIGHT ' ']
      ledger_one_offer).state.your_balance = 70 := by
  refine ⟨?_, ?_, ?_, ?_, ?_, ?_⟩ <;> with_unfolding_all decide

/-- C21, amended: with an NPC that does not exchange freely and a positive unit price, raising
the offered amount of an offer of the `theirs` pane never raises `your_balance` and lowers it
when the price is at least 1; raising the offered amount of an offer of the `yours` pane never
lowers `your_balance` and raises it when the price is at least 1.  This holds for
`apply_trade_change` and for the hotkey toggle that selects an offer. -/
theorem raising_amount_balance_sign (np : npc) (they : Bool) (ip : item_pricing) (n : Int)
    (st : trade_state) (hfree : np.will_exchange_items_freely = false)
    (hprice : 0 < ip.price) :
    (get_current_amount they ip < clamp n 0 (get_max_amount ip) →
      (they = true →
        (apply_trade_change np they ip n st).2.your_balance ≤ st.your_balance ∧
        (1 ≤ ip.price →
          (apply_trade_change np they ip n st).2.your_balance < st.your_balance)) ∧
      (they = false →
        st.your_balance ≤ (apply_trade_change np they ip n st).2.your_balance ∧
        (1 ≤ ip.price →
          st.your_balance < (apply_trade_change np they ip n st).2.your_balance))) ∧
    (∀ c q r, ip.selected = false → hotkey_toggle np they c q ip st = some r →
      (they = true →
        r.2.your_balance ≤ st.your_balance ∧
        (1 ≤ ip.price → r.2.your_balance < st.your_balance)) ∧
      (they = false →
        st.your_balance ≤ r.2.your_balance ∧
        (1 ≤ ip.price → st.your_balance < r.2.your_balance))) := by
  constructor
  · intro hraise
    rw [apply_trade_change_eq, if_neg (by omega)]
    have hk : 1 ≤ clamp n 0 (get_max_amount ip) - get_current_amount they ip := by omega
    obtain ⟨s1, s2⟩ := settle_amount_sign np ip _ st hfree hprice hk
    constructor
    · intro ht
      simp only [ht, if_true] at s1 ⊢
      exact s1
    · intro ht
      simp only [ht, Bool.false_eq_true, if_false] at s2 ⊢
      exact s2
  · intro c q r hsel hr
    obtain ⟨chg, ip1, hreq, hcases⟩ := hotkey_toggle_cases np they c q ip st r hr
    have hchg : 1 ≤ chg ∧ ip1.price = ip.price := by
      rcases hcases with ⟨hs, _⟩ | ⟨hs, _⟩ | ⟨hs, _⟩ |
        ⟨_, _, _, _, _, hv1, _, rfl⟩ | ⟨_, _, _, _, _, _, hv1, _, rfl⟩ | ⟨_, _, _, rfl, rfl⟩
      · rw [hsel] at hs; exact absurd hs (by simp)
      · rw [hsel] at hs; exact absurd hs (by simp)
      · rw [hsel] at hs; exact absurd hs (by simp)
      · exact ⟨hv1, by simp⟩
      · exact ⟨hv1, by simp⟩
      · exact ⟨le_refl _, by simp⟩
    have hp2 : 0 < (set_selected ip1 (!ip.selected)).price := by
      rw [set_selected_price, hchg.2]; exact hprice
    obtain ⟨s1, s2⟩ := settle_amount_sign np (set_selected ip1 (!ip.selected)) chg st hfree
      hp2 hchg.1
    rw [set_selected_price, hchg.2] at s1 s2
    rw [hreq, hsel]
    constructor
    · intro ht
      simp only [ht, Bool.not_false, ne_eq, not_true_eq_false, if_false]
      rw [hsel] at s1
      exact s1
    · intro ht
      simp only [ht, Bool.not_false, ne_eq, Bool.true_eq_false, not_false_eq_true, if_true,
        mul_neg, mul_one]
      rw [hsel] at s2
      exact s2

/-- The instance of C21 (amended) for one item at price 30 taken from the `theirs` pane: the
balance goes down from 100. -/
theorem raising_amount_balance_sign_witness :
    (apply_trade_change trader_npc true offer_price_30 1 ledger_one_offer).2.your_balance <
      ledger_one_offer.your_balance :=
  (((raising_amount_balance_sign trader_npc true offer_price_30 1 ledger_one_offer rfl
    (by with_unfolding_all decide)).1 (by with_unfolding_all decide)).1 rfl).2
    (by with_unfolding_all decide)

/-! ### The hotkey toggle and `apply_trade_change` -/

/-- The ledger update reads only the price, the items, the volume and the weight of the
offer. -/
theorem settle_amount_congr (np : npc) (a b : item_pricing) (n m : Int) (st : trade_state)
    (hp : a.price = b.price) (hl : a.locs = b.locs) (hv : a.vol = b.vol)
    (hw : a.weight = b.weight) (hn : n = m) :
    settle_amount np a n st = settle_amount np b m st := by
  unfold settle_amount
  rw [hp, hl, hv, hw, hn]

/-- Toggling an unselected offer on with the answer `q` within `[1, max]` is
`apply_trade_change` to the amount `q`, when nothing is offered yet. -/
theorem hotkey_toggle_on_eq_apply (np : npc) (they : Bool) (ip : item_pricing)
    (st : trade_state) (q : Int) (hsel : ip.selected = false)
    (hcur : get_current_amount they ip = 0) (hq1 : 1 ≤ q) (hq2 : q ≤ get_max_amount ip) :
    hotkey_toggle np they false q ip st = some (apply_trade_change np they ip q st) := by
  have hclamp : clamp q 0 (get_max_amount ip) = q := clamp_of_mem _ _ _ (by omega) hq2
  have hsign : ∀ k : Int, (if (true : Bool) ≠ they then k * -1 else k) =
      (if they = true then k - 0 else -(k - 0)) := by
    intro k; cases they <;> simp
  rw [apply_trade_change_eq, hclamp, hcur, if_neg (by omega)]
  have hdec : decide (q > 0) = true := by simp; omega
  rw [hdec]
  rw [get_max_amount_eq] at hq2
  by_cases hch : ip.charges > 0
  · rw [if_pos hch] at hq2
    obtain ⟨hv, _⟩ :=
      get_var_trade_answered ip.charges (calc_amount_hint they ip st.your_balance) q
        (by omega) hq1
    have hvq : get_var_trade ip.charges (calc_amount_hint they ip st.your_balance) false q
        = q := by
      rw [hv]; exact min_eq_right hq2
    rw [hotkey_toggle_select_charges np they false q ip st hsel hch (by rw [hvq]; omega)]
    rw [hvq, if_pos hch, hsign]
    congr 2
    exact settle_amount_congr np _ _ _ _ st (by simp) (by simp) (by simp) (by simp) rfl
  · rw [if_neg hch] at hq2
    by_cases hcnt : ip.count > 1
    · have hmax : max ip.count 1 = ip.count := max_eq_left (by omega)
      rw [hmax] at hq2
      obtain ⟨hv, _⟩ :=
        get_var_trade_answered ip.count (calc_amount_hint they ip st.your_balance) q
          (by omega) hq1
      have hvq : get_var_trade ip.count (calc_amount_hint they ip st.your_balance) false q
          = q := by
        rw [hv]; exact min_eq_right hq2
      rw [hotkey_toggle_select_count np they false q ip st hsel hch hcnt
        (by rw [hvq]; omega)]
      rw [hvq, if_neg hch, hsign]
      congr 2
      exact settle_amount_congr np _ _ _ _ st (by simp) (by simp) (by simp) (by simp) rfl
    · have hmax : max ip.count 1 = 1 := max_eq_right (by omega)
      rw [hmax] at hq2
      have hq : q = 1 := by omega
      subst hq
      rw [hotkey_toggle_select_single np they false 1 ip st hsel hch hcnt]
      rw [if_neg hch, hsign]
      congr 2
      exact settle_amount_congr np _ _ _ _ st (by simp) (by simp) (by simp) (by simp) rfl

/-- Toggling a selected offer off is `apply_trade_change` to the amount 0, when the flag
agrees with the amounts. -/
theorem hotkey_toggle_off_eq_apply (np : npc) (they : Bool) (ip : item_pricing)
    (st : trade_state) (c : Bool) (q : Int) (hsel : ip.selected = true)
    (hinv : selection_inv they ip) :
    hotkey_toggle np they c q ip st = some (apply_trade_change np they ip 0 st) := by
  have hmax := get_max_amount_pos ip
  have hclamp : clamp 0 0 (get_max_amount ip) = 0 := clamp_of_mem _ _ _ (le_refl _) (by omega)
  have hpos : get_current_amount they ip > 0 := hinv.1.mp hsel
  have hsign : ∀ k : Int, (if (false : Bool) ≠ they then k * -1 else k) =
      (if they = true then 0 - k else -(0 - k)) := by
    intro k; cases they <;> simp
  rw [apply_trade_change_eq, hclamp, if_neg (by omega)]
  have hdec : decide ((0 : Int) > 0) = false := by decide
  rw [hdec]
  have hunused := hinv.2.2
  rw [get_current_amount_eq] at hpos ⊢
  by_cases hch : ip.charges > 0
  · rw [if_pos hch] at hpos ⊢
    rw [hotkey_toggle_deselect_charges np they c q ip st hsel hpos, if_pos hch, hsign]
    congr 2
    exact settle_amount_congr np _ _ _ _ st (by simp) (by simp) (by simp) (by simp) rfl
  · rw [if_neg hch] at hpos hunused ⊢
    rw [hotkey_toggle_deselect_count np they c q ip st hsel (by omega) hpos, if_neg hch,
      hsign]
    congr 2
    exact settle_amount_congr np _ _ _ _ st (by simp) (by simp) (by simp) (by simp) rfl

/-- C26: the hotkey toggle and `apply_trade_change` agree.  In every state the session reaches
from fresh offers, for every offer of either pane and every ledger: toggling an unselected
offer on with a prompt answer `q` within `[1, maximum]` yields exactly the offer and the
ledger (`your_balance`, `volume_left`, `weight_left`) of `apply_trade_change( ip, q )`, and
toggling a selected offer off yields exactly those of `apply_trade_change( ip, 0 )`. -/
theorem toggle_agrees_with_apply_trade_change (np : npc) (env : ui_env)
    (inputs : List trade_input) (state : trade_state)
    (h0 : ∀ ip, ip ∈ state.theirs ∨ ip ∈ state.yours → fresh_offer ip)
    (they : Bool) (ip : item_pricing)
    (hmem : ip ∈ list_of they (perform_trade np env inputs state).state)
    (st : trade_state) :
    (ip.selected = false → ∀ q : Int, 1 ≤ q → q ≤ get_max_amount ip →
      hotkey_toggle np they false q ip st = some (apply_trade_change np they ip q st)) ∧
    (ip.selected = true → ∀ (c : Bool) (q : Int),
      hotkey_toggle np they c q ip st = some (apply_trade_change np they ip 0 st)) := by
  have hinv := pane_inv_list_of selection_inv _
    (perform_trade_selection_inv np env inputs state h0) they ip hmem
  constructor
  · intro hsel q hq1 hq2
    have hcur : get_current_amount they ip = 0 := by
      have h1 := hinv.1
      have h2 := hinv.2.1
      by_contra hne
      have : get_current_amount they ip > 0 := by omega
      have := h1.mpr this
      rw [hsel] at this
      exact absurd this (by simp)
    exact hotkey_toggle_on_eq_apply np they ip st q hsel hcur hq1 hq2
  · intro hsel c q
    exact hotkey_toggle_off_eq_apply np they ip st c q hsel hinv

/-- The instance of C26 for the fresh offer of ten items at price 30: the toggle with the
answer 4 and `apply_trade_change( ip, 4 )` both offer four items and leave the balance -20. -/
theorem toggle_agrees_with_apply_trade_change_witness :
    (apply_trade_change trader_npc true offer_price_30 4 ledger_one_offer).1.u_has = 4 ∧
    (apply_trade_change trader_npc true offer_price_30 4 ledger_one_offer).2.your_balance
      = -20 ∧
    hotkey_toggle trader_npc true false 4 offer_price_30 ledger_one_offer =
      some (apply_trade_change trader_npc true offer_price_30 4 ledger_one_offer) :=
  ⟨by with_unfolding_all decide, by with_unfolding_all decide,
   (toggle_agrees_with_apply_trade_change trader_npc plain_env [] ledger_one_offer
      (by
        intro ip hip
        simp only [ledger_one_offer, List.mem_singleton, List.not_mem_nil, or_false] at hip
        subst hip
        exact ⟨rfl, rfl, rfl, rfl, rfl⟩)
      true offer_price_30 (by with_unfolding_all decide) ledger_one_offer).1 rfl 4
      (by decide) (by with_unfolding_all decide)⟩

/-! ### AUTOBALANCE twice -/

/-- C27, evaluated: single-offer AUTOBALANCE is not idempotent when the unit price has a
fraction.  With balance 10 and an offer of the `theirs` pane at the unit price 3/2, the first
AUTOBALANCE offers 10 items and leaves the balance -5; the second one, on the same offer,
takes the amount down to 5 and leaves the balance 2; a third one offers 7 and leaves -1. -/
theorem autobalance_twice_differs :
    (perform_trade trader_npc plain_env [input_of trade_action.AUTOBALANCE ' ']
      ledger_three_halves).state.theirs.map (fun ip => ip.u_has) = [10] ∧
    (perform_trade trader_npc plain_env [input_of trade_action.AUTOBALANCE ' ']
      ledger_three_halves).state.your_balance = -5 ∧
    (perform_trade trader_npc plain_env
      [input_of trade_action.AUTOBALANCE ' ', input_of trade_action.AUTOBALANCE ' ']
      ledger_three_halves).state.theirs.map (fun ip => ip.u_has) = [5] ∧
    (perform_trade trader_npc plain_env
      [input_of trade_action.AUTOBALANCE ' ', input_of trade_action.AUTOBALANCE ' ']
      ledger_three_halves).state.your_balance = 2 ∧
    (perform_trade trader_npc plain_env
      [input_of trade_action.AUTOBALANCE ' ', input_of trade_action.AUTOBALANCE ' ',
        input_of trade_action.AUTOBALANCE ' ']
      ledger_three_halves).state.theirs.map (fun ip => ip.u_has) = [7] ∧
    (perform_trade trader_npc plain_env
      [input_of trade_action.AUTOBALANCE ' ', input_of trade_action.AUTOBALANCE ' ',
        input_of trade_action.AUTOBALANCE ' ']
      ledger_three_halves).state.your_balance = -1 := by
  refine ⟨?_, ?_, ?_, ?_, ?_, ?_⟩ <;> with_unfolding_all decide

/-! ### The practice of the barter skill -/

/-- C24, refuted on the code: whatever is traded, `trade` calls `practice` with the amount 0.
For every NPC, cost, input sequence and pair of offer lists, `practice` is called exactly
when the session was committed with an NPC that does not exchange freely, and its argument is
`0 / 10000 = 0`; in particular for the committed trade of three items at price 30. -/
theorem trade_practice_is_zero (np : npc) (cost : Int) (env : ui_env)
    (inputs : List trade_input) (theirs yours : List item_pricing) :
    (trade_practice np cost env inputs theirs yours = none ∨
      trade_practice np cost env inputs theirs yours = some 0) ∧
    ((trade np cost env inputs theirs yours).1 = true ∧
        np.will_exchange_items_freely = false →
      trade_practice np cost env inputs theirs yours = some 0) ∧
    trade_practice trader_npc 0 plain_env
      [input_of trade_action.ANY_INPUT '3', input_of trade_action.RIGHT ' ',
        input_of trade_action.CONFIRM ' '] [offer_price_30] [] = some 0 := by
  refine ⟨?_, ?_, by with_unfolding_all decide⟩
  · unfold trade_practice
    simp only []
    split_ifs
    · right; rfl
    · left; rfl
    · left; rfl
  · rintro ⟨h1, h2⟩
    unfold trade at h1
    unfold trade_practice
    simp only [] at h1 ⊢
    by_cases hc : (perform_trade np env inputs
        (npc_trading.setup_trade_state cost np theirs yours)).confirm = true
    · simp only [hc, if_true, h2, Bool.not_false]
      rfl
    · have hc' : (perform_trade np env inputs
          (npc_trading.setup_trade_state cost np theirs yours)).confirm = false := by
        simpa using hc
      simp [hc'] at h1

/-! ### The pages of responses -/

theorem split_step_ret_head (foldstring : String → Int → List String) (fold_width page_h : Int)
    (s : split_state) (resp : talk_data) (p : page) (h : s.ret.head? = some p) :
    (split_step foldstring fold_width page_h s resp).ret.head? = some p := by
  unfold split_step
  simp only []
  split_ifs
  · simp only []
    cases hr : s.ret with
    | nil => rw [hr] at h; simp at h
    | cons a l => rw [hr] at h; simpa using h
  · exact h

theorem split_foldl_ret_head (foldstring : String → Int → List String)
    (fold_width page_h : Int) (responses : List talk_data) (s : split_state) (p : page)
    (h : s.ret.head? = some p) :
    (responses.foldl (split_step foldstring fold_width page_h) s).ret.head? = some p := by
  induction responses generalizing s with
  | nil => exact h
  | cons r rest ih =>
    rw [List.foldl_cons]
    exact ih _ (split_step_ret_head foldstring fold_width page_h s r p h)

/-- C30, refuted on the code: when the first response folds into more lines than a page is
high, the first page that `split_to_pages` returns has no entry. -/
theorem split_to_pages_first_page_empty (foldstring : String → Int → List String)
    (first : talk_data) (rest : List talk_data) (page_w page_h : Int)
    (htall : ((foldstring first.text (page_w - 3)).length : Int) > page_h) :
    (split_to_pages foldstring (first :: rest) page_w page_h).head? =
      some { entries := [] } := by
  have hstep : (split_step foldstring (page_w - 3) page_h
      { this_page := { entries := [] }, ret := [], this_h := 0, response_index := 0 }
      first).ret.head? = some { entries := [] } := by
    unfold split_step
    simp only [zero_add]
    rw [if_pos htall]
    rfl
  have hfold := split_foldl_ret_head foldstring (page_w - 3) page_h rest _ _ hstep
  unfold split_to_pages
  simp only [List.foldl_cons]
  split_ifs
  · cases hr : (rest.foldl (split_step foldstring (page_w - 3) page_h)
        (split_step foldstring (page_w - 3) page_h
          { this_page := { entries := [] }, ret := [], this_h := 0, response_index := 0 }
          first)).ret with
    | nil => rw [hr] at hfold; simp at hfold
    | cons a l => rw [hr] at hfold; simpa using hfold
  · exact hfold

/-- The instance of C30 for a page one line high and seven columns wide (lines of four
characters) and a first response of two lines: the pages are an empty page, the page of the
first response and the page of the second; `display_responses` for the selected response 0
shows page 1, can scroll up, and reads `front()` of the empty page 0. -/
theorem split_to_pages_first_page_empty_witness :
    fold_by_length long_response.text (7 - 3) = ["abcd", "efg"] ∧
    (split_to_pages fold_by_length [long_response, short_response] 7 1).map
      (fun p => p.entries.map (fun e => e.response_index)) = [[], [0], [1]] ∧
    (split_to_pages fold_by_length [long_response, short_response] 7 1).head? =
      some { entries := [] } ∧
    display_responses fold_by_length [long_response, short_response] 0 7 1
      { curr_page := 0, can_scroll_up := false, can_scroll_down := false,
        prev_page_start := 0, next_page_start := 0 } = none :=
  ⟨by decide, by decide,
   split_to_pages_first_page_empty fold_by_length long_response [short_response] 7 1
     (by decide),
   by decide⟩

/-! ### The category ranges -/

theorem head_concat_of_ne_nil (l : List category_range) (x : category_range)
    (h : l ≠ []) : (l ++ [x]).head? = l.head? := by
  cases l with
  | nil => exact absurd rfl h
  | cons a l => rfl

theorem getLast_concat_range (l : List category_range) (x : category_range) :
    (l ++ [x]).getLast? = some x := by simp

/-- One round of the loop of `build_category_ranges` keeps `ranges_inv`. -/
theorem ranges_inv_step (list : List item_pricing) (filtered : List Nat) (n : Nat)
    (ranges : List category_range) (h : ranges_inv list filtered n ranges) :
    ranges_inv list filtered (n + 1)
      (match ranges.getLast? with
      | none => [{ id := category_at list filtered n, start := n, end_ := n + 1 }]
      | some back =>
        if back.id ≠ category_at list filtered n then
          (ranges.dropLast ++ [{ back with end_ := n }]) ++
            [{ id := category_at list filtered n, start := n, end_ := n + 1 }]
        else
          ranges.dropLast ++ [{ back with end_ := n + 1 }]) := by
  obtain ⟨h0, hne, hlast, hmem, hhead, hchain⟩ := h
  rcases List.eq_nil_or_concat ranges with hnil | ⟨init, back, hcat⟩
  · subst hnil
    have hn : n = 0 := by
      by_contra hc
      exact hne (by omega) rfl
    subst hn
    simp only [List.getLast?_nil]
    refine ⟨by omega, fun _ => by simp, ?_, ?_, ?_, List.chain'_singleton _⟩
    · intro r hr
      simp only [List.getLast?_singleton, Option.some.injEq] at hr
      rw [← hr]
    · intro r hr
      simp only [List.mem_singleton] at hr
      subst hr
      refine ⟨by simp, ?_⟩
      intro i h1 h2
      have : i = 0 := by simp only [] at h1 h2; omega
      rw [this]
    · intro r hr
      simp only [List.head?_cons, Option.some.injEq] at hr
      rw [← hr]
  · rw [List.concat_eq_append] at hcat
    subst hcat
    have hbl : (init ++ [back]).getLast? = some back := by simp
    have hdl : (init ++ [back]).dropLast = init := by simp
    have hbe : back.end_ = n := hlast back hbl
    have hback := hmem back (by simp)
    rw [hbl, hdl]
    simp only []
    by_cases hid : back.id ≠ category_at list filtered n
    · rw [if_pos hid]
      have hsame : ({ back with end_ := n } : category_range) = back := by
        cases back
        simp only [] at hbe
        simp only [hbe]
      rw [hsame]
      refine ⟨by omega, fun _ => by simp, ?_, ?_, ?_, ?_⟩
      · intro r hr
        rw [getLast_concat_range, Option.some.injEq] at hr
        rw [← hr]
      · intro r hr
        rcases List.mem_append.mp hr with hr | hr
        · exact hmem r hr
        · simp only [List.mem_singleton] at hr
          subst hr
          refine ⟨by simp, ?_⟩
          intro i h1 h2
          have : i = n := by simp only [] at h1 h2; omega
          rw [this]
      · intro r hr
        rw [head_concat_of_ne_nil _ _ (by simp)] at hr
        exact hhead r hr
      · rw [List.chain'_append]
        refine ⟨hchain, List.chain'_singleton _, ?_⟩
        intro x hx y hy
        rw [hbl] at hx
        simp only [Option.mem_def, Option.some.injEq, List.head?_cons] at hx hy
        subst hx
        subst hy
        exact ⟨hbe.symm, fun h => hid h.symm⟩
    · rw [if_neg hid]
      have hid' : back.id = category_at list filtered n := by
        by_contra hc
        exact hid hc
      refine ⟨by omega, fun _ => by simp, ?_, ?_, ?_, ?_⟩
      · intro r hr
        rw [getLast_concat_range, Option.some.injEq] at hr
        rw [← hr]
      · intro r hr
        rcases List.mem_append.mp hr with hr | hr
        · exact hmem r (List.mem_append_left _ hr)
        · simp only [List.mem_singleton] at hr
          subst hr
          simp only []
          refine ⟨by omega, ?_⟩
          intro i h1 h2
          by_cases hi : i < back.end_
          · exact hback.2 i h1 hi
          · have : i = n := by omega
            rw [this, hid']
      · intro r hr
        cases init with
        | nil =>
          simp only [List.nil_append, List.head?_cons, Option.some.injEq] at hr
          rw [← hr]
          exact hhead back (by simp)
        | cons a l =>
          simp only [List.cons_append, List.head?_cons, Option.some.injEq] at hr
          exact hhead r (by simp [hr])
      · rw [List.chain'_append] at hchain ⊢
        refine ⟨hchain.1, List.chain'_singleton _, ?_⟩
        intro x hx y hy
        simp only [Option.mem_def, Option.some.injEq, List.head?_cons] at hy
        subst hy
        exact hchain.2.2 x hx back (by simp)

theorem build_category_ranges_inv (list : List item_pricing) (filtered : List Nat)
    (n : Nat) :
    ranges_inv list filtered n ((List.range n).foldl (fun ranges idx =>
      let list_index := filtered.getD idx 0
      let ip := list.getD list_index default
      let category_id := (front ip.locs).category
      match ranges.getLast? with
      | none => [{ id := category_id, start := idx, end_ := idx + 1 }]
      | some back =>
        if back.id ≠ category_id then
          (ranges.dropLast ++ [{ back with end_ := idx }]) ++
            [{ id := category_id, start := idx, end_ := idx + 1 }]
        else
          ranges.dropLast ++ [{ back with end_ := idx + 1 }]) []) := by
  induction n with
  | zero =>
    exact ⟨fun _ => rfl, fun h => absurd h (by omega), fun r hr => by simp at hr,
      fun r hr => by simp at hr, fun r hr => by simp at hr, List.chain'_nil⟩
  | succ n ih =>
    rw [List.range_succ, List.foldl_append]
    exact ranges_inv_step list filtered n _ ih

/-- C25: `build_category_ranges` partitions the filtered list into maximal runs of one
category.  For a filtered list of length `k` the result is empty exactly when `k = 0`; every
range is a non-empty interval `[start, end_)` inside `[0, k)` all of whose positions show an
offer of the category `id` of the range; the first range starts at 0, the last one ends at
`k`, and each further range starts where the one before it ends and has another `id`. -/
theorem build_category_ranges_partition (list : List item_pricing) (filtered : List Nat) :
    (build_category_ranges list filtered = [] ↔ filtered.length = 0) ∧
    (∀ r ∈ build_category_ranges list filtered, r.start < r.end_ ∧
      ∀ i, r.start ≤ i → i < r.end_ →
        (front (list.getD (filtered.getD i 0) default).locs).category = r.id) ∧
    (∀ r, (build_category_ranges list filtered).head? = some r → r.start = 0) ∧
    (∀ r, (build_category_ranges list filtered).getLast? = some r →
      r.end_ = filtered.length) ∧
    (build_category_ranges list filtered).Chain'
      (fun a b => b.start = a.end_ ∧ b.id ≠ a.id) := by
  have h := build_category_ranges_inv list filtered filtered.length
  have heq : build_category_ranges list filtered = (List.range filtered.length).foldl
      (fun ranges idx =>
      let list_index := filtered.getD idx 0
      let ip := list.getD list_index default
      let category_id := (front ip.locs).category
      match ranges.getLast? with
      | none => [{ id := category_id, start := idx, end_ := idx + 1 }]
      | some back =>
        if back.id ≠ category_id then
          (ranges.dropLast ++ [{ back with end_ := idx }]) ++
            [{ id := category_id, start := idx, end_ := idx + 1 }]
        else
          ranges.dropLast ++ [{ back with end_ := idx + 1 }]) [] := by
    unfold build_category_ranges
    rw [iota_zero]
  rw [← heq] at h
  obtain ⟨h0, hne, hlast, hmem, hhead, hchain⟩ := h
  refine ⟨⟨?_, h0⟩, hmem, hhead, hlast, hchain⟩
  intro hnil
  by_contra hk
  exact hne (by omega) hnil

/-- The instance of C25 for four listed offers of the categories 1, 1, 2, 1: the ranges are
`[0, 2)` of category 1, `[2, 3)` of category 2 and `[3, 4)` of category 1. -/
theorem build_category_ranges_partition_witness :
    build_category_ranges
      [offer_of_category 1, offer_of_category 1, offer_of_category 2, offer_of_category 1]
      [0, 1, 2, 3] =
      [{ id := 1, start := 0, end_ := 2 }, { id := 2, start := 2, end_ := 3 },
        { id := 1, start := 3, end_ := 4 }] ∧
    (build_category_ranges
      [offer_of_category 1, offer_of_category 1, offer_of_category 2, offer_of_category 1]
      [0, 1, 2, 3]).Chain' (fun a b => b.start = a.end_ ∧ b.id ≠ a.id) :=
  ⟨by with_unfolding_all decide,
   (build_category_ranges_partition
      [offer_of_category 1, offer_of_category 1, offer_of_category 2, offer_of_category 1]
      [0, 1, 2, 3]).2.2.2.2⟩

/-! ### Where `init_buying` looks for items -/

theorem check_item_mem (world : npc_trading.trade_world) (fac : Option npc_trading.faction)
    (adjust : ℚ) (is_npc : Bool) (result : List item_pricing) (locs : List item)
    (count : Int) (offer : item_pricing)
    (h : offer ∈ npc_trading.check_item world fac adjust is_npc result locs count) :
    offer ∈ result ∨ offer.locs = locs := by
  have hlocs : (npc_trading.adjust_values
      (npc_trading.item_pricing_new world locs
        ((world.value (front locs) (world.price (front locs)) : Int) : ℚ) count)
      adjust fac).locs = locs := by
    have h1 : ∀ ip : item_pricing, (npc_trading.adjust_values ip adjust fac).locs = ip.locs := by
      intro ip
      unfold npc_trading.adjust_values
      cases fac with
      | none => rfl
      | some f => simp only []; split_ifs <;> rfl
    have h2 : ∀ (ip : item_pricing) (c : Int),
        (npc_trading.set_values world ip c).locs = ip.locs := by
      intro ip c
      unfold npc_trading.set_values
      simp only []
      split_ifs <;> rfl
    rw [h1]
    unfold npc_trading.item_pricing_new
    rw [h2]
  unfold npc_trading.check_item at h
  simp only [] at h
  split_ifs at h
  · exact Or.inl h
  · exact Or.inl h
  · rcases List.mem_append.mp h with h | h
    · exact Or.inl h
    · right
      rw [List.mem_singleton] at h
      rw [h]
      exact hlocs
  · exact Or.inl h

theorem check_item_foldl_mem {α : Type} (world : npc_trading.trade_world)
    (fac : Option npc_trading.faction) (adjust : ℚ) (is_npc : Bool) (l : List α)
    (locs_of : α → List item) (count_of : α → Int) (result : List item_pricing)
    (offer : item_pricing)
    (h : offer ∈ l.foldl (fun result x =>
      npc_trading.check_item world fac adjust is_npc result (locs_of x) (count_of x)) result) :
    offer ∈ result ∨ ∃ x ∈ l, offer.locs = locs_of x := by
  induction l generalizing result with
  | nil => exact Or.inl h
  | cons a l ih =>
    rw [List.foldl_cons] at h
    rcases ih _ h with h1 | ⟨x, hx, hl⟩
    · rcases check_item_mem world fac adjust is_npc result _ _ offer h1 with h2 | h2
      · exact Or.inl h2
      · exact Or.inr ⟨a, List.mem_cons_self _ _, h2⟩
    · exact Or.inr ⟨x, List.mem_cons_of_mem _ hx, hl⟩

/-- C22, refuted as stated: a seller with an empty inventory whose weapon cannot be
unwielded, trading with an NPC that is not a shopkeeper, still gets the offer of the item in
the vehicle on the next tile: `init_buying` scans `vehicle_selector( seller.pos(), 1 )` outside
the test `np.is_shopkeeper()`. -/
theorem init_buying_offers_vehicle_item :
    trader_npc.is_shopkeeper = false ∧
    (npc_trading.init_buying open_world (fun _ => 1) trader_npc none
      { int_cur := 8, barter_skill_level := 0 } { int_cur := 8, barter_skill_level := 0 }
      seller_with_cart false).map (fun offer => offer.locs) = [[cart_item]] ∧
    cart_item ≠ seller_with_cart.primary_weapon ∧
    (∀ stack ∈ seller_with_cart.inv_slice, cart_item ∉ stack) := by
  refine ⟨rfl, by with_unfolding_all decide, by decide, ?_⟩
  intro stack hstack
  simp [seller_with_cart] at hstack

/-- C22, amended: the items on the ground near the seller are offered only when the NPC is a
shopkeeper, the items in vehicles on the tiles next to the seller always.  When the NPC is
not a shopkeeper, every offer of `init_buying` holds a stack of the inventory of the seller,
the primary weapon of the seller, or an item that `vehicle_selector( seller.pos(), 1 )`
visits; when it is a shopkeeper, an offer may also hold an item that
`map_selector( seller.pos(), PICKUP_RANGE )` visits. -/
theorem init_buying_sources (world : npc_trading.trade_world) (price_adjustment : Int → ℚ)
    (np : npc) (fac : Option npc_trading.faction) (buyer seller : npc_trading.Character)
    (stock : npc_trading.seller_items) (is_npc : Bool)
    (hsort : ∀ l x, x ∈ world.sort l ↔ x ∈ l) (offer : item_pricing)
    (hmem : offer ∈ npc_trading.init_buying world price_adjustment np fac buyer seller stock
      is_npc) :
    (∃ stack ∈ stock.inv_slice, offer.locs = stack) ∨
    offer.locs = [stock.primary_weapon] ∨
    (∃ node ∈ stock.vehicle_items, offer.locs = [node]) ∨
    (np.is_shopkeeper = true ∧ ∃ node ∈ stock.map_items, offer.locs = [node]) := by
  unfold npc_trading.init_buying at hmem
  simp only [] at hmem
  rw [hsort] at hmem
  rcases check_item_foldl_mem world fac _ is_npc stock.vehicle_items (fun node => [node])
    (fun _ => 1) _ offer hmem with h3 | ⟨node, hn, hl⟩
  · have hr2 : offer ∈ (if (!world.has_no_unwield stock.primary_weapon) = true then
          npc_trading.check_item world fac
            (npc_trading.net_price_adjustment price_adjustment buyer seller) is_npc
            (stock.inv_slice.foldl (fun result i =>
              npc_trading.check_item world fac
                (npc_trading.net_price_adjustment price_adjustment buyer seller) is_npc
                result i (i.length : Int)) []) [stock.primary_weapon] 1
        else stock.inv_slice.foldl (fun result i =>
              npc_trading.check_item world fac
                (npc_trading.net_price_adjustment price_adjustment buyer seller) is_npc
                result i (i.length : Int)) []) →
        (∃ stack ∈ stock.inv_slice, offer.locs = stack) ∨
          offer.locs = [stock.primary_weapon] := by
      intro h2
      have h1 : offer ∈ stock.inv_slice.foldl (fun result i =>
              npc_trading.check_item world fac
                (npc_trading.net_price_adjustment price_adjustment buyer seller) is_npc
                result i (i.length : Int)) [] →
          ∃ stack ∈ stock.inv_slice, offer.locs = stack := by
        intro h1
        rcases check_item_foldl_mem world fac _ is_npc stock.inv_slice (fun i => i)
          (fun i => (i.length : Int)) _ offer h1 with h0 | h0
        · simp at h0
        · exact h0
      split_ifs at h2
      · rcases check_item_mem world fac _ is_npc _ _ _ offer h2 with h | h
        · exact Or.inl (h1 h)
        · exact Or.inr h
      · exact Or.inl (h1 h2)
    by_cases hshop : np.is_shopkeeper = true
    · rw [if_pos hshop] at h3
      rcases check_item_foldl_mem world fac _ is_npc stock.map_items (fun node => [node])
        (fun _ => 1) _ offer h3 with h2 | ⟨node, hn, hl⟩
      · rcases hr2 h2 with h | h
        · exact Or.inl h
        · exact Or.inr (Or.inl h)
      · exact Or.inr (Or.inr (Or.inr ⟨hshop, node, hn, hl⟩))
    · rw [if_neg hshop] at h3
      rcases hr2 h3 with h | h
      · exact Or.inl h
      · exact Or.inr (Or.inl h)
  · exact Or.inr (Or.inr (Or.inl ⟨node, hn, hl⟩))

/-- The instance of C22 (amended) for the seller with the cart: the one offer found is
`cart_offer`, which holds the item of the vehicle. -/
theorem init_buying_sources_witness :
    npc_trading.init_buying open_world (fun _ => 1) trader_npc none
      { int_cur := 8, barter_skill_level := 0 } { int_cur := 8, barter_skill_level := 0 }
      seller_with_cart false = [cart_offer] ∧
    ((∃ stack ∈ seller_with_cart.inv_slice, cart_offer.locs = stack) ∨
      cart_offer.locs = [seller_with_cart.primary_weapon] ∨
      (∃ node ∈ seller_with_cart.vehicle_items, cart_offer.locs = [node]) ∨
      (trader_npc.is_shopkeeper = true ∧
        ∃ node ∈ seller_with_cart.map_items, cart_offer.locs = [node])) :=
  ⟨by with_unfolding_all decide,
   init_buying_sources open_world (fun _ => 1) trader_npc none
      { int_cur := 8, barter_skill_level := 0 } { int_cur := 8, barter_skill_level := 0 }
      seller_with_cart false (fun _ _ => Iff.rfl) cart_offer
      (by with_unfolding_all decide)⟩

/-! ### The traversal order of the balance map -/

/-- C23, refuted as stated: the amounts of the plan depend on the order in which the balance
map is visited.  For the offers at prices 10 (maximum 5) and 15 (maximum 3) of the `yours`
pane and the starting balance -30, visiting the map in insertion order plans 0 and 2 items,
visiting it in the reverse order plans 3 and 0 items; both orders visit exactly the entries
of the map. -/
theorem category_plan_depends_on_order :
    calc_category_autobalance_plan (fun m => m) false (-30) [offer_price_10, offer_price_15]
      [0, 1] range_two = [(0, 0), (1, 2)] ∧
    calc_category_autobalance_plan (fun m => m.reverse) false (-30)
      [offer_price_10, offer_price_15] [0, 1] range_two = [(0, 3), (1, 0)] ∧
    (∀ (m : balance_map) (x : Int × balance_choice), x ∈ (fun m => m) m ↔ x ∈ m) ∧
    (∀ (m : balance_map) (x : Int × balance_choice),
      x ∈ (fun (m : balance_map) => m.reverse) m ↔ x ∈ m) := by
  refine ⟨by with_unfolding_all decide, by with_unfolding_all decide, fun _ _ => Iff.rfl, ?_⟩
  intro m x
  exact List.mem_reverse

/-- C23, amended: the balance that the plan reaches does not depend on the order in which the
balance map is visited.  For two traversal orders that visit exactly the entries of the map, a
filtered list without repeated indices, a range inside it and current amounts within
`[0, max]`, the two plans give the same balance `B + sum of unit * (amount - current)`. -/
theorem category_plan_balance_order_independent (iter1 iter2 : balance_map → balance_map)
    (hiter1 : ∀ m x, x ∈ iter1 m ↔ x ∈ m) (hiter2 : ∀ m x, x ∈ iter2 m ↔ x ∈ m)
    (focus_them : Bool) (B : Int) (list : List item_pricing) (filtered : List Nat)
    (range : category_range) (hnd : filtered.Nodup) (hend : range.end_ ≤ filtered.length)
    (hcur : ∀ idx, range.start ≤ idx → idx < range.end_ →
      0 ≤ get_current_amount focus_them (offer_at list filtered idx) ∧
      get_current_amount focus_them (offer_at list filtered idx) ≤
        get_max_amount (offer_at list filtered idx)) :
    planned_balance focus_them B list filtered
      (searched_positions focus_them list filtered range)
      (planned_amount
        (calc_category_autobalance_plan iter1 focus_them B list filtered range) filtered) =
    planned_balance focus_them B list filtered
      (searched_positions focus_them list filtered range)
      (planned_amount
        (calc_category_autobalance_plan iter2 focus_them B list filtered range) filtered) := by
  obtain ⟨f1, a1, b1⟩ :=
    category_plan_spec iter1 hiter1 focus_them B list filtered range hnd hend hcur
  obtain ⟨f2, a2, b2⟩ :=
    category_plan_spec iter2 hiter2 focus_them B list filtered range hnd hend hcur
  have g1 := fun idx hidx => (f1 idx hidx).2
  have g2 := fun idx hidx => (f2 idx hidx).2
  by_cases hex : ∃ other : Nat → Int,
      (∀ idx ∈ searched_positions focus_them list filtered range,
        0 ≤ other idx ∧ other idx ≤ get_max_amount (offer_at list filtered idx)) ∧
      0 ≤ planned_balance focus_them B list filtered
        (searched_positions focus_them list filtered range) other
  · obtain ⟨n1, o1⟩ := a1 hex
    obtain ⟨n2, o2⟩ := a2 hex
    exact le_antisymm (o1 _ g2 n2) (o2 _ g1 n1)
  · exact le_antisymm (b2 hex _ g1) (b1 hex _ g2)

/-- The instance of C23 (amended) for the offers at prices 10 and 15 and the starting balance
-30: the plans of the two orders differ, and both reach the balance 0. -/
theorem category_plan_balance_order_independent_witness :
    planned_balance false (-30) [offer_price_10, offer_price_15] [0, 1]
      (searched_positions false [offer_price_10, offer_price_15] [0, 1] range_two)
      (planned_amount (calc_category_autobalance_plan (fun m => m) false (-30)
        [offer_price_10, offer_price_15] [0, 1] range_two) [0, 1]) = 0 ∧
    planned_balance false (-30) [offer_price_10, offer_price_15] [0, 1]
      (searched_positions false [offer_price_10, offer_price_15] [0, 1] range_two)
      (planned_amount (calc_category_autobalance_plan (fun m => m) false (-30)
        [offer_price_10, offer_price_15] [0, 1] range_two) [0, 1]) =
    planned_balance false (-30) [offer_price_10, offer_price_15] [0, 1]
      (searched_positions false [offer_price_10, offer_price_15] [0, 1] range_two)
      (planned_amount (calc_category_autobalance_plan (fun m => m.reverse) false (-30)
        [offer_price_10, offer_price_15] [0, 1] range_two) [0, 1]) :=
  ⟨by with_unfolding_all decide,
   category_plan_balance_order_independent (fun m => m) (fun m => m.reverse)
      (fun _ _ => Iff.rfl) (fun _ _ => List.mem_reverse) false (-30)
      [offer_price_10, offer_price_15] [0, 1] range_two (by decide) (by decide)
      (by
        intro idx _ h2
        have h2' : idx < 2 := h2
        interval_cases idx <;> exact ⟨by decide, by decide⟩)⟩

end BN
